import Mathlib

/-!
Schola: the typed space / point model, its serialization, and the drivers around it.

A shallow embedding of `Source/Schola/Private/Common/Spaces.cpp` together with the
declarations of `Public/Common/Spaces.h` and `Public/Common/Points.h`, of the interaction
manager and the inference policy, of the training state structs and the trainer, of the
rotation actuator, of the Python gym connector and of the tick of the manager subsystem.

Conventions of the embedding

* `float` is modelled by `ℚ` (an ordered field without NaN, infinities or rounding) and `int`
  by `Int` (without overflow) wherever a statement does not turn on the values a machine number
  takes: layouts, orders of calls, serialization, round trips.
* The statements about comparisons, arithmetic and sums of numbers are made on a second
  embedding of the same source lines, in the namespace `Machine`: there a `float` is NaN, an
  infinity or a number, a comparison with NaN is false, an arithmetic result is rounded and
  overflows to an infinity, and a sum of `int`s wraps around at 32 bits. A counter or an index
  that is bounded by the length of an array stays exact, as a `TArray` holds fewer than `2^31`
  elements.
* `TArray<T>` and `TArrayView<T>` are modelled by `List T`.  Their `operator[]` is range
  checked: an access outside `[0, Num())` aborts, which the embedding renders as `none`.
  A failed `assert`, a `TVariant::Get` on the wrong alternative and a raw pointer span that
  leaves its array are rendered as `none` as well.
* A counted loop `for (int i = 0; i < N; i++)` is a structural recursion on the number of
  iterations still to run, carrying the loop counter.
* A pointer member is modelled by what it points to; pointers are taken to be valid.
* A protobuf message is a structure with its fields, a repeated field is a list, a map field
  is the list of its entries.
* A virtual method without a body in the sources (of a brain, a connector, a trainer, a
  serializer) is a function given to the definition that calls it.
* An execution of the subsystem is the list of the calls it makes on its inference agents
  together with the state it reaches, `none` when a range check ended it.
-/

namespace Schola

/-! ## Arrays -/

/-- Range-checked read `Arr[Index]` with an `int` index. -/
def TArray.get {α : Type} (Arr : List α) (Index : Int) : Option α :=
  if 0 ≤ Index then Arr[Index.toNat]? else none

/-- Range-checked write `Arr[Index] = Value` with an `int` index. -/
def TArray.set {α : Type} (Arr : List α) (Index : Int) (Value : α) : Option (List α) :=
  if 0 ≤ Index ∧ Index < (Arr.length : Int) then some (Arr.set Index.toNat Value) else none

/-- The `Count` elements found at `Arr.GetData() + Offset`; the span has to lie inside the
array. -/
def TArray.span {α : Type} (Arr : List α) (Offset Count : Int) : Option (List α) :=
  if 0 ≤ Offset ∧ 0 ≤ Count ∧ Offset + Count ≤ (Arr.length : Int) then
    some ((Arr.drop Offset.toNat).take Count.toNat)
  else none

/-- Writing a view obtained with `TArray.span` back over the array it aliases. -/
def TArray.writeSpan {α : Type} (Arr : List α) (Offset Count : Int) (View : List α) : List α :=
  Arr.take Offset.toNat ++ View ++ Arr.drop (Offset.toNat + Count.toNat)

/-- The counted loop `for (int i = start; i < start + n; i++) s = body(i, s)`; an aborting body
aborts the loop. -/
def forLoop {σ : Type} (body : Nat → σ → Option σ) : Nat → Nat → σ → Option σ
  | 0, _, s => some s
  | n + 1, i, s => (body i s).bind (forLoop body n (i + 1))

/-! ## Points (`Points.h`) -/

/-- A point in a box (continuous) space. -/
structure FBoxPoint where
  Values : List ℚ
  deriving DecidableEq, Repr

/-- A point in a binary space. -/
structure FBinaryPoint where
  Values : List Bool
  deriving DecidableEq, Repr

/-- A point in a discrete space. -/
structure FDiscretePoint where
  Values : List Int
  deriving DecidableEq, Repr

/-- The variant `TVariant<FBoxPoint, FBinaryPoint, FDiscretePoint>`. -/
inductive TPoint where
  | Box (P : FBoxPoint)
  | Binary (P : FBinaryPoint)
  | Discrete (P : FDiscretePoint)
  deriving DecidableEq, Repr

/-- A dictionary of points, in order. -/
structure FDictPoint where
  Points : List TPoint
  deriving DecidableEq, Repr

/-! ## Spaces (`Spaces.h`) -/

/-- Modelled from the spec: the enumeration `ESpaceValidationResult` is declared in
`Common/IValidatable.h`, which is not part of the sources at hand; its five values are the
ones the spec lists and `Spaces.cpp` uses. -/
inductive ESpaceValidationResult where
  | NoResults
  | Success
  | WrongDataType
  | WrongDimensions
  | OutOfBounds
  deriving DecidableEq, Repr

/-- One dimension of a box space. -/
structure FBoxSpaceDimension where
  High : ℚ := 1
  Low : ℚ := -1
  deriving DecidableEq, Repr

/-- A box (continuous) space. -/
structure FBoxSpace where
  Dimensions : List FBoxSpaceDimension := []
  deriving DecidableEq, Repr

/-- A binary space. -/
structure FBinarySpace where
  Shape : Int := 0
  deriving DecidableEq, Repr

/-- A discrete space. -/
structure FDiscreteSpace where
  High : List Int := []
  deriving DecidableEq, Repr

/-- The variant `TVariant<FBoxSpace, FDiscreteSpace, FBinarySpace>`. -/
inductive TSpace where
  | Box (S : FBoxSpace)
  | Discrete (S : FDiscreteSpace)
  | Binary (S : FBinarySpace)
  deriving DecidableEq, Repr

/-- A dictionary of spaces, stored as two parallel arrays. -/
structure FDictSpace where
  Labels : List String := []
  Spaces : List TSpace := []
  deriving DecidableEq, Repr

/-! ## `FBoxSpace` -/

/-- The method `FBoxSpace::GetNumDimensions`. -/
def FBoxSpace.GetNumDimensions (S : FBoxSpace) : Int := S.Dimensions.length

/-- The method `FBoxSpace::GetFlattenedSize`. -/
def FBoxSpace.GetFlattenedSize (S : FBoxSpace) : Int := S.Dimensions.length

/-- The bounds loop of `FBoxSpace::Validate`, with `n` iterations left and counter `i`. -/
def FBoxSpace.ValidateLoop (Dimensions : List FBoxSpaceDimension) (Values : List ℚ) :
    Nat → Nat → Option ESpaceValidationResult
  | 0, _ => some .Success
  | n + 1, i => do
    let v ← TArray.get Values i
    let d ← TArray.get Dimensions i
    if v > d.High ∨ v < d.Low then some .OutOfBounds
    else FBoxSpace.ValidateLoop Dimensions Values n (i + 1)

/-- The method `FBoxSpace::Validate`. -/
def FBoxSpace.Validate (S : FBoxSpace) (Observation : TPoint) : Option ESpaceValidationResult :=
  match Observation with
  | .Box TypedObservation =>
    if (S.Dimensions.length : Int) ≠ TypedObservation.Values.length then some .WrongDimensions
    else FBoxSpace.ValidateLoop S.Dimensions TypedObservation.Values S.Dimensions.length 0
  | _ => some .WrongDataType

/-- The method `FBoxSpace::UnflattenAction`: the point built from the `Dimensions.Num()` floats at
`Data.GetData() + Offset`. -/
def FBoxSpace.UnflattenAction (S : FBoxSpace) (Data : List ℚ) (Offset : Int) : Option TPoint :=
  (TArray.span Data Offset S.Dimensions.length).map fun Values => .Box ⟨Values⟩

/-- The method `FBoxSpace::FlattenPoint`. -/
def FBoxSpace.FlattenPoint (S : FBoxSpace) (Buffer : List ℚ) (Point : TPoint) :
    Option (List ℚ) :=
  if (Buffer.length : Int) ≠ S.GetFlattenedSize then none
  else match Point with
    | .Box P =>
      forLoop (fun i Buffer => do
          let a ← TArray.get P.Values i
          TArray.set Buffer i a)
        P.Values.length 0 Buffer
    | _ => none

/-- The method `FBoxSpace::MakeTPoint`. -/
def FBoxSpace.MakeTPoint (_S : FBoxSpace) : TPoint := .Box ⟨[]⟩

/-! ## `FBinarySpace` -/

/-- The method `FBinarySpace::GetNumDimensions`. -/
def FBinarySpace.GetNumDimensions (S : FBinarySpace) : Int := S.Shape

/-- The method `FBinarySpace::GetFlattenedSize`. -/
def FBinarySpace.GetFlattenedSize (S : FBinarySpace) : Int := S.Shape

/-- The method `FBinarySpace::Validate`. -/
def FBinarySpace.Validate (S : FBinarySpace) (Observation : TPoint) :
    Option ESpaceValidationResult :=
  match Observation with
  | .Binary TypedObservation =>
    if S.Shape ≠ TypedObservation.Values.length then some .WrongDimensions
    else some .Success
  | _ => some .WrongDataType

/-- The conversion `static_cast<bool>(float)`. -/
def floatToBool (x : ℚ) : Bool := decide (x ≠ 0)

/-- The implicit conversion from `bool` to `float`. -/
def boolToFloat (b : Bool) : ℚ := if b then 1 else 0

/-- The method `FBinarySpace::UnflattenAction`. -/
def FBinarySpace.UnflattenAction (S : FBinarySpace) (Data : List ℚ) (Offset : Int) :
    Option TPoint :=
  (forLoop (fun i (BoolArray : List Bool) => do
      let x ← TArray.get Data ((i : Int) + Offset)
      some (BoolArray ++ [floatToBool x]))
    S.GetNumDimensions.toNat 0 []).map fun BoolArray => .Binary ⟨BoolArray⟩

/-- The method `FBinarySpace::FlattenPoint`. -/
def FBinarySpace.FlattenPoint (S : FBinarySpace) (Buffer : List ℚ) (Point : TPoint) :
    Option (List ℚ) :=
  if (Buffer.length : Int) ≠ S.GetFlattenedSize then none
  else match Point with
    | .Binary P =>
      forLoop (fun i Buffer => do
          let a ← TArray.get P.Values i
          TArray.set Buffer i (boolToFloat a))
        P.Values.length 0 Buffer
    | _ => none

/-- The method `FBinarySpace::MakeTPoint`. -/
def FBinarySpace.MakeTPoint (_S : FBinarySpace) : TPoint := .Binary ⟨[]⟩

/-! ## `FDiscreteSpace` -/

/-- The method `FDiscreteSpace::GetNumDimensions`. -/
def FDiscreteSpace.GetNumDimensions (S : FDiscreteSpace) : Int := S.High.length

/-- The method `FDiscreteSpace::GetFlattenedSize`. -/
def FDiscreteSpace.GetFlattenedSize (S : FDiscreteSpace) : Int :=
  S.High.foldl (fun Size HighValue => Size + HighValue) 0

/-- The bounds loop of `FDiscreteSpace::Validate`, with `n` iterations left and counter `i`. -/
def FDiscreteSpace.ValidateLoop (High : List Int) (Values : List Int) :
    Nat → Nat → Option ESpaceValidationResult
  | 0, _ => some .Success
  | n + 1, i => do
    let v ← TArray.get Values i
    let h ← TArray.get High i
    if v > h ∨ v < 0 then some .OutOfBounds
    else FDiscreteSpace.ValidateLoop High Values n (i + 1)

/-- The method `FDiscreteSpace::Validate`. -/
def FDiscreteSpace.Validate (S : FDiscreteSpace) (Observation : TPoint) :
    Option ESpaceValidationResult :=
  match Observation with
  | .Discrete TypedObservation =>
    if (S.High.length : Int) ≠ TypedObservation.Values.length then some .WrongDimensions
    else FDiscreteSpace.ValidateLoop S.High TypedObservation.Values S.High.length 0
  | _ => some .WrongDataType

/-- One step of the range-based loop of `FDiscreteSpace::GetMaxValue`; the state is
`(CurrMax, Index, CurrIndex)`. -/
def FDiscreteSpace.GetMaxValueStep (st : ℚ × Int × Int) (Value : ℚ) : ℚ × Int × Int :=
  if Value > st.1 then (Value, st.2.2, st.2.2 + 1) else (st.1, st.2.1, st.2.2 + 1)

/-- The method `FDiscreteSpace::GetMaxValue`. -/
def FDiscreteSpace.GetMaxValue (_S : FDiscreteSpace) (Vector : List ℚ) : Option Int := do
  let CurrMax ← TArray.get Vector 0
  some (Vector.foldl FDiscreteSpace.GetMaxValueStep (CurrMax, 0, 0)).2.1

/-- The method `FDiscreteSpace::MakeTPoint`. -/
def FDiscreteSpace.MakeTPoint (_S : FDiscreteSpace) : TPoint := .Discrete ⟨[]⟩

/-- The body of the outer loop of `FDiscreteSpace::UnflattenAction`; the state is
`(TypedPoint.Values, CurrIndex)`. -/
def FDiscreteSpace.UnflattenStep (S : FDiscreteSpace) (Data : List ℚ) (Offset : Int)
    (i : Nat) (st : List Int × Int) : Option (List Int × Int) := do
  let BranchHigh ← TArray.get S.High i
  let BranchArray ← forLoop (fun k (BranchArray : List ℚ) => do
      let x ← TArray.get Data (((k : Int) + st.2) + Offset)
      some (BranchArray ++ [x]))
    BranchHigh.toNat 0 []
  let OutputValue ← S.GetMaxValue BranchArray
  let High_i ← TArray.get S.High i
  some (st.1 ++ [OutputValue], st.2 + High_i)

/-- The method `FDiscreteSpace::UnflattenAction`. -/
def FDiscreteSpace.UnflattenAction (S : FDiscreteSpace) (Data : List ℚ) (Offset : Int) :
    Option TPoint :=
  match S.MakeTPoint with
  | .Discrete TypedPoint =>
    (forLoop (S.UnflattenStep Data Offset) S.GetNumDimensions.toNat 0 (TypedPoint.Values, 0)).map
      fun st => .Discrete ⟨st.1⟩
  | _ => none

/-- The method `FDiscreteSpace::FlattenPoint`; the loop state is `(Buffer, BranchStart)`. -/
def FDiscreteSpace.FlattenPoint (S : FDiscreteSpace) (Buffer : List ℚ) (Point : TPoint) :
    Option (List ℚ) :=
  if (Buffer.length : Int) ≠ S.GetFlattenedSize then none
  else match Point with
    | .Discrete P =>
      (forLoop (fun i (st : List ℚ × Int) => do
          let a ← TArray.get P.Values i
          let Buffer ← TArray.set st.1 (a + st.2) 1
          let h ← TArray.get S.High i
          some (Buffer, st.2 + h))
        S.High.length 0 (Buffer, 0)).map Prod.fst
    | _ => none

/-! ## Dispatch over `TSpace` (`Visit`) -/

/-- The visit `Visit([](auto& TypedSpace) { return TypedSpace.GetFlattenedSize(); }, Space)`. -/
def TSpace.GetFlattenedSize : TSpace → Int
  | .Box S => S.GetFlattenedSize
  | .Discrete S => S.GetFlattenedSize
  | .Binary S => S.GetFlattenedSize

/-- The visit `Visit([&Point](auto& TypedSpace) { return TypedSpace.Validate(Point); }, Space)`. -/
def TSpace.Validate : TSpace → TPoint → Option ESpaceValidationResult
  | .Box S => S.Validate
  | .Discrete S => S.Validate
  | .Binary S => S.Validate

/-- The visit calling `TypedSpace.UnflattenAction(FlattenedPoint, StartIndex)`. -/
def TSpace.UnflattenAction : TSpace → List ℚ → Int → Option TPoint
  | .Box S => S.UnflattenAction
  | .Discrete S => S.UnflattenAction
  | .Binary S => S.UnflattenAction

/-- The visit calling `TypedSpace.FlattenPoint(View, Point)`. -/
def TSpace.FlattenPoint : TSpace → List ℚ → TPoint → Option (List ℚ)
  | .Box S => S.FlattenPoint
  | .Discrete S => S.FlattenPoint
  | .Binary S => S.FlattenPoint

/-! ## `FDictSpace` -/

/-- The method `FDictSpace::GetFlattenedSize`. -/
def FDictSpace.GetFlattenedSize (D : FDictSpace) : Int :=
  D.Spaces.foldl (fun Size Space => Size + Space.GetFlattenedSize) 0

/-- The loop of `FDictSpace::Validate`, with `n` iterations left, counter `i` and the running
`Result`. -/
def FDictSpace.ValidateLoop (Spaces : List TSpace) (PointMap : FDictPoint) :
    Nat → Nat → ESpaceValidationResult → Option ESpaceValidationResult
  | 0, _, Result => some Result
  | n + 1, i, Result => do
    let Space ← TArray.get Spaces i
    let Point ← TArray.get PointMap.Points i
    let CurrentResult ← Space.Validate Point
    match CurrentResult with
    | .NoResults => FDictSpace.ValidateLoop Spaces PointMap n (i + 1) Result
    | .Success => FDictSpace.ValidateLoop Spaces PointMap n (i + 1) CurrentResult
    | _ => some CurrentResult

/-- The method `FDictSpace::Validate`. -/
def FDictSpace.Validate (D : FDictSpace) (PointMap : FDictPoint) :
    Option ESpaceValidationResult :=
  FDictSpace.ValidateLoop D.Spaces PointMap D.Spaces.length 0 .NoResults

/-- A tensor binding: the buffer it points to (after the call) and its size in bytes, a
`uint64`. -/
structure FGenericTensorBinding where
  Data : List ℚ
  SizeInBytes : Nat
  deriving DecidableEq, Repr

/-- The value of `Size * sizeof(float)`, an `int` times a `size_t`, as a `uint64`. -/
def sizeInBytes (Size : Int) : Nat := ((Size * 4) % 2 ^ 64).toNat

/-- The body of the loop of `FDictSpace::CreateTensorBinding(Buffer, DictPoint)`; the state is
`(Buffer, Offset)`.  The child flattens into the view of `Count` floats at
`Buffer.GetData() + Offset`. -/
def FDictSpace.CreateTensorBindingStep (D : FDictSpace) (DictPoint : FDictPoint)
    (i : Nat) (st : List ℚ × Int) : Option (List ℚ × Int) := do
  let Space ← TArray.get D.Spaces i
  let Point ← TArray.get DictPoint.Points i
  let Count := Space.GetFlattenedSize
  let View ← TArray.span st.1 st.2 Count
  let View ← Space.FlattenPoint View Point
  some (TArray.writeSpan st.1 st.2 Count View, st.2 + Count)

/-- The method `FDictSpace::CreateTensorBinding(Buffer, DictPoint)`. -/
def FDictSpace.CreateTensorBinding (D : FDictSpace) (Buffer : List ℚ) (DictPoint : FDictPoint) :
    Option FGenericTensorBinding :=
  let Size := D.GetFlattenedSize
  (forLoop (D.CreateTensorBindingStep DictPoint) D.Spaces.length 0 (Buffer, 0)).map
    fun st => ⟨st.1, sizeInBytes Size⟩

/-- The body of the range-based loop of `FDictSpace::UnflattenPoint`; the state is
`(StartIndex, Output.Points)`. -/
def FDictSpace.UnflattenStep (FlattenedPoint : List ℚ) (st : Int × List TPoint)
    (Space : TSpace) : Option (Int × List TPoint) := do
  let Size := Space.GetFlattenedSize
  let Point ← Space.UnflattenAction FlattenedPoint st.1
  some (st.1 + Size, st.2 ++ [Point])

/-- The constructor `FBoxSpaceDimension(float Low, float High)`. -/
def FBoxSpaceDimension.ofBounds (Low High : ℚ) : FBoxSpaceDimension := { High := High, Low := Low }

/-- The method `FBoxSpaceDimension::ZeroOneUnitDimension`. -/
def FBoxSpaceDimension.ZeroOneUnitDimension : FBoxSpaceDimension :=
  FBoxSpaceDimension.ofBounds 0 1

/-- The method `FBoxSpaceDimension::RescaleValue(float NormalizedValue)`. -/
def FBoxSpaceDimension.RescaleValue (d : FBoxSpaceDimension) (NormalizedValue : ℚ) : ℚ :=
  (NormalizedValue * (d.High - d.Low)) + d.Low

/-- The method `FBoxSpaceDimension::NormalizeValue`. -/
def FBoxSpaceDimension.NormalizeValue (d : FBoxSpaceDimension) (Value : ℚ) : ℚ :=
  (Value - d.Low) / (d.High - d.Low)

/-- The method `FBoxSpace::Add(const FBoxSpaceDimension&)`. -/
def FBoxSpace.Add (S : FBoxSpace) (Dimension : FBoxSpaceDimension) : FBoxSpace :=
  { Dimensions := S.Dimensions ++ [Dimension] }

/-- The method `FBoxSpace::NormalizeObservation`; the loop state is `TypedObservation.Values`. -/
def FBoxSpace.NormalizeObservation (S : FBoxSpace) (Observation : TPoint) : Option TPoint :=
  match Observation with
  | .Box TypedObservation =>
    (forLoop (fun i (Values : List ℚ) => do
        let d ← TArray.get S.Dimensions i
        let v ← TArray.get Values i
        TArray.set Values i (d.NormalizeValue v))
      S.Dimensions.length 0 TypedObservation.Values).map fun Values => .Box ⟨Values⟩
  | _ => none

/-- The method `FBoxSpace::GetNormalizedObservationSpace`. -/
def FBoxSpace.GetNormalizedObservationSpace (S : FBoxSpace) : FBoxSpace :=
  (List.range S.Dimensions.length).foldl
    (fun (OutBoxSpace : FBoxSpace) _ => OutBoxSpace.Add FBoxSpaceDimension.ZeroOneUnitDimension)
    {}

/-- The method `FBinarySpace::NormalizeObservation`: binary observations are already
normalized. -/
def FBinarySpace.NormalizeObservation (_S : FBinarySpace) (Observation : TPoint) : Option TPoint :=
  some Observation

/-- The method `FDiscreteSpace::NormalizeObservation`: discrete observations are already
normalized. -/
def FDiscreteSpace.NormalizeObservation (_S : FDiscreteSpace) (Observation : TPoint) :
    Option TPoint :=
  some Observation

/-- The visit calling `TypedSpace.NormalizeObservation(CurrentObs)`. -/
def TSpace.NormalizeObservation : TSpace → TPoint → Option TPoint
  | .Box S => S.NormalizeObservation
  | .Discrete S => S.NormalizeObservation
  | .Binary S => S.NormalizeObservation

/-- The method `FDictSpace::NormalizeObservation`; the loop state is `Observations.Points`. -/
def FDictSpace.NormalizeObservation (D : FDictSpace) (Observations : FDictPoint) :
    Option FDictPoint :=
  (forLoop (fun i (Points : List TPoint) => do
      let CurrentObs ← TArray.get Points i
      let Space ← TArray.get D.Spaces i
      let Normalized ← Space.NormalizeObservation CurrentObs
      TArray.set Points i Normalized)
    D.Spaces.length 0 Observations.Points).map fun Points => ⟨Points⟩

/-! ## Dictionary bookkeeping (`Spaces.cpp`, `Points.h`, `Points.cpp`) -/

/-- The method `FDictSpace::Num`. -/
def FDictSpace.Num (_D : FDictSpace) : Int := 0

/-- The default-constructed `TSpace`: a `TVariant` starts out holding its first alternative, an
empty `FBoxSpace`. -/
def TSpace.default : TSpace := .Box {}

/-- The default-constructed `TPoint`: a `TVariant` starts out holding its first alternative, an
empty `FBoxPoint`. -/
def TPoint.default : TPoint := .Box ⟨[]⟩

/-- The method `FDictSpace::Add(const FString& Label)`: the dictionary after the call; the
reference it returns designates the last space. -/
def FDictSpace.Add (D : FDictSpace) (Label : String) : FDictSpace :=
  { Labels := D.Labels ++ [Label], Spaces := D.Spaces ++ [TSpace.default] }

/-- The method `FDictSpace::Reset`. -/
def FDictSpace.Reset (_D : FDictSpace) : FDictSpace := { Labels := [], Spaces := [] }

/-- The method `FDictPoint::Reset`: `Points.Reset(Points.Num())` empties the array and keeps its
capacity. -/
def FDictPoint.Reset (_P : FDictPoint) : FDictPoint := ⟨[]⟩

/-- The method `FDictPoint::Add()`: the dictionary after the call; the reference it returns
designates the last point. -/
def FDictPoint.Add (P : FDictPoint) : FDictPoint := ⟨P.Points ++ [TPoint.default]⟩

/-- Writing through a reference to the element that `Add` / `Emplace_GetRef` has just appended:
the last element of the array is replaced by `f` of it. -/
def TArray.modifyLast {α : Type} (Arr : List α) (f : α → α) : List α :=
  match Arr.getLast? with
  | some x => Arr.dropLast ++ [f x]
  | none => Arr

/-! ## Interactors (`AbstractInteractor.cpp`) -/

/-- The conversion `%05d` of `Appendf`: the decimal digits of the integer, padded on the left with
zeros to a width of five characters, a minus sign counting for one of them; longer numbers are
not truncated. -/
def formatD05 (IntId : Int) : List Char :=
  if 0 ≤ IntId then List.leftpad 5 '0' (Nat.toDigits 10 IntId.toNat)
  else '-' :: List.leftpad 4 '0' (Nat.toDigits 10 (-IntId).toNat)

/-- The method `UAbstractInteractor::GetId`, for an interactor whose `GetLabel()` is `Label`. -/
def UAbstractInteractor.GetId (Label : String) (IntId : Int) : String :=
  (("".append (String.mk (formatD05 IntId))).append "_").append Label

/-- An observer, as the interaction manager sees it: its `GetLabel()`, what
`FillObservationSpace` makes of the space handed to it and what `CollectObservations` makes of
the point handed to it. -/
structure UAbstractObserver where
  Label : String
  FillObservationSpace : TSpace → TSpace
  CollectObservations : TPoint → TPoint

/-- An actuator, as the interaction manager sees it: its `GetLabel()` and what `FillActionSpace`
makes of the space handed to it. -/
structure UActuator where
  Label : String
  FillActionSpace : TSpace → TSpace

/-- The method `GetId` of an observer, inherited from `UAbstractInteractor`. -/
def UAbstractObserver.GetId (Observer : UAbstractObserver) (IntId : Int) : String :=
  UAbstractInteractor.GetId Observer.Label IntId

/-- The method `GetId` of an actuator, inherited from `UAbstractInteractor`. -/
def UActuator.GetId (Actuator : UActuator) (IntId : Int) : String :=
  UAbstractInteractor.GetId Actuator.Label IntId

/-! ## The interaction manager (`InteractionManager.cpp`) -/

/-- The struct `FInteractionDefinition`. -/
structure FInteractionDefinition where
  ObsSpaceDefn : FDictSpace := {}
  ActionSpaceDefn : FDictSpace := {}
  bNormalizeObservations : Bool := false

/-- Modelled from the spec: the class declaration `Common/InteractionManager.h` is not among the
sources; these are the members `InteractionManager.cpp` reads and writes: the registered
observers and actuators, the interaction definition and the held observation point. -/
structure UInteractionManager where
  Observers : List UAbstractObserver := []
  Actuators : List UActuator := []
  InteractionDefn : FInteractionDefinition := {}
  Observations : FDictPoint := ⟨[]⟩

/-- The method `UInteractionManager::CollectObservationsFromObservers`. -/
def UInteractionManager.CollectObservationsFromObservers (InObservers : List UAbstractObserver)
    (OutObservationsMap : FDictPoint) : FDictPoint :=
  InObservers.foldl
    (fun (Out : FDictPoint) Observer =>
      ⟨TArray.modifyLast Out.Add.Points Observer.CollectObservations⟩)
    OutObservationsMap

/-- The method `UInteractionManager::CollectObservationSpaceFromObservers`; the loop state is
`(Id, OutDictSpace)`. -/
def UInteractionManager.CollectObservationSpaceFromObservers
    (InObservers : List UAbstractObserver) (OutDictSpace : FDictSpace) : FDictSpace :=
  (InObservers.foldl
    (fun (st : Int × FDictSpace) Observer =>
      let Added := st.2.Add (Observer.GetId st.1)
      (st.1 + 1,
        { Added with Spaces := TArray.modifyLast Added.Spaces Observer.FillObservationSpace }))
    (0, OutDictSpace)).2

/-- The method `UInteractionManager::CollectActionSpaceFromActuators`; the loop state is
`(Id, OutSpaceGroups)`. -/
def UInteractionManager.CollectActionSpaceFromActuators
    (InActuators : List UActuator) (OutSpaceGroups : FDictSpace) : FDictSpace :=
  (InActuators.foldl
    (fun (st : Int × FDictSpace) Actuator =>
      let Added := st.2.Add (Actuator.GetId st.1)
      (st.1 + 1,
        { Added with Spaces := TArray.modifyLast Added.Spaces Actuator.FillActionSpace }))
    (0, OutSpaceGroups)).2

/-- The method `UInteractionManager::AggregateObservations`: the manager after the call; the
reference it returns designates `Observations`. -/
def UInteractionManager.AggregateObservations (M : UInteractionManager) :
    Option UInteractionManager := do
  let Cleared := M.Observations.Reset
  let Collected := UInteractionManager.CollectObservationsFromObservers M.Observers Cleared
  if M.InteractionDefn.bNormalizeObservations then
    let Normalized ← M.InteractionDefn.ObsSpaceDefn.NormalizeObservation Collected
    some { M with Observations := Normalized }
  else
    some { M with Observations := Collected }

/-! ## The inference policy (`InferencePolicy.cpp`) -/

/-- Modelled from the spec: the enumeration `EDecisionType` is declared in
`Policies/PolicyDecision.h`, which is not among the sources; `ACTION` is the kind
`RequestDecision` gives a decision that carries an action, `POLICY_ERROR` stands for the kind of
the "policy-error" (decision unavailable) result. -/
inductive EDecisionType where
  | ACTION
  | POLICY_ERROR
  deriving DecidableEq, Repr

/-- Modelled from the spec: the action carried by a decision (`Agent/AgentAction.h` is not among
the sources); `RequestDecision` writes its member `Values`. -/
structure FAction where
  Values : FDictPoint := ⟨[]⟩
  deriving DecidableEq, Repr

/-- Modelled from the spec: the struct `FPolicyDecision` of `Policies/PolicyDecision.h`, which is
not among the sources: a decision kind and, for an `ACTION`, the action. -/
structure FPolicyDecision where
  DecisionType : EDecisionType
  Action : FAction := {}
  deriving DecidableEq, Repr

/-- Modelled from the spec: the static `FPolicyDecision::PolicyError()`, the distinguishable
"policy-error" decision. -/
def FPolicyDecision.PolicyError : FPolicyDecision := { DecisionType := .POLICY_ERROR }

/-- The interface `IModelInstanceInterface`, reduced to `RunSync`: from the input and output
bindings, the status the run reports (as the `int` the caller casts it to, 0 for success) and
what the memory of the output binding holds after the run; a run does not resize that memory. -/
structure IModelInstanceInterface where
  RunSync : List FGenericTensorBinding → List FGenericTensorBinding → Int × List ℚ
  RunSync_length : ∀ (InInputBindings : List FGenericTensorBinding)
    (OutputBinding : FGenericTensorBinding),
    (RunSync InInputBindings [OutputBinding]).2.length = OutputBinding.Data.length

/-- The class `UInferencePolicy`: the members `RequestDecision` uses. `ModelInstance` is `none`
for a null pointer. -/
structure UInferencePolicy where
  ActionSpaceDefn : FDictSpace := {}
  ObservationSpaceDefn : FDictSpace := {}
  bNetworkLoaded : Bool := false
  ActionBuffer : List ℚ := []
  ObservationBuffer : List ℚ := []
  ModelInstance : Option IModelInstanceInterface := none

/-- The method `UInferencePolicy::RequestDecision`: the state of the returned future (`some` when
it is already resolved) and the tasks handed to `AsyncTask`, each given by the observations it
captured. -/
def UInferencePolicy.RequestDecision (Policy : UInferencePolicy) (Observations : FDictPoint) :
    Option FPolicyDecision × List FDictPoint :=
  if !Policy.bNetworkLoaded then (some FPolicyDecision.PolicyError, [])
  else (none, [Observations])

/-- The struct `FRotator`, built as `FRotator(Pitch, Yaw, Roll)`. -/
structure FRotator where
  Pitch : ℚ
  Yaw : ℚ
  Roll : ℚ
  deriving DecidableEq, Repr

/-- The class `URotationActuator`: the members that `GetActionSpace` and
`ConvertActionToFRotator` read (its declaration, `Actuators/RotationActuator.h`, is not among
the sources). -/
structure URotationActuator where
  bHasPitch : Bool
  PitchBounds : FBoxSpaceDimension
  bHasRoll : Bool
  RollBounds : FBoxSpaceDimension
  bHasYaw : Bool
  YawBounds : FBoxSpaceDimension
  bNormalizeAndRescale : Bool

/-- The method `URotationActuator::GetActionSpace`. -/
def URotationActuator.GetActionSpace (A : URotationActuator) : FBoxSpace :=
  let SpaceDefinition : FBoxSpace := {}
  let SpaceDefinition :=
    if A.bHasPitch then
      if A.bNormalizeAndRescale then
        { SpaceDefinition with Dimensions :=
            SpaceDefinition.Dimensions ++ [FBoxSpaceDimension.ZeroOneUnitDimension] }
      else { SpaceDefinition with Dimensions := SpaceDefinition.Dimensions ++ [A.PitchBounds] }
    else SpaceDefinition
  let SpaceDefinition :=
    if A.bHasYaw then
      if A.bNormalizeAndRescale then
        { SpaceDefinition with Dimensions :=
            SpaceDefinition.Dimensions ++ [FBoxSpaceDimension.ZeroOneUnitDimension] }
      else { SpaceDefinition with Dimensions := SpaceDefinition.Dimensions ++ [A.YawBounds] }
    else SpaceDefinition
  let SpaceDefinition :=
    if A.bHasRoll then
      if A.bNormalizeAndRescale then
        { SpaceDefinition with Dimensions :=
            SpaceDefinition.Dimensions ++ [FBoxSpaceDimension.ZeroOneUnitDimension] }
      else { SpaceDefinition with Dimensions := SpaceDefinition.Dimensions ++ [A.RollBounds] }
    else SpaceDefinition
  SpaceDefinition

/-- The method `URotationActuator::ConvertActionToFRotator`; `Action[Offset++]` is the
range-checked `FBoxPoint::operator[]`. -/
def URotationActuator.ConvertActionToFRotator (A : URotationActuator) (Action : FBoxPoint) :
    Option FRotator := do
  let Pitch : ℚ := 0
  let Yaw : ℚ := 0
  let Roll : ℚ := 0
  let Offset : Int := 0
  let (Pitch, Offset) ←
    if A.bHasPitch then do
      let Pitch ← TArray.get Action.Values Offset
      let Offset := Offset + 1
      if A.bNormalizeAndRescale then some (A.PitchBounds.RescaleValue Pitch, Offset)
      else some (Pitch, Offset)
    else some (Pitch, Offset)
  let (Roll, Offset) ←
    if A.bHasRoll then do
      let Roll ← TArray.get Action.Values Offset
      let Offset := Offset + 1
      if A.bNormalizeAndRescale then some (A.RollBounds.RescaleValue Roll, Offset)
      else some (Roll, Offset)
    else some (Roll, Offset)
  let (Yaw, _) ←
    if A.bHasYaw then do
      let Yaw ← TArray.get Action.Values Offset
      let Offset := Offset + 1
      if A.bNormalizeAndRescale then some (A.YawBounds.RescaleValue Yaw, Offset)
      else some (Yaw, Offset)
    else some (Yaw, Offset)
  some ⟨Pitch, Yaw, Roll⟩

/-! ## Wire messages of spaces (`Spaces.cpp`) -/

/-- The message `BoxSpace::BoxSpaceDimension{low, high}`; the generated protobuf classes are not
among the sources, their fields are the ones of the wire schema. -/
structure BoxSpace.BoxSpaceDimension where
  low : ℚ := 0
  high : ℚ := 0
  deriving DecidableEq, Repr

/-- The message `BoxSpace{dimensions}`. -/
structure BoxSpace where
  dimensions : List BoxSpace.BoxSpaceDimension := []
  deriving DecidableEq, Repr

/-- The message `DiscreteSpace{high}`. -/
structure DiscreteSpace where
  high : List Int := []
  deriving DecidableEq, Repr

/-- The message `BinarySpace{shape}`. -/
structure BinarySpace where
  shape : Int := 0
  deriving DecidableEq, Repr

/-- The message `FundamentalSpace`, a oneof over the three kinds of space; a fresh message has
no arm set. -/
inductive FundamentalSpace where
  | SPACE_NOT_SET
  | box_space (Msg : BoxSpace)
  | discrete_space (Msg : DiscreteSpace)
  | binary_space (Msg : BinarySpace)
  deriving DecidableEq, Repr

/-- The message `DictSpace{labels, values}`. -/
structure DictSpace where
  labels : List String := []
  values : List FundamentalSpace := []
  deriving DecidableEq, Repr

/-- The accessor `mutable_box_space()`: the box arm when it is the one set, a fresh `BoxSpace`
that replaces whatever was set otherwise. -/
def FundamentalSpace.mutable_box_space : FundamentalSpace → BoxSpace
  | .box_space Msg => Msg
  | _ => {}

/-- The accessor `mutable_discrete_space()`. -/
def FundamentalSpace.mutable_discrete_space : FundamentalSpace → DiscreteSpace
  | .discrete_space Msg => Msg
  | _ => {}

/-- The accessor `mutable_binary_space()`. -/
def FundamentalSpace.mutable_binary_space : FundamentalSpace → BinarySpace
  | .binary_space Msg => Msg
  | _ => {}

/-- The method `FBoxSpaceDimension::FillProtobuf`. -/
def FBoxSpaceDimension.FillProtobuf (d : FBoxSpaceDimension)
    (Dimension : BoxSpace.BoxSpaceDimension) : BoxSpace.BoxSpaceDimension :=
  let Dimension := { Dimension with high := d.High }
  { Dimension with low := d.Low }

/-- The method `FBoxSpace::FillProtobuf(BoxSpace&)`: each dimension fills the message that
`add_dimensions()` appends. -/
def FBoxSpace.FillProtobuf (S : FBoxSpace) (Msg : BoxSpace) : BoxSpace :=
  S.Dimensions.foldl
    (fun (Msg : BoxSpace) Dimension =>
      { Msg with dimensions := Msg.dimensions ++ [Dimension.FillProtobuf {}] })
    Msg

/-- The method `FBoxSpace::FillProtobuf(FundamentalSpace*)`. -/
def FBoxSpace.FillFundamentalSpace (S : FBoxSpace) (Msg : FundamentalSpace) :
    FundamentalSpace :=
  .box_space (S.FillProtobuf Msg.mutable_box_space)

/-- The method `FBinarySpace::FillProtobuf(BinarySpace&)`. -/
def FBinarySpace.FillProtobuf (S : FBinarySpace) (Msg : BinarySpace) : BinarySpace :=
  { Msg with shape := S.Shape }

/-- The method `FBinarySpace::FillProtobuf(FundamentalSpace*)`. -/
def FBinarySpace.FillFundamentalSpace (S : FBinarySpace) (Msg : FundamentalSpace) :
    FundamentalSpace :=
  .binary_space (S.FillProtobuf Msg.mutable_binary_space)

/-- The method `FDiscreteSpace::FillProtobuf(DiscreteSpace&)`. -/
def FDiscreteSpace.FillProtobuf (S : FDiscreteSpace) (Msg : DiscreteSpace) : DiscreteSpace :=
  S.High.foldl (fun (Msg : DiscreteSpace) HighValue => { Msg with high := Msg.high ++ [HighValue] })
    Msg

/-- The method `FDiscreteSpace::FillProtobuf(FundamentalSpace*)`. -/
def FDiscreteSpace.FillFundamentalSpace (S : FDiscreteSpace) (Msg : FundamentalSpace) :
    FundamentalSpace :=
  .discrete_space (S.FillProtobuf Msg.mutable_discrete_space)

/-- The dispatch `Visit([SpaceMsg](auto& TypedSpace) { TypedSpace.FillProtobuf(SpaceMsg); }, _)`. -/
def TSpace.FillProtobuf : TSpace → FundamentalSpace → FundamentalSpace
  | .Box S, Msg => S.FillFundamentalSpace Msg
  | .Discrete S, Msg => S.FillFundamentalSpace Msg
  | .Binary S, Msg => S.FillFundamentalSpace Msg

/-- The method `FDictSpace::FillProtobuf`; `TCHAR_TO_UTF8` leaves the text of a label as it is. -/
def FDictSpace.FillProtobuf (D : FDictSpace) (Msg : DictSpace) : Option DictSpace :=
  forLoop (fun i (Msg : DictSpace) => do
      let Label ← TArray.get D.Labels i
      let Msg := { Msg with labels := Msg.labels ++ [Label] }
      let SpaceMsg : FundamentalSpace := .SPACE_NOT_SET
      let Space ← TArray.get D.Spaces i
      some { Msg with values := Msg.values ++ [Space.FillProtobuf SpaceMsg] })
    D.Spaces.length 0 Msg

/-! ## Training state (`TrainingStateStructs.h`) -/

/-- The enumeration `EAgentTrainingStatus`. -/
inductive EAgentTrainingStatus where
  | Running
  | Truncated
  | Completed
  deriving DecidableEq, Repr

/-- The enumeration `ETrainingMsgStatus`. -/
inductive ETrainingMsgStatus where
  | NoStatus
  | LastMsgPending
  | LastMsgSent
  deriving DecidableEq, Repr

/-- The class `ProtobufSerializer`, a point visitor built over the message it writes into. Its
header, `Communicator/ProtobufSerializer.h`, is not among the sources: what its three `Visit`
overloads make of the message is taken as given, for a message type `μ`. -/
structure ProtobufSerializer (μ : Type) where
  VisitBinary : FBinaryPoint → μ → μ
  VisitDiscrete : FDiscretePoint → μ → μ
  VisitBox : FBoxPoint → μ → μ

/-- The method `FDictPoint::Accept`: each sub-point, in order, accepts the visitor. -/
def FDictPoint.Accept {μ : Type} (P : FDictPoint) (Visitor : ProtobufSerializer μ) (Msg : μ) : μ :=
  P.Points.foldl
    (fun (Msg : μ) Point =>
      match Point with
      | .Box PointArg => Visitor.VisitBox PointArg Msg
      | .Binary PointArg => Visitor.VisitBinary PointArg Msg
      | .Discrete PointArg => Visitor.VisitDiscrete PointArg Msg)
    Msg

/-- The subscript `Map[Key]` of `google::protobuf::Map` followed by a write through the reference
it returns: a missing key is first inserted with the default value `Fresh`. A map is the list of
its entries. -/
def Map.updateAt {K V : Type} [DecidableEq K] (Fresh : V) (Write : V → V) :
    List (K × V) → K → List (K × V)
  | [], Key => [(Key, Write Fresh)]
  | Entry :: Rest, Key =>
    if Entry.1 = Key then (Entry.1, Write Entry.2) :: Rest
    else Entry :: Map.updateAt Fresh Write Rest Key

/-- The type `TSortedMap<int, V>`: its pairs, in increasing order of their keys, one per key. -/
structure TSortedMap (V : Type) where
  Pairs : List (Int × V) := []
  sorted : (Pairs.map Prod.fst).Pairwise (fun a b => a < b) := by decide

/-- The struct `FTrainerState`. `Observations` is what the pointer of that name points to, the
observation point held by the interaction manager of the trainer. -/
structure FTrainerState where
  Reward : ℚ := 0
  TrainingMsgStatus : ETrainingMsgStatus := .NoStatus
  Observations : FDictPoint := ⟨[]⟩
  Info : List (String × String) := []
  TrainingStatus : EAgentTrainingStatus := .Running

/-- The enumeration `Status` of the wire schema. -/
inductive Status where
  | RUNNING
  | COMPLETED
  | TRUNCATED
  deriving DecidableEq, Repr

/-- The message `AgentState{observations, info, reward, status}`, over the type `μ` of the
observation message. -/
structure AgentState (μ : Type) where
  observations : μ
  info : List (String × String) := []
  reward : ℚ := 0
  status : Status := .RUNNING

/-- The message `InitialAgentState{observations, info}`. -/
structure InitialAgentState (μ : Type) where
  observations : μ
  info : List (String × String) := []

/-- The message `EnvironmentState{agent_states}`. -/
structure EnvironmentState (μ : Type) where
  agent_states : List (Int × AgentState μ) := []

/-- The message `InitialEnvironmentState{agent_states}`. -/
structure InitialEnvironmentState (μ : Type) where
  agent_states : List (Int × InitialAgentState μ) := []

/-- The message `TrainingState{environment_states}`. -/
structure TrainingState (μ : Type) where
  environment_states : List (EnvironmentState μ) := []

/-- The message `InitialTrainingState{environment_states}`. -/
structure InitialTrainingState (μ : Type) where
  environment_states : List (Int × InitialEnvironmentState μ) := []

/-- The method `FTrainerState::ToProto(Schola::AgentState&)`. -/
def FTrainerState.ToProto {μ : Type} (St : FTrainerState) (Serializer : ProtobufSerializer μ)
    (OutState : AgentState μ) : AgentState μ :=
  let OutState :=
    { OutState with observations := St.Observations.Accept Serializer OutState.observations }
  let OutState := St.Info.foldl
    (fun (OutState : AgentState μ) InfoEntry =>
      { OutState with
        info := Map.updateAt "" (fun _ => InfoEntry.2) OutState.info InfoEntry.1 })
    OutState
  let OutState := { OutState with reward := St.Reward }
  match St.TrainingStatus with
  | .Running => { OutState with status := .RUNNING }
  | .Completed => { OutState with status := .COMPLETED }
  | .Truncated => { OutState with status := .TRUNCATED }

/-- The method `FTrainerState::IsDone`. -/
def FTrainerState.IsDone (St : FTrainerState) : Bool :=
  St.TrainingStatus == .Completed || St.TrainingStatus == .Truncated

/-- The method `FTrainerState::ToResetProto`. -/
def FTrainerState.ToResetProto {μ : Type} (St : FTrainerState) (Visitor : ProtobufSerializer μ)
    (OutState : InitialAgentState μ) : InitialAgentState μ :=
  let OutState :=
    { OutState with observations := St.Observations.Accept Visitor OutState.observations }
  St.Info.foldl
    (fun (OutState : InitialAgentState μ) InfoEntry =>
      { OutState with
        info := Map.updateAt "" (fun _ => InfoEntry.2) OutState.info InfoEntry.1 })
    OutState

/-- The struct `FSharedEnvironmentState`; the map holds what its pointers point to, the states
of the trainers. -/
structure FSharedEnvironmentState where
  AgentStates : TSortedMap FTrainerState := {}

/-- The method `FSharedEnvironmentState::ToProto(Schola::EnvironmentState&)`. -/
def FSharedEnvironmentState.ToProto {μ : Type} [Inhabited μ] (S : FSharedEnvironmentState)
    (Serializer : ProtobufSerializer μ) (OutMsg : EnvironmentState μ) : EnvironmentState μ :=
  S.AgentStates.Pairs.foldl
    (fun (OutMsg : EnvironmentState μ) IdToSharedState =>
      if IdToSharedState.2.TrainingMsgStatus = .LastMsgSent then OutMsg
      else
        { OutMsg with
          agent_states := Map.updateAt { observations := default }
            (IdToSharedState.2.ToProto Serializer) OutMsg.agent_states IdToSharedState.1 })
    OutMsg

/-- The method `FSharedEnvironmentState::ToResetProto`. -/
def FSharedEnvironmentState.ToResetProto {μ : Type} [Inhabited μ] (S : FSharedEnvironmentState)
    (Visitor : ProtobufSerializer μ) (OutTrainingStateMessage : InitialEnvironmentState μ) :
    InitialEnvironmentState μ :=
  S.AgentStates.Pairs.foldl
    (fun (Out : InitialEnvironmentState μ) AgentIdToState =>
      { Out with
        agent_states := Map.updateAt { observations := default }
          (AgentIdToState.2.ToResetProto Visitor) Out.agent_states AgentIdToState.1 })
    OutTrainingStateMessage

/-- The struct `FTrainingState`. -/
structure FTrainingState where
  EnvironmentStates : List FSharedEnvironmentState := []

/-- The method `FTrainingState::ToProto`. -/
def FTrainingState.ToProto {μ : Type} [Inhabited μ] (T : FTrainingState)
    (Serializer : ProtobufSerializer μ) : TrainingState μ :=
  T.EnvironmentStates.foldl
    (fun (TrainingStateMessage : TrainingState μ) EnvState =>
      { TrainingStateMessage with
        environment_states :=
          TrainingStateMessage.environment_states ++ [EnvState.ToProto Serializer {}] })
    {}

/-- The method `FTrainingState::ToResetProto`: `EnvironmentStates[EnvId]` is range checked. -/
def FTrainingState.ToResetProto {μ : Type} [Inhabited μ] (T : FTrainingState)
    (Visitor : ProtobufSerializer μ) (TargetEnvironments : List Int) :
    Option (InitialTrainingState μ) :=
  TargetEnvironments.foldlM
    (fun (TrainingStateMessage : InitialTrainingState μ) EnvId => do
      let EnvState ← TArray.get T.EnvironmentStates EnvId
      some { TrainingStateMessage with
        environment_states := Map.updateAt {} (EnvState.ToResetProto Visitor)
          TrainingStateMessage.environment_states EnvId })
    {}

/-! ## The trainer (`AbstractTrainer.cpp`) -/

/-- The class `AAbstractTrainer`: the members that `Think` and `Reset` read and write.
`State.Observations` points to `InteractionManager->Observations`; the two are kept equal. -/
structure AAbstractTrainer where
  State : FTrainerState := {}
  InteractionManager : UInteractionManager := {}
  Step : Int := 0

/-- The method `AAbstractTrainer::GetTrainingMsgStatus`. -/
def AAbstractTrainer.GetTrainingMsgStatus (T : AAbstractTrainer) : ETrainingMsgStatus :=
  T.State.TrainingMsgStatus

/-- The method `AAbstractTrainer::SetTrainingMsgStatus`. -/
def AAbstractTrainer.SetTrainingMsgStatus (T : AAbstractTrainer)
    (NewStatus : ETrainingMsgStatus) : AAbstractTrainer :=
  { T with State := { T.State with TrainingMsgStatus := NewStatus } }

/-- The method `AAbstractTrainer::SetTrainingStatus`. -/
def AAbstractTrainer.SetTrainingStatus (T : AAbstractTrainer)
    (NewStatus : EAgentTrainingStatus) : AAbstractTrainer :=
  { T with State := { T.State with TrainingStatus := NewStatus } }

/-- The method `AAbstractTrainer::IsDone`. -/
def AAbstractTrainer.IsDone (T : AAbstractTrainer) : Bool := T.State.IsDone

/-- The method `AAbstractTrainer::Think`, for a call in which the pure virtual `ComputeStatus()`
and `ComputeReward()` return the given values and `GetInfo` makes `GetInfo` of the emptied info
map: the trainer after the call and the state returned. -/
def AAbstractTrainer.Think (T : AAbstractTrainer) (ComputeStatus : EAgentTrainingStatus)
    (ComputeReward : ℚ) (GetInfo : List (String × String) → List (String × String)) :
    Option (AAbstractTrainer × FTrainerState) := do
  let T := { T with State := { T.State with TrainingStatus := ComputeStatus } }
  let T := { T with State := { T.State with Reward := ComputeReward } }
  let T := { T with State := { T.State with Info := [] } }
  let T := { T with State := { T.State with Info := GetInfo T.State.Info } }
  let Manager ← T.InteractionManager.AggregateObservations
  let T := { T with
    InteractionManager := Manager
    State := { T.State with Observations := Manager.Observations } }
  let T :=
    if T.IsDone then
      if T.GetTrainingMsgStatus = .LastMsgPending then T.SetTrainingMsgStatus .LastMsgSent
      else if T.GetTrainingMsgStatus = .NoStatus then T.SetTrainingMsgStatus .LastMsgPending
      else T
    else T
  some (T, T.State)

/-- The method `AAbstractTrainer::Reset`, for a call in which the pure virtual `ResetTrainer()`
makes `ResetTrainer` of the trainer and `GetInfo` makes `GetInfo` of the emptied info map. -/
def AAbstractTrainer.Reset (T : AAbstractTrainer) (ResetTrainer : AAbstractTrainer → AAbstractTrainer)
    (GetInfo : List (String × String) → List (String × String)) : Option AAbstractTrainer := do
  let T := ResetTrainer T
  let T := { T with
    InteractionManager := { T.InteractionManager with Observations := T.State.Observations.Reset }
    State := { T.State with Observations := T.State.Observations.Reset } }
  let T := { T with State := { T.State with Info := [] } }
  let T := { T with Step := 0 }
  let Manager ← T.InteractionManager.AggregateObservations
  let T := { T with
    InteractionManager := Manager
    State := { T.State with Observations := Manager.Observations } }
  let T := { T with State := { T.State with Info := GetInfo T.State.Info } }
  let T := T.SetTrainingStatus .Running
  some (T.SetTrainingMsgStatus .NoStatus)

/-! ## The connector to the external trainer (`PythonGymConnector.cpp`) -/

/-- The enumeration `EEnvironmentStatus`. -/
inductive EEnvironmentStatus where
  | Running
  | Resetting
  | Completed
  | Error
  deriving DecidableEq, Repr

/-- The class `AAbstractScholaEnvironment`, reduced to the member that the connector reads. -/
structure AAbstractScholaEnvironment where
  EnvironmentStatus : EEnvironmentStatus := .Running
  deriving DecidableEq, Repr

/-- The method `AAbstractScholaEnvironment::GetStatus`. -/
def AAbstractScholaEnvironment.GetStatus (Env : AAbstractScholaEnvironment) :
    EEnvironmentStatus :=
  Env.EnvironmentStatus

/-- The class `UPythonGymConnector`, reduced to the environments it inherits from
`UAbstractGymConnector`. -/
structure UPythonGymConnector where
  Environments : List AAbstractScholaEnvironment := []

/-- The method `UPythonGymConnector::SubmitPostResetState`: the message that it hands to
`PostResetStateService->SendProtobufMessage`. -/
def UPythonGymConnector.SubmitPostResetState {μ : Type} [Inhabited μ]
    (Connector : UPythonGymConnector) (Visitor : ProtobufSerializer μ) (States : FTrainingState) :
    Option (InitialTrainingState μ) := do
  let EnvsToReset ← forLoop (fun i (EnvsToReset : List Int) => do
      let Env ← TArray.get Connector.Environments i
      if Env.GetStatus = .Completed then some (EnvsToReset ++ [(i : Int)])
      else some EnvsToReset)
    Connector.Environments.length 0 []
  States.ToResetProto Visitor EnvsToReset

/-! ## Inference agents (`IInferenceAgent.cpp`, `InferenceComponent.h`) -/

/-- The enumeration `EAgentStatus`. -/
inductive EAgentStatus where
  | Running
  | Stopped
  | Error
  deriving DecidableEq, Repr

/-- Modelled from the spec: the enumeration `EBrainStatus` is declared in
`Brains/AbstractBrain.h`, which is not among the sources. `ActionReady` and `Error` are the
members that `IInferenceAgent::Act` compares with; `Running` stands for every other member. -/
inductive EBrainStatus where
  | Running
  | ActionReady
  | Error
  deriving DecidableEq, Repr

/-- The class `UAbstractBrain` (`Brains/AbstractBrain.h` is not among the sources), as an agent
uses it: what each method returns and makes of a brain of type `β`. -/
structure UAbstractBrain (β : Type) where
  IsDecisionStep : β → Bool
  RequestDecision : β → FDictPoint → Bool × β
  IsActionStep : β → Bool
  ResolveDecision : β → β
  GetStatus : β → EBrainStatus
  GetAction : β → FAction
  IncrementStep : β → β

/-- The class `UInferenceComponent`, an `IInferenceAgent`: its interaction manager, its brain
and its status. -/
structure UInferenceComponent (β : Type) where
  InteractionManager : UInteractionManager := {}
  Brain : β
  Status : EAgentStatus := .Running

/-- The method `UInferenceComponent::GetStatus`. -/
def UInferenceComponent.GetStatus {β : Type} (Agent : UInferenceComponent β) : EAgentStatus :=
  Agent.Status

/-- The method `UInferenceComponent::SetStatus`. -/
def UInferenceComponent.SetStatus {β : Type} (Agent : UInferenceComponent β)
    (NewStatus : EAgentStatus) : UInferenceComponent β :=
  { Agent with Status := NewStatus }

/-- The method `UInteractionManager::SendActionsToActuators`: `Actions[Id++]` is range checked;
what `TakeAction` does to the world is not part of the state. The loop state is `Id`. -/
def UInteractionManager.SendActionsToActuators (OutActuators : List UActuator)
    (Actions : FDictPoint) : Option Unit :=
  (OutActuators.foldlM
    (fun (Id : Int) (_ : UActuator) => (TArray.get Actions.Points Id).map fun _ => Id + 1)
    0).map fun _ => ()

/-- The method `UInteractionManager::DistributeActions`. -/
def UInteractionManager.DistributeActions (M : UInteractionManager) (ActionMap : FDictPoint) :
    Option Unit :=
  UInteractionManager.SendActionsToActuators M.Actuators ActionMap

/-- The method `IInferenceAgent::Think`: the agent after the call. -/
def IInferenceAgent.Think {β : Type} (Brain : UAbstractBrain β) (Agent : UInferenceComponent β) :
    Option (UInferenceComponent β) :=
  if Brain.IsDecisionStep Agent.Brain && Agent.GetStatus == .Running then do
    let Manager ← Agent.InteractionManager.AggregateObservations
    let Agent := { Agent with InteractionManager := Manager }
    let Requested := Brain.RequestDecision Agent.Brain Manager.Observations
    let bRequestSuceeded := Requested.1
    let Agent := { Agent with Brain := Requested.2 }
    if !bRequestSuceeded then some (Agent.SetStatus .Error) else some Agent
  else some Agent

/-- The method `IInferenceAgent::Act`: the agent after the call. -/
def IInferenceAgent.Act {β : Type} (Brain : UAbstractBrain β) (Agent : UInferenceComponent β) :
    Option (UInferenceComponent β) := do
  let Agent ←
    if Brain.IsActionStep Agent.Brain && Agent.GetStatus == .Running then do
      let Agent := { Agent with Brain := Brain.ResolveDecision Agent.Brain }
      if Brain.GetStatus Agent.Brain = .ActionReady then do
        let ActionMap := (Brain.GetAction Agent.Brain).Values
        Agent.InteractionManager.DistributeActions ActionMap
        some Agent
      else if Brain.GetStatus Agent.Brain = .Error then some (Agent.SetStatus .Error)
      else some Agent
    else some Agent
  some { Agent with Brain := Brain.IncrementStep Agent.Brain }

/-! ## The subsystem tick (`ScholaManagerSubsystem.cpp`, `AbstractGymConnector.h`) -/

/-- The enumeration `EConnectorStatus`. -/
inductive EConnectorStatus where
  | Running
  | Closed
  | Error
  | NotStarted
  deriving DecidableEq, Repr

/-- The class `UAbstractGymConnector`: its status, and in `Rest`, of a type `κ`, everything else
it holds (environments, services, the pending update). -/
structure UAbstractGymConnector (κ : Type) where
  Status : EConnectorStatus := .Running
  Rest : κ

/-- The method `UAbstractGymConnector::IsRunning`. -/
def UAbstractGymConnector.IsRunning {κ : Type} (G : UAbstractGymConnector κ) : Bool :=
  G.Status == .Running

/-- The method `UAbstractGymConnector::IsNotStarted`. -/
def UAbstractGymConnector.IsNotStarted {κ : Type} (G : UAbstractGymConnector κ) : Bool :=
  G.Status == .NotStarted || G.Status == .Closed

/-- The methods of the connector that `Tick` calls and whose bodies are not among the sources
(pure virtual, or defined in `AbstractGymConnector.cpp`): what each returns and makes of the
connector; `υ` is the type of a state update. They work on environments and trainers, not on
the inference agents of the subsystem. -/
structure IGymConnector (κ υ : Type) where
  CheckForStart : UAbstractGymConnector κ → Bool × UAbstractGymConnector κ
  ResolveEnvironmentStateUpdate : UAbstractGymConnector κ → Option υ × UAbstractGymConnector κ
  UpdateConnectorStatus : υ → UAbstractGymConnector κ → UAbstractGymConnector κ
  UpdateEnvironments : υ → UAbstractGymConnector κ → UAbstractGymConnector κ
  ResetCompletedEnvironments : UAbstractGymConnector κ → UAbstractGymConnector κ
  CollectEnvironmentStates : UAbstractGymConnector κ → UAbstractGymConnector κ
  SubmitEnvironmentStates : UAbstractGymConnector κ → UAbstractGymConnector κ

/-- The class `UScholaManagerSubsystem`; `GymConnector` is `none` for a null pointer. -/
structure UScholaManagerSubsystem (β κ : Type) where
  bSubsystemPrepared : Bool := false
  bFirstStep : Bool := true
  InferenceAgents : List (UInferenceComponent β) := []
  GymConnector : Option (UAbstractGymConnector κ) := none

/-- A call that the subsystem makes on the inference agent of the given index. -/
inductive AgentCall where
  | Think (Agent : Nat)
  | Act (Agent : Nat)
  deriving DecidableEq, Repr

/-- An execution: the calls made on inference agents, in order, and the state reached, `none`
when a failed range check ended the execution. -/
structure Run (σ : Type) where
  Calls : List AgentCall := []
  Final : Option σ

/-- The execution that makes no call and ends in `s`. -/
def Run.pure {σ : Type} (s : σ) : Run σ := { Calls := [], Final := some s }

/-- Sequencing: `f` continues from the state that `r` reaches, if it reaches one. -/
def Run.bind {σ τ : Type} (r : Run σ) (f : σ → Run τ) : Run τ :=
  match r.Final with
  | none => { Calls := r.Calls, Final := none }
  | some s => { Calls := r.Calls ++ (f s).Calls, Final := (f s).Final }

/-- The loop of `UScholaManagerSubsystem::InferenceAgentsThink` over the agents from index `i`
on: the calls made and the agents after the loop. -/
def UScholaManagerSubsystem.InferenceAgentsThinkLoop {β : Type} (Brain : UAbstractBrain β) :
    Nat → List (UInferenceComponent β) → Run (List (UInferenceComponent β))
  | _, [] => Run.pure []
  | i, Agent :: Rest =>
    if Agent.GetStatus ≠ .Error then
      match IInferenceAgent.Think Brain Agent with
      | none => { Calls := [.Think i], Final := none }
      | some After =>
        let r := UScholaManagerSubsystem.InferenceAgentsThinkLoop Brain (i + 1) Rest
        { Calls := .Think i :: r.Calls, Final := r.Final.map fun Agents => After :: Agents }
    else
      let r := UScholaManagerSubsystem.InferenceAgentsThinkLoop Brain (i + 1) Rest
      { Calls := r.Calls, Final := r.Final.map fun Agents => Agent :: Agents }

/-- The method `UScholaManagerSubsystem::InferenceAgentsThink`. -/
def UScholaManagerSubsystem.InferenceAgentsThink {β κ : Type} (Brain : UAbstractBrain β)
    (S : UScholaManagerSubsystem β κ) : Run (UScholaManagerSubsystem β κ) :=
  let r := UScholaManagerSubsystem.InferenceAgentsThinkLoop Brain 0 S.InferenceAgents
  { Calls := r.Calls, Final := r.Final.map fun Agents => { S with InferenceAgents := Agents } }

/-- The loop of `UScholaManagerSubsystem::InferenceAgentsAct` over the agents from index `i`
on. -/
def UScholaManagerSubsystem.InferenceAgentsActLoop {β : Type} (Brain : UAbstractBrain β) :
    Nat → List (UInferenceComponent β) → Run (List (UInferenceComponent β))
  | _, [] => Run.pure []
  | i, Agent :: Rest =>
    if Agent.GetStatus ≠ .Error then
      match IInferenceAgent.Act Brain Agent with
      | none => { Calls := [.Act i], Final := none }
      | some After =>
        let r := UScholaManagerSubsystem.InferenceAgentsActLoop Brain (i + 1) Rest
        { Calls := .Act i :: r.Calls, Final := r.Final.map fun Agents => After :: Agents }
    else
      let r := UScholaManagerSubsystem.InferenceAgentsActLoop Brain (i + 1) Rest
      { Calls := r.Calls, Final := r.Final.map fun Agents => Agent :: Agents }

/-- The method `UScholaManagerSubsystem::InferenceAgentsAct`. -/
def UScholaManagerSubsystem.InferenceAgentsAct {β κ : Type} (Brain : UAbstractBrain β)
    (S : UScholaManagerSubsystem β κ) : Run (UScholaManagerSubsystem β κ) :=
  let r := UScholaManagerSubsystem.InferenceAgentsActLoop Brain 0 S.InferenceAgents
  { Calls := r.Calls, Final := r.Final.map fun Agents => { S with InferenceAgents := Agents } }

/-- The first block of `Tick`: a connector that is not started is asked whether it starts, and
if it does the inference agents think. -/
def UScholaManagerSubsystem.TickStart {β κ υ : Type} (Brain : UAbstractBrain β)
    (Connector : IGymConnector κ υ) (S : UScholaManagerSubsystem β κ) :
    Run (UScholaManagerSubsystem β κ) :=
  match S.GymConnector with
  | some G =>
    if G.IsNotStarted then
      let S := { S with bFirstStep := true }
      let Started := Connector.CheckForStart G
      let bStarted := Started.1
      let S := { S with GymConnector := some Started.2 }
      if bStarted then S.InferenceAgentsThink Brain else Run.pure S
    else Run.pure S
  | none => Run.pure S

/-- The start of the action phase of `Tick`: a running connector resolves the state update and,
if there is one, updates its status and its environments. -/
def UScholaManagerSubsystem.TickResolve {β κ υ : Type} (Connector : IGymConnector κ υ)
    (S : UScholaManagerSubsystem β κ) : UScholaManagerSubsystem β κ :=
  match S.GymConnector with
  | some G =>
    if G.IsRunning then
      let Resolved := Connector.ResolveEnvironmentStateUpdate G
      match Resolved.1 with
      | some StateUpdate =>
        let G := Connector.UpdateConnectorStatus StateUpdate Resolved.2
        let G := Connector.UpdateEnvironments StateUpdate G
        { S with GymConnector := some G }
      | none => { S with GymConnector := some Resolved.2 }
    else S
  | none => S

/-- The end of the action phase of `Tick`: a running connector resets the completed
environments. -/
def UScholaManagerSubsystem.TickResetCompleted {β κ υ : Type} (Connector : IGymConnector κ υ)
    (S : UScholaManagerSubsystem β κ) : UScholaManagerSubsystem β κ :=
  match S.GymConnector with
  | some G =>
    if G.IsRunning then { S with GymConnector := some (Connector.ResetCompletedEnvironments G) }
    else S
  | none => S

/-- The start of the thinking phase of `Tick`: a running connector collects and submits the
environment states. -/
def UScholaManagerSubsystem.TickSubmit {β κ υ : Type} (Connector : IGymConnector κ υ)
    (S : UScholaManagerSubsystem β κ) : UScholaManagerSubsystem β κ :=
  match S.GymConnector with
  | some G =>
    if G.IsRunning then
      let G := Connector.CollectEnvironmentStates G
      let G := Connector.SubmitEnvironmentStates G
      { S with GymConnector := some G }
    else S
  | none => S

/-- The last block of `Tick`: the self-reset after the first step, and `bFirstStep = false`. -/
def UScholaManagerSubsystem.TickSelfReset {β κ υ : Type} (Connector : IGymConnector κ υ)
    (S : UScholaManagerSubsystem β κ) : UScholaManagerSubsystem β κ :=
  let S :=
    match S.GymConnector with
    | some G =>
      if !S.bFirstStep && G.IsRunning then
        { S with GymConnector := some (Connector.ResetCompletedEnvironments G) }
      else S
    | none => S
  { S with bFirstStep := false }

/-- The method `UScholaManagerSubsystem::Tick`. -/
def UScholaManagerSubsystem.Tick {β κ υ : Type} (Brain : UAbstractBrain β)
    (Connector : IGymConnector κ υ) (S : UScholaManagerSubsystem β κ) :
    Run (UScholaManagerSubsystem β κ) :=
  (S.TickStart Brain Connector).bind fun S =>
  ((S.TickResolve Connector).InferenceAgentsAct Brain).bind fun S =>
  (((S.TickResetCompleted Connector).TickSubmit Connector).InferenceAgentsThink Brain).bind
    fun S =>
  Run.pure (S.TickSelfReset Connector)

/-! ## Machine numbers: `float` with NaN and infinities, `int` of 32 bits

The definitions above compute with exact numbers. The ones below follow the same source lines with
the values a `float` and an `int` take in the running program: a comparison with NaN is false,
arithmetic results are rounded and overflow to an infinity, and a sum of `int`s wraps around.
The counters `Index`, `CurrIndex` and the loop variables stay exact integers: on a run that
passes its range checks they are bounded by the length of an array, which is below `2^31`. -/

/-- A value of the type `float`: not-a-number, an infinity, or a number. Every rational is admitted
as a number, which only adds values to those of the 32-bit format, and the two zeros are one
number (they compare equal). -/
inductive Machine.float where
  | NaN
  | NegInf
  | Finite (q : ℚ)
  | PosInf
  deriving DecidableEq, Repr

/-- The comparison `a < b` of two `float`s: false as soon as an operand is NaN. -/
def Machine.float.lt : Machine.float → Machine.float → Bool
  | .NaN, _ => false
  | _, .NaN => false
  | .NegInf, .NegInf => false
  | .NegInf, _ => true
  | .Finite _, .NegInf => false
  | .Finite a, .Finite b => decide (a < b)
  | .Finite _, .PosInf => true
  | .PosInf, _ => false

/-- The comparison `a > b` of two `float`s. -/
def Machine.float.gt (a b : Machine.float) : Bool := b.lt a

/-- The comparison `a <= b` of two `float`s: false as soon as an operand is NaN. -/
def Machine.float.le : Machine.float → Machine.float → Bool
  | .NaN, _ => false
  | _, .NaN => false
  | .NegInf, _ => true
  | .Finite _, .NegInf => false
  | .Finite a, .Finite b => decide (a ≤ b)
  | .Finite _, .PosInf => true
  | .PosInf, .PosInf => true
  | .PosInf, _ => false

/-- The comparison `a >= b` of two `float`s. -/
def Machine.float.ge (a b : Machine.float) : Bool := b.le a

/-- The rounding of the exact result of an arithmetic operation to a `float`. The hardware rounds
to the nearest value of the 32-bit format; the embedding takes any rounding with the properties
used here, which that one has: it is monotone, keeps 0 and 1, and gives the infinity from
`2^128` on. -/
structure Machine.Rounding where
  round : ℚ → Machine.float
  mono : ∀ p q : ℚ, p ≤ q → (round p).le (round q) = true
  zero : round 0 = .Finite 0
  one : round 1 = .Finite 1
  overflow : ∀ q : ℚ, 2 ^ 128 ≤ q → round q = .PosInf

/-- The difference `a - b` of two `float`s: NaN when an operand is NaN or both are the same
infinity, an infinity when one operand is, the rounded exact difference otherwise. -/
def Machine.float.sub (R : Machine.Rounding) : Machine.float → Machine.float → Machine.float
  | .NaN, _ => .NaN
  | _, .NaN => .NaN
  | .PosInf, .PosInf => .NaN
  | .NegInf, .NegInf => .NaN
  | .PosInf, _ => .PosInf
  | .NegInf, _ => .NegInf
  | .Finite _, .PosInf => .NegInf
  | .Finite _, .NegInf => .PosInf
  | .Finite a, .Finite b => R.round (a - b)

/-- The quotient `a / b` of two `float`s. The one zero of the embedding divides as `+0`: a number
other than zero divided by it is the infinity of the sign of that number, and `0 / 0` is NaN. -/
def Machine.float.div (R : Machine.Rounding) : Machine.float → Machine.float → Machine.float
  | .NaN, _ => .NaN
  | _, .NaN => .NaN
  | .PosInf, .PosInf => .NaN
  | .PosInf, .NegInf => .NaN
  | .NegInf, .PosInf => .NaN
  | .NegInf, .NegInf => .NaN
  | .PosInf, .Finite b => if b < 0 then .NegInf else .PosInf
  | .NegInf, .Finite b => if b < 0 then .PosInf else .NegInf
  | .Finite _, .PosInf => .Finite 0
  | .Finite _, .NegInf => .Finite 0
  | .Finite a, .Finite b =>
    if b = 0 then (if a = 0 then .NaN else if a < 0 then .NegInf else .PosInf)
    else R.round (a / b)

/-- The value an `int` holds after an arithmetic result `x`: the result wrapped to 32 bits in
two's complement, which is what the compiled addition leaves in the variable. -/
def Machine.wrapInt32 (x : Int) : Int := (x + 2 ^ 31) % 2 ^ 32 - 2 ^ 31

/-- A point in a box space, its values `float`s. -/
structure Machine.FBoxPoint where
  Values : List Machine.float
  deriving DecidableEq, Repr

/-- The variant `TVariant<FBoxPoint, FBinaryPoint, FDiscretePoint>`, over `float`s. -/
inductive Machine.TPoint where
  | Box (P : Machine.FBoxPoint)
  | Binary (P : FBinaryPoint)
  | Discrete (P : FDiscretePoint)
  deriving DecidableEq, Repr

/-- One dimension of a box space, its bounds `float`s. -/
structure Machine.FBoxSpaceDimension where
  High : Machine.float := .Finite 1
  Low : Machine.float := .Finite (-1)
  deriving DecidableEq, Repr

/-- A box space over `float` bounds. -/
structure Machine.FBoxSpace where
  Dimensions : List Machine.FBoxSpaceDimension := []
  deriving DecidableEq, Repr

/-- The method `FBoxSpace::GetNumDimensions`. -/
def Machine.FBoxSpace.GetNumDimensions (S : Machine.FBoxSpace) : Int := S.Dimensions.length

/-- The bounds loop of `FBoxSpace::Validate` over `float`s, with `n` iterations left and
counter `i`. -/
def Machine.FBoxSpace.ValidateLoop (Dimensions : List Machine.FBoxSpaceDimension)
    (Values : List Machine.float) : Nat → Nat → Option ESpaceValidationResult
  | 0, _ => some .Success
  | n + 1, i => do
    let v ← TArray.get Values i
    let d ← TArray.get Dimensions i
    if v.gt d.High || v.lt d.Low then some .OutOfBounds
    else Machine.FBoxSpace.ValidateLoop Dimensions Values n (i + 1)

/-- The method `FBoxSpace::Validate` over `float`s. -/
def Machine.FBoxSpace.Validate (S : Machine.FBoxSpace) (Observation : Machine.TPoint) :
    Option ESpaceValidationResult :=
  match Observation with
  | .Box TypedObservation =>
    if (S.Dimensions.length : Int) ≠ TypedObservation.Values.length then some .WrongDimensions
    else Machine.FBoxSpace.ValidateLoop S.Dimensions TypedObservation.Values S.Dimensions.length 0
  | _ => some .WrongDataType

/-- The constructor `FBoxSpaceDimension(float Low, float High)`. -/
def Machine.FBoxSpaceDimension.ofBounds (Low High : Machine.float) : Machine.FBoxSpaceDimension :=
  { High := High, Low := Low }

/-- The method `FBoxSpaceDimension::ZeroOneUnitDimension`. -/
def Machine.FBoxSpaceDimension.ZeroOneUnitDimension : Machine.FBoxSpaceDimension :=
  Machine.FBoxSpaceDimension.ofBounds (.Finite 0) (.Finite 1)

/-- The method `FBoxSpaceDimension::NormalizeValue` in `float` arithmetic. -/
def Machine.FBoxSpaceDimension.NormalizeValue (R : Machine.Rounding)
    (d : Machine.FBoxSpaceDimension) (Value : Machine.float) : Machine.float :=
  Machine.float.div R (Machine.float.sub R Value d.Low) (Machine.float.sub R d.High d.Low)

/-- The method `FBoxSpace::Add(const FBoxSpaceDimension&)`. -/
def Machine.FBoxSpace.Add (S : Machine.FBoxSpace) (Dimension : Machine.FBoxSpaceDimension) :
    Machine.FBoxSpace :=
  { Dimensions := S.Dimensions ++ [Dimension] }

/-- The method `FBoxSpace::NormalizeObservation` in `float` arithmetic; the loop state is
`TypedObservation.Values`. -/
def Machine.FBoxSpace.NormalizeObservation (R : Machine.Rounding) (S : Machine.FBoxSpace)
    (Observation : Machine.TPoint) : Option Machine.TPoint :=
  match Observation with
  | .Box TypedObservation =>
    (forLoop (fun i (Values : List Machine.float) => do
        let d ← TArray.get S.Dimensions i
        let v ← TArray.get Values i
        TArray.set Values i (d.NormalizeValue R v))
      S.Dimensions.length 0 TypedObservation.Values).map fun Values => .Box ⟨Values⟩
  | _ => none

/-- The method `FBoxSpace::GetNormalizedObservationSpace`. -/
def Machine.FBoxSpace.GetNormalizedObservationSpace (S : Machine.FBoxSpace) : Machine.FBoxSpace :=
  (List.range S.Dimensions.length).foldl
    (fun (OutBoxSpace : Machine.FBoxSpace) _ =>
      OutBoxSpace.Add Machine.FBoxSpaceDimension.ZeroOneUnitDimension)
    {}

/-- One step of the range-based loop of `FDiscreteSpace::GetMaxValue` over `float`s; the state is
`(CurrMax, Index, CurrIndex)`. -/
def Machine.FDiscreteSpace.GetMaxValueStep (st : Machine.float × Int × Int)
    (Value : Machine.float) : Machine.float × Int × Int :=
  if Value.gt st.1 then (Value, st.2.2, st.2.2 + 1) else (st.1, st.2.1, st.2.2 + 1)

/-- The method `FDiscreteSpace::GetMaxValue` over `float`s. -/
def Machine.FDiscreteSpace.GetMaxValue (_S : FDiscreteSpace) (Vector : List Machine.float) :
    Option Int := do
  let CurrMax ← TArray.get Vector 0
  some (Vector.foldl Machine.FDiscreteSpace.GetMaxValueStep (CurrMax, 0, 0)).2.1

/-- The method `FDiscreteSpace::MakeTPoint`. -/
def Machine.FDiscreteSpace.MakeTPoint (_S : FDiscreteSpace) : Machine.TPoint := .Discrete ⟨[]⟩

/-- The body of the outer loop of `FDiscreteSpace::UnflattenAction` over `float`s; the state is
`(TypedPoint.Values, CurrIndex)`. -/
def Machine.FDiscreteSpace.UnflattenStep (S : FDiscreteSpace) (Data : List Machine.float)
    (Offset : Int) (i : Nat) (st : List Int × Int) : Option (List Int × Int) := do
  let BranchHigh ← TArray.get S.High i
  let BranchArray ← forLoop (fun k (BranchArray : List Machine.float) => do
      let x ← TArray.get Data (((k : Int) + st.2) + Offset)
      some (BranchArray ++ [x]))
    BranchHigh.toNat 0 []
  let OutputValue ← Machine.FDiscreteSpace.GetMaxValue S BranchArray
  let High_i ← TArray.get S.High i
  some (st.1 ++ [OutputValue], st.2 + High_i)

/-- The method `FDiscreteSpace::UnflattenAction` over `float`s. -/
def Machine.FDiscreteSpace.UnflattenAction (S : FDiscreteSpace) (Data : List Machine.float)
    (Offset : Int) : Option Machine.TPoint :=
  match Machine.FDiscreteSpace.MakeTPoint S with
  | .Discrete TypedPoint =>
    (forLoop (Machine.FDiscreteSpace.UnflattenStep S Data Offset) S.GetNumDimensions.toNat 0
      (TypedPoint.Values, 0)).map fun st => .Discrete ⟨st.1⟩
  | _ => none

/-- The method `FDiscreteSpace::GetFlattenedSize` with the accumulator an `int`. -/
def Machine.FDiscreteSpace.GetFlattenedSize (S : FDiscreteSpace) : Int :=
  S.High.foldl (fun Size HighValue => Machine.wrapInt32 (Size + HighValue)) 0

/-- The visit `Visit([](auto& TypedSpace) { return TypedSpace.GetFlattenedSize(); }, Space)`. -/
def Machine.TSpace.GetFlattenedSize : TSpace → Int
  | .Box S => S.GetFlattenedSize
  | .Discrete S => Machine.FDiscreteSpace.GetFlattenedSize S
  | .Binary S => S.GetFlattenedSize

/-- The method `FDictSpace::GetFlattenedSize` with the accumulator an `int`. -/
def Machine.FDictSpace.GetFlattenedSize (D : FDictSpace) : Int :=
  D.Spaces.foldl
    (fun Size Space => Machine.wrapInt32 (Size + Machine.TSpace.GetFlattenedSize Space)) 0

/-! ## Specification vocabulary -/

/-- The index `i` is the first position of `V` holding a maximal value: `V[i] ≥ V[j]` for every
`j`, and no smaller index has that property. -/
def IsFirstArgMax (V : List ℚ) (i : Nat) : Prop :=
  ∃ hi : i < V.length, (∀ (j : Nat) (hj : j < V.length), V[j] ≤ V[i]) ∧
    ∀ (k : Nat) (hk : k < V.length), (∀ (j : Nat) (hj : j < V.length), V[j] ≤ V[k]) → i ≤ k

/-- The list `out` is the segment-wise argmax decoding of `Data` for the segment widths `High`:
its first value is the first argmax of the first `High[0]` elements, and so on with the
segments laid out one after the other. -/
def DecodesTo : List Int → List ℚ → List Int → Prop
  | [], _, out => out = []
  | h :: High, Data, out => ∃ (k : Nat) (rest : List Int), out = (k : Int) :: rest ∧
      IsFirstArgMax (Data.take h.toNat) k ∧ DecodesTo High (Data.drop h.toNat) rest

/-- A point conforms to a space: it holds the matching variant, with one value per dimension,
every value inside the bounds of its dimension (box: `Low ≤ v ≤ High`; discrete:
`0 ≤ v < High[i]`). -/
def TSpace.Conforms : TSpace → TPoint → Prop
  | .Box S, .Box p => p.Values.length = S.Dimensions.length ∧
      ∀ (i : Nat) (h1 : i < p.Values.length) (h2 : i < S.Dimensions.length),
        S.Dimensions[i].Low ≤ p.Values[i] ∧ p.Values[i] ≤ S.Dimensions[i].High
  | .Discrete S, .Discrete p => p.Values.length = S.High.length ∧
      ∀ (i : Nat) (h1 : i < p.Values.length) (h2 : i < S.High.length),
        0 ≤ p.Values[i] ∧ p.Values[i] < S.High[i]
  | .Binary S, .Binary p => (p.Values.length : Int) = S.Shape
  | _, _ => False

/-- A dictionary point conforms to a dictionary space positionally: it has one sub-point per
space, and sub-point `i` conforms to space `i`. -/
def FDictSpace.Conforms (D : FDictSpace) (P : FDictPoint) : Prop :=
  List.Forall₂ TSpace.Conforms D.Spaces P.Points

/-- The loop invariant of `GetMaxValue` after the first `k` values: `Index` is the first
position among them that holds their maximum `CurrMax`. -/
def GetMaxValueInv (V : List ℚ) (k : Nat) (st : ℚ × Int × Int) : Prop :=
  ∃ idx : Nat, st.2.1 = (idx : Int) ∧ st.2.2 = (k : Int) ∧ idx < k ∧ k ≤ V.length ∧
    ∃ h : idx < V.length, V[idx] = st.1 ∧
      (∀ (j : Nat) (hj : j < V.length), j < k → V[j] ≤ st.1) ∧
      (∀ (j : Nat) (hj : j < V.length), j < idx → V[j] < st.1)

/-- The point `Point` with, when it is a box point of a box space, every value replaced by the
`NormalizeValue` of its dimension; any other point as it is. -/
def normalizedPoint : TSpace → TPoint → TPoint
  | .Box S, .Box p => .Box ⟨List.zipWith (fun d v => d.NormalizeValue v) S.Dimensions p.Values⟩
  | _, Point => Point

/-- The five decimal digits of `n`, most significant first: the 5-digit zero-padded decimal of a
number below 100000. -/
def fiveDigits (n : Nat) : List Char :=
  [Nat.digitChar (n / 10000 % 10), Nat.digitChar (n / 1000 % 10), Nat.digitChar (n / 100 % 10),
    Nat.digitChar (n / 10 % 10), Nat.digitChar (n % 10)]

/-- The ids `GetId(Id)`, `GetId(Id + 1)`, ... of interactors with the given labels. -/
def idsFrom : Int → List String → List String
  | _, [] => []
  | Id, Label :: rest => UAbstractInteractor.GetId Label Id :: idsFrom (Id + 1) rest

/-- The encoding of a space in its arm of the oneof: a box space as one dimension message per
dimension, in order, with `low = Low` and `high = High`; a discrete space as its `High` array;
a binary space as `shape = Shape`. -/
def spaceEncoding : TSpace → FundamentalSpace
  | .Box S => .box_space ⟨S.Dimensions.map fun d => ⟨d.Low, d.High⟩⟩
  | .Discrete S => .discrete_space ⟨S.High⟩
  | .Binary S => .binary_space ⟨S.Shape⟩

/-- What one call of `Think` is given by the pure virtual functions of the trainer: the results
of `ComputeStatus()` and `ComputeReward()` and what `GetInfo` makes of the info map. -/
structure ThinkCall where
  ComputeStatus : EAgentTrainingStatus
  ComputeReward : ℚ := 0
  GetInfo : List (String × String) → List (String × String) := id

/-- The trainer after a sequence of `Think` calls. -/
def thinkAll : AAbstractTrainer → List ThinkCall → Option AAbstractTrainer
  | T, [] => some T
  | T, Call :: Calls =>
    (T.Think Call.ComputeStatus Call.ComputeReward Call.GetInfo).bind fun r => thinkAll r.1 Calls

/-- The number of calls in which `ComputeStatus()` returns `Completed` or `Truncated`. -/
def doneCount (Calls : List ThinkCall) : Nat :=
  (Calls.filter fun Call => Call.ComputeStatus ≠ .Running).length

/-- The message status after the given number of done `Think` calls since the last reset: none
after no such call, pending after the first, sent after the second and every later one. -/
def msgStatusAfter : Nat → ETrainingMsgStatus
  | 0 => .NoStatus
  | 1 => .LastMsgPending
  | _ => .LastMsgSent

/-- The execution of `n` successive calls of `Tick`. -/
def tickSeries {β κ υ : Type} (Brain : UAbstractBrain β) (Connector : IGymConnector κ υ) :
    Nat → UScholaManagerSubsystem β κ → Run (UScholaManagerSubsystem β κ)
  | 0, S => Run.pure S
  | n + 1, S => (S.Tick Brain Connector).bind (tickSeries Brain Connector n)

/-- The agent of index `j` exists and its status is `Error`. -/
def AgentErrored {β : Type} (Agents : List (UInferenceComponent β)) (j : Nat) : Prop :=
  ∃ Agent, Agents[j]? = some Agent ∧ Agent.Status = .Error

/-- The agent of index `j` exists and its status is not `Error`. -/
def AgentLive {β : Type} (Agents : List (UInferenceComponent β)) (j : Nat) : Prop :=
  ∃ Agent, Agents[j]? = some Agent ∧ Agent.Status ≠ .Error

/-- Every call of `Act` in `Calls` comes after a call of `Think` on the same agent, in `Calls`
or in the calls `Seen` made before. -/
def ThinkPrecedesAct (Seen Calls : List AgentCall) : Prop :=
  ∀ (pre : List AgentCall) (j : Nat) (post : List AgentCall),
    Calls = pre ++ AgentCall.Act j :: post → AgentCall.Think j ∈ Seen ++ pre

/-- A brain that asks for a decision at every step, is always granted it and always has an
(empty) action ready. -/
def readyBrain : UAbstractBrain Unit where
  IsDecisionStep := fun _ => true
  RequestDecision := fun _ _ => (true, ())
  IsActionStep := fun _ => true
  ResolveDecision := fun _ => ()
  GetStatus := fun _ => .ActionReady
  GetAction := fun _ => {}
  IncrementStep := fun _ => ()

/-- A connector whose methods leave it as it is; it never starts and has no update. -/
def idleConnector : IGymConnector Unit Unit where
  CheckForStart := fun G => (false, G)
  ResolveEnvironmentStateUpdate := fun G => (none, G)
  UpdateConnectorStatus := fun _ G => G
  UpdateEnvironments := fun _ G => G
  ResetCompletedEnvironments := fun G => G
  CollectEnvironmentStates := fun G => G
  SubmitEnvironmentStates := fun G => G

/-- A connector that starts as soon as it is asked, and otherwise stays as it is. -/
def startingConnector : IGymConnector Unit Unit where
  CheckForStart := fun G => (true, { G with Status := .Running })
  ResolveEnvironmentStateUpdate := fun G => (none, G)
  UpdateConnectorStatus := fun _ G => G
  UpdateEnvironments := fun _ G => G
  ResetCompletedEnvironments := fun G => G
  CollectEnvironmentStates := fun G => G
  SubmitEnvironmentStates := fun G => G

/-- An order-preserving numbering of the `float`s that are not NaN, by rationals between -1 and 1
(NaN, which no comparison orders, gets 0). -/
def Machine.float.key : Machine.float → ℚ
  | .NaN => 0
  | .NegInf => -1
  | .Finite q => q / (1 + |q|)
  | .PosInf => 1

/-- The index `i` is the first position of `V` holding a maximal value, in `float` comparisons:
`V[i] >= V[j]` for every `j`, and no smaller index has that property. -/
def Machine.IsFirstArgMax (V : List Machine.float) (i : Nat) : Prop :=
  ∃ hi : i < V.length, (∀ (j : Nat) (hj : j < V.length), (V[i]).ge V[j] = true) ∧
    ∀ (k : Nat) (hk : k < V.length),
      (∀ (j : Nat) (hj : j < V.length), (V[k]).ge V[j] = true) → i ≤ k

/-- The value `x` lies in the range of a 32-bit `int`. -/
def Machine.IsInt32 (x : Int) : Prop := -2 ^ 31 ≤ x ∧ x < 2 ^ 31


/-- A rounding with the properties of `Machine.Rounding`, for worked examples: a result below
`2^128` in magnitude is kept as it is, a larger one becomes an infinity. It gives what the 32-bit
format gives whenever the exact result is a value of that format. -/
def Machine.Rounding.saturating : Machine.Rounding where
  round q := if 2 ^ 128 ≤ q then .PosInf else if q ≤ -2 ^ 128 then .NegInf else .Finite q
  mono := by
    intro p q hpq
    by_cases h1 : (2 : ℚ) ^ 128 ≤ p
    · have h2 : (2 : ℚ) ^ 128 ≤ q := le_trans h1 hpq
      simp [h1, h2, Machine.float.le]
    · by_cases h2 : (2 : ℚ) ^ 128 ≤ q
      · by_cases h3 : p ≤ -2 ^ 128 <;> simp [h1, h2, h3, Machine.float.le]
      · by_cases h3 : p ≤ -2 ^ 128
        · by_cases h4 : q ≤ -2 ^ 128 <;> simp [h1, h2, h3, h4, Machine.float.le]
        · have h4 : ¬ q ≤ -2 ^ 128 := fun h => h3 (le_trans hpq h)
          simp [h1, h2, h3, h4, Machine.float.le, hpq]
  zero := by norm_num
  one := by norm_num
  overflow := by
    intro q hq
    simp [hq]

/-! ## Auxiliary facts about arrays and loops -/

theorem TArray.get_natCast {α : Type} (Arr : List α) (i : Nat) :
    TArray.get Arr (i : Int) = Arr[i]? := by
  simp [TArray.get]

theorem TArray.get_of_lt {α : Type} (Arr : List α) (i : Nat) (h : i < Arr.length) :
    TArray.get Arr (i : Int) = some Arr[i] := by
  simp [TArray.get, List.getElem?_eq_getElem h]

theorem TArray.set_natCast {α : Type} (Arr : List α) (i : Nat) (v : α) (h : i < Arr.length) :
    TArray.set Arr (i : Int) v = some (Arr.set i v) := by
  simp [TArray.set, h]

theorem TArray.span_zero_length {α : Type} (Arr : List α) :
    TArray.span Arr 0 (Arr.length : Int) = some Arr := by
  simp [TArray.span]

/-- A loop that copies `Arr[i]`, converted by `f`, to `Buffer[i]` overwrites the positions it
runs over and nothing else. -/
theorem forLoop_copy {α : Type} (f : α → ℚ) (Arr : List α) :
    ∀ (n i : Nat) (B : List ℚ), i + n ≤ Arr.length → i + n ≤ B.length →
      forLoop (fun i Buffer => (TArray.get Arr (i : Int)).bind fun a =>
          TArray.set Buffer (i : Int) (f a)) n i B
        = some (B.take i ++ ((Arr.drop i).take n).map f ++ B.drop (i + n)) := by
  intro n
  induction n with
  | zero => intro i B _ _; simp [forLoop]
  | succ n ih =>
    intro i B hA hB
    have hiA : i < Arr.length := by omega
    have hiB : i < B.length := by omega
    rw [forLoop, TArray.get_of_lt Arr i hiA, Option.some_bind, TArray.set_natCast B i _ hiB,
      Option.some_bind, ih (i + 1) _ (by omega) (by simpa using by omega)]
    congr 1
    have h1 : (B.set i (f Arr[i])).take (i + 1) = B.take i ++ [f Arr[i]] := by
      have h0 : (B.set i (f Arr[i])).take i = B.take i := by
        apply List.ext_getElem?
        intro k
        rw [List.getElem?_take, List.getElem?_take]
        split
        · rw [List.getElem?_set_ne (by omega)]
        · rfl
      rw [List.take_succ, h0]
      simp [hiB]
    have h2 : (B.set i (f Arr[i])).drop (i + 1 + n) = B.drop (i + (n + 1)) := by
      rw [List.drop_set_of_lt]
      · congr 1; omega
      · omega
    have h3 : (Arr.drop i).take (n + 1) = Arr[i] :: (Arr.drop (i + 1)).take n := by
      rw [List.drop_eq_getElem_cons hiA, List.take_succ_cons]
    rw [h1, h2, h3]
    simp

/-! ## Box flatten / unflatten -/

/-- Flattening a box point with one value per dimension overwrites the whole buffer with the
point's values. -/
theorem FBoxSpace.FlattenPoint_box (S : FBoxSpace) (p : FBoxPoint) (Buffer : List ℚ)
    (hp : (p.Values.length : Int) = S.GetNumDimensions)
    (hB : (Buffer.length : Int) = S.GetFlattenedSize) :
    S.FlattenPoint Buffer (.Box p) = some p.Values := by
  have hlen : Buffer.length = p.Values.length := by
    simp only [FBoxSpace.GetNumDimensions, FBoxSpace.GetFlattenedSize] at hp hB
    omega
  have h := forLoop_copy (fun a => a) p.Values p.Values.length 0 Buffer (by simp) (by omega)
  simp only [FBoxSpace.FlattenPoint, hB, ne_eq, not_true_eq_false, if_false]
  have hbody : (fun (i : Nat) (Buffer : List ℚ) => do
      let a ← TArray.get p.Values i
      TArray.set Buffer i a) = (fun (i : Nat) (Buffer : List ℚ) =>
        (TArray.get p.Values (i : Int)).bind fun a => TArray.set Buffer (i : Int) a) := rfl
  rw [hbody, h]
  simp [← hlen]

/-- C1. Box round trip: flattening a box point that has one value per dimension into a buffer
of `GetFlattenedSize()` elements and unflattening that buffer at offset 0 gives the point back,
value by value. -/
theorem box_flatten_unflatten_roundtrip (S : FBoxSpace) (p : FBoxPoint) (Buffer : List ℚ)
    (hp : (p.Values.length : Int) = S.GetNumDimensions)
    (hB : (Buffer.length : Int) = S.GetFlattenedSize) :
    ∃ Flat, S.FlattenPoint Buffer (.Box p) = some Flat ∧
      (Flat.length : Int) = S.GetFlattenedSize ∧
      S.UnflattenAction Flat 0 = some (.Box p) := by
  refine ⟨p.Values, S.FlattenPoint_box p Buffer hp hB, ?_, ?_⟩
  · simpa [FBoxSpace.GetNumDimensions, FBoxSpace.GetFlattenedSize] using hp
  · have hlen : (S.Dimensions.length : Int) = (p.Values.length : Int) := by
      simpa [FBoxSpace.GetNumDimensions] using hp.symm
    rw [FBoxSpace.UnflattenAction, hlen, TArray.span_zero_length]
    rfl

/-- Witness for C1: a two-dimensional box space, the point `(1/2, 3)` and a zeroed buffer. -/
theorem box_flatten_unflatten_roundtrip_witness :
    ∃ Flat, FBoxSpace.FlattenPoint ⟨[⟨1, -1⟩, ⟨10, 0⟩]⟩ [0, 0] (.Box ⟨[1 / 2, 3]⟩) = some Flat ∧
      (Flat.length : Int) = FBoxSpace.GetFlattenedSize ⟨[⟨1, -1⟩, ⟨10, 0⟩]⟩ ∧
      FBoxSpace.UnflattenAction ⟨[⟨1, -1⟩, ⟨10, 0⟩]⟩ Flat 0 = some (.Box ⟨[1 / 2, 3]⟩) :=
  box_flatten_unflatten_roundtrip ⟨[⟨1, -1⟩, ⟨10, 0⟩]⟩ ⟨[1 / 2, 3]⟩ [0, 0] (by decide) (by decide)

/-! ## Argmax -/

theorem GetMaxValueInv_foldl (V : List ℚ) :
    ∀ (suf : List ℚ) (k : Nat) (st : ℚ × Int × Int), V.drop k = suf → GetMaxValueInv V k st →
      GetMaxValueInv V V.length (suf.foldl FDiscreteSpace.GetMaxValueStep st) := by
  intro suf
  induction suf with
  | nil =>
    intro k st hdrop hinv
    obtain ⟨idx, h1, h2, h3, hk, h, h4, h5, h6⟩ := hinv
    have hk2 : V.length ≤ k := by
      have := congrArg List.length hdrop
      simp at this
      omega
    have hk3 : k = V.length := by omega
    subst hk3
    exact ⟨idx, h1, h2, h3, hk, h, h4, h5, h6⟩
  | cons x suf ih =>
    intro k st hdrop hinv
    obtain ⟨idx, h1, h2, h3, hk, h, h4, h5, h6⟩ := hinv
    have hklt : k < V.length := by
      have := congrArg List.length hdrop
      simp at this
      omega
    have hx : V[k] = x := by
      have := List.drop_eq_getElem_cons hklt
      rw [hdrop] at this
      exact (List.cons.inj this).1.symm
    have hsuf : V.drop (k + 1) = suf := by
      have := List.drop_eq_getElem_cons hklt
      rw [hdrop] at this
      exact (List.cons.inj this).2.symm
    rw [List.foldl_cons]
    apply ih (k + 1) _ hsuf
    unfold FDiscreteSpace.GetMaxValueStep
    by_cases hgt : x > st.1
    · rw [if_pos hgt]
      refine ⟨k, h2, by simp [h2], by omega, by omega, hklt, hx, ?_, ?_⟩
      · intro j hj hjk
        rcases Nat.lt_succ_iff_lt_or_eq.mp hjk with hlt | heq
        · exact le_of_lt (lt_of_le_of_lt (h5 j hj hlt) hgt)
        · subst heq; exact le_of_eq hx
      · intro j hj hjk
        exact lt_of_le_of_lt (h5 j hj hjk) hgt
    · rw [if_neg hgt]
      refine ⟨idx, h1, by simp [h2], by omega, by omega, h, h4, ?_, h6⟩
      intro j hj hjk
      rcases Nat.lt_succ_iff_lt_or_eq.mp hjk with hlt | heq
      · exact h5 j hj hlt
      · subst heq; rw [hx]; exact not_lt.mp hgt

/-- The function `GetMaxValue` on a non-empty array returns the first position of the maximum, in the strict
form: everything before it is strictly smaller. -/
theorem FDiscreteSpace.GetMaxValue_spec (S : FDiscreteSpace) (V : List ℚ) (hV : V ≠ []) :
    ∃ i : Nat, S.GetMaxValue V = some (i : Int) ∧ ∃ hi : i < V.length,
      (∀ (j : Nat) (hj : j < V.length), V[j] ≤ V[i]) ∧
      (∀ (j : Nat) (hj : j < V.length), j < i → V[j] < V[i]) := by
  obtain ⟨x, rest, rfl⟩ := List.exists_cons_of_ne_nil hV
  have hinv : GetMaxValueInv (x :: rest) 1 (FDiscreteSpace.GetMaxValueStep (x, 0, 0) x) := by
    refine ⟨0, ?_, ?_, by omega, by simp, by simp, ?_, ?_, ?_⟩
    · simp [FDiscreteSpace.GetMaxValueStep]
    · simp [FDiscreteSpace.GetMaxValueStep]
    · simp [FDiscreteSpace.GetMaxValueStep]
    · intro j hj hj1
      have hj0 : j = 0 := by omega
      subst hj0
      simp [FDiscreteSpace.GetMaxValueStep]
    · intro j hj hj0
      omega
  have h := GetMaxValueInv_foldl (x :: rest) rest 1 _ (by simp) hinv
  obtain ⟨idx, h1, _, _, _, h, h4, h5, h6⟩ := h
  refine ⟨idx, ?_, h, ?_, ?_⟩
  · simp only [FDiscreteSpace.GetMaxValue, TArray.get]
    simp [← h1]
  · intro j hj
    rw [h4]
    exact h5 j hj hj
  · intro j hj hji
    rw [h4]
    exact h6 j hj hji

/-- The function `GetMaxValue` on a non-empty array returns the first position of the maximum. -/
theorem FDiscreteSpace.GetMaxValue_isFirstArgMax (S : FDiscreteSpace) (V : List ℚ)
    (hV : V ≠ []) : ∃ i : Nat, S.GetMaxValue V = some (i : Int) ∧ IsFirstArgMax V i := by
  obtain ⟨i, h1, hi, h2, h3⟩ := S.GetMaxValue_spec V hV
  refine ⟨i, h1, hi, h2, ?_⟩
  intro k hk hmax
  by_contra hlt
  have := h3 k hk (by omega)
  exact absurd (hmax i hi) (not_le.mpr this)

/-! ## Discrete unflatten -/

/-- A segment-wise decoding has one value per segment, and value `i` is the first argmax of
the segment that starts at the sum of the widths before it. -/
theorem DecodesTo.segment_argmax : ∀ (High : List Int) (Data : List ℚ) (out : List Int),
    (∀ h ∈ High, 0 ≤ h) → DecodesTo High Data out →
    out.length = High.length ∧ ∀ (i : Nat) (hi : i < High.length), ∃ k : Nat,
      out[i]? = some (k : Int) ∧
      IsFirstArgMax ((Data.drop ((High.take i).sum).toNat).take (High[i]).toNat) k := by
  intro High
  induction High with
  | nil =>
    intro Data out _ hdec
    simp only [DecodesTo] at hdec
    subst hdec
    exact ⟨rfl, fun i hi => absurd hi (by simp)⟩
  | cons h High ih =>
    intro Data out hnn hdec
    obtain ⟨k, rest, rfl, hmax, hrest⟩ := hdec
    have hh : 0 ≤ h := hnn h (List.mem_cons_self _ _)
    obtain ⟨hl, hp⟩ := ih (Data.drop h.toNat) rest
      (fun x hx => hnn x (List.mem_cons_of_mem _ hx)) hrest
    refine ⟨by simp [hl], ?_⟩
    intro i hi
    cases i with
    | zero => exact ⟨k, by simp, by simpa using hmax⟩
    | succ i =>
      have hi2 : i < High.length := by simpa using hi
      obtain ⟨k2, hk2, hmax2⟩ := hp i hi2
      refine ⟨k2, by simpa using hk2, ?_⟩
      have hsum : 0 ≤ (High.take i).sum := by
        apply List.sum_nonneg
        intro x hx
        exact hnn x (List.mem_cons_of_mem _ (List.mem_of_mem_take hx))
      have hnat : (h + (High.take i).sum).toNat = h.toNat + (High.take i).sum.toNat := by
        omega
      simp only [List.take_succ_cons, List.sum_cons, List.getElem_cons_succ, hnat]
      rw [List.drop_drop] at hmax2
      exact hmax2

/-- The bounds loop of `FBoxSpace::Validate` from dimension `i` on: `Success` when every remaining
value lies in its closed interval, `OutOfBounds` otherwise. -/
theorem FBoxSpace.ValidateLoop_box_spec (D : List FBoxSpaceDimension) (V : List ℚ)
    (hlen : V.length = D.length) :
    ∀ (n i : Nat), i + n = D.length →
      ((∀ (j : Nat) (h1 : j < V.length) (h2 : j < D.length), i ≤ j →
          D[j].Low ≤ V[j] ∧ V[j] ≤ D[j].High) ∧
        FBoxSpace.ValidateLoop D V n i = some .Success) ∨
      ((¬ ∀ (j : Nat) (h1 : j < V.length) (h2 : j < D.length), i ≤ j →
          D[j].Low ≤ V[j] ∧ V[j] ≤ D[j].High) ∧
        FBoxSpace.ValidateLoop D V n i = some .OutOfBounds) := by
  intro n
  induction n with
  | zero =>
    intro i hin
    left
    exact ⟨fun j h1 h2 hij => by omega, rfl⟩
  | succ n ih =>
    intro i hin
    have hiD : i < D.length := by omega
    have hiV : i < V.length := by omega
    have hstep : FBoxSpace.ValidateLoop D V (n + 1) i =
        if V[i] > D[i].High ∨ V[i] < D[i].Low then some .OutOfBounds
        else FBoxSpace.ValidateLoop D V n (i + 1) := by
      rw [FBoxSpace.ValidateLoop, TArray.get_of_lt V i hiV, TArray.get_of_lt D i hiD]
      rfl
    by_cases hout : V[i] > D[i].High ∨ V[i] < D[i].Low
    · right
      refine ⟨fun hall => ?_, by rw [hstep, if_pos hout]⟩
      have := hall i hiV hiD (le_refl i)
      rcases hout with h | h
      · exact absurd this.2 (not_le.mpr h)
      · exact absurd this.1 (not_le.mpr h)
    · rw [hstep, if_neg hout]
      have hin_i : D[i].Low ≤ V[i] ∧ V[i] ≤ D[i].High := by
        constructor
        · exact not_lt.mp fun h => hout (Or.inr h)
        · exact not_lt.mp fun h => hout (Or.inl h)
      rcases ih (i + 1) (by omega) with ⟨hall, hres⟩ | ⟨hnall, hres⟩
      · left
        refine ⟨fun j h1 h2 hij => ?_, hres⟩
        rcases Nat.eq_or_lt_of_le hij with heq | hlt
        · subst heq; exact hin_i
        · exact hall j h1 h2 hlt
      · right
        exact ⟨fun hall => hnall fun j h1 h2 hij => hall j h1 h2 (by omega), hres⟩

/-- The bounds loop of `FDiscreteSpace::Validate` from dimension `i` on: `Success` when every
remaining value `v` satisfies `0 ≤ v` and `v ≤ High[i]`, `OutOfBounds` otherwise. -/
theorem FDiscreteSpace.ValidateLoop_discrete_spec (H : List Int) (V : List Int)
    (hlen : V.length = H.length) :
    ∀ (n i : Nat), i + n = H.length →
      ((∀ (j : Nat) (h1 : j < V.length) (h2 : j < H.length), i ≤ j →
          0 ≤ V[j] ∧ V[j] ≤ H[j]) ∧
        FDiscreteSpace.ValidateLoop H V n i = some .Success) ∨
      ((¬ ∀ (j : Nat) (h1 : j < V.length) (h2 : j < H.length), i ≤ j →
          0 ≤ V[j] ∧ V[j] ≤ H[j]) ∧
        FDiscreteSpace.ValidateLoop H V n i = some .OutOfBounds) := by
  intro n
  induction n with
  | zero =>
    intro i hin
    left
    exact ⟨fun j h1 h2 hij => by omega, rfl⟩
  | succ n ih =>
    intro i hin
    have hiH : i < H.length := by omega
    have hiV : i < V.length := by omega
    have hstep : FDiscreteSpace.ValidateLoop H V (n + 1) i =
        if V[i] > H[i] ∨ V[i] < 0 then some .OutOfBounds
        else FDiscreteSpace.ValidateLoop H V n (i + 1) := by
      rw [FDiscreteSpace.ValidateLoop, TArray.get_of_lt V i hiV, TArray.get_of_lt H i hiH]
      rfl
    by_cases hout : V[i] > H[i] ∨ V[i] < 0
    · right
      refine ⟨fun hall => ?_, by rw [hstep, if_pos hout]⟩
      have := hall i hiV hiH (le_refl i)
      omega
    · rw [hstep, if_neg hout]
      rcases ih (i + 1) (by omega) with ⟨hall, hres⟩ | ⟨hnall, hres⟩
      · left
        refine ⟨fun j h1 h2 hij => ?_, hres⟩
        rcases Nat.eq_or_lt_of_le hij with heq | hlt
        · subst heq; omega
        · exact hall j h1 h2 hlt
      · right
        exact ⟨fun hall => hnall fun j h1 h2 hij => hall j h1 h2 (by omega), hres⟩

/-- C6 (the code at the failing input). `FDiscreteSpace::Validate` accepts the value 2 in a
dimension with `High = 2`, although `High = 2` stands for the values 0 and 1: the bounds test is
`Values[i] > High[i]`, so a value equal to `High[i]` is not rejected; 3 is. -/
theorem discrete_validate_accepts_high :
    FDiscreteSpace.Validate ⟨[2]⟩ (.Discrete ⟨[2]⟩) = some .Success ∧
    FDiscreteSpace.Validate ⟨[2]⟩ (.Discrete ⟨[3]⟩) = some .OutOfBounds := by
  decide

/-- The function `FBoxSpace::Validate` always returns, and never `NoResults`. -/
theorem FBoxSpace.Validate_box_total (S : FBoxSpace) (P : TPoint) :
    ∃ r, S.Validate P = some r ∧ r ≠ .NoResults := by
  cases P with
  | Box p =>
    by_cases hlen : (S.Dimensions.length : Int) = p.Values.length
    · have hlen2 : p.Values.length = S.Dimensions.length := by omega
      have hval : S.Validate (.Box p) =
          FBoxSpace.ValidateLoop S.Dimensions p.Values S.Dimensions.length 0 := by
        simp [FBoxSpace.Validate, hlen2]
      rw [hval]
      rcases FBoxSpace.ValidateLoop_box_spec S.Dimensions p.Values hlen2 S.Dimensions.length 0
        (by simp) with ⟨_, hres⟩ | ⟨_, hres⟩
      · exact ⟨_, hres, by decide⟩
      · exact ⟨_, hres, by decide⟩
    · exact ⟨.WrongDimensions, by simp [FBoxSpace.Validate, hlen], by decide⟩
  | Binary p => exact ⟨.WrongDataType, rfl, by decide⟩
  | Discrete p => exact ⟨.WrongDataType, rfl, by decide⟩

/-- The function `FDiscreteSpace::Validate` always returns, and never `NoResults`. -/
theorem FDiscreteSpace.Validate_discrete_total (S : FDiscreteSpace) (P : TPoint) :
    ∃ r, S.Validate P = some r ∧ r ≠ .NoResults := by
  cases P with
  | Discrete p =>
    by_cases hlen : (S.High.length : Int) = p.Values.length
    · have hlen2 : p.Values.length = S.High.length := by omega
      have hval : S.Validate (.Discrete p) =
          FDiscreteSpace.ValidateLoop S.High p.Values S.High.length 0 := by
        simp [FDiscreteSpace.Validate, hlen2]
      rw [hval]
      rcases FDiscreteSpace.ValidateLoop_discrete_spec S.High p.Values hlen2 S.High.length 0
        (by simp) with ⟨_, hres⟩ | ⟨_, hres⟩
      · exact ⟨_, hres, by decide⟩
      · exact ⟨_, hres, by decide⟩
    · exact ⟨.WrongDimensions, by simp [FDiscreteSpace.Validate, hlen], by decide⟩
  | Binary p => exact ⟨.WrongDataType, rfl, by decide⟩
  | Box p => exact ⟨.WrongDataType, rfl, by decide⟩

/-- The function `FBinarySpace::Validate` always returns, and never `NoResults`. -/
theorem FBinarySpace.Validate_binary_total (S : FBinarySpace) (P : TPoint) :
    ∃ r, S.Validate P = some r ∧ r ≠ .NoResults := by
  cases P with
  | Binary p =>
    by_cases hlen : S.Shape = p.Values.length
    · exact ⟨.Success, by simp [FBinarySpace.Validate, hlen], by decide⟩
    · exact ⟨.WrongDimensions, by simp [FBinarySpace.Validate, hlen], by decide⟩
  | Box p => exact ⟨.WrongDataType, rfl, by decide⟩
  | Discrete p => exact ⟨.WrongDataType, rfl, by decide⟩

/-- A child space of a dictionary always returns a validation result, never `NoResults`. -/
theorem TSpace.Validate_child_total (Space : TSpace) (P : TPoint) :
    ∃ r, Space.Validate P = some r ∧ r ≠ .NoResults := by
  cases Space with
  | Box S => exact S.Validate_box_total P
  | Discrete S => exact S.Validate_discrete_total P
  | Binary S => exact S.Validate_binary_total P

/-- The bounds loops only ever answer `Success` or `OutOfBounds`; with differing lengths they
are not reached.  An `OutOfBounds` answer of `FBoxSpace::Validate` therefore comes with a box
point of the right length. -/
theorem FBoxSpace.Validate_box_outOfBounds (S : FBoxSpace) (P : TPoint)
    (h : S.Validate P = some .OutOfBounds) :
    ∃ p, P = .Box p ∧ (p.Values.length : Int) = S.GetNumDimensions := by
  cases P with
  | Box p =>
    refine ⟨p, rfl, ?_⟩
    by_contra hne
    have hne2 : ¬ (S.Dimensions.length : Int) = p.Values.length := fun h2 =>
      hne (by simp [FBoxSpace.GetNumDimensions, h2])
    simp [FBoxSpace.Validate, hne2] at h
  | Binary p => simp [FBoxSpace.Validate] at h
  | Discrete p => simp [FBoxSpace.Validate] at h

theorem FDiscreteSpace.Validate_discrete_outOfBounds (S : FDiscreteSpace) (P : TPoint)
    (h : S.Validate P = some .OutOfBounds) :
    ∃ p, P = .Discrete p ∧ (p.Values.length : Int) = S.GetNumDimensions := by
  cases P with
  | Discrete p =>
    refine ⟨p, rfl, ?_⟩
    by_contra hne
    have hne2 : ¬ (S.High.length : Int) = p.Values.length := fun h2 =>
      hne (by simp [FDiscreteSpace.GetNumDimensions, h2])
    simp [FDiscreteSpace.Validate, hne2] at h
  | Binary p => simp [FDiscreteSpace.Validate] at h
  | Box p => simp [FDiscreteSpace.Validate] at h

/-- C7. Validation check order for `FBoxSpace`, `FDiscreteSpace` and `FBinarySpace`: a point of
another variant gives `WrongDataType` whatever it holds; a point of the right variant whose
element count differs from the dimension count gives `WrongDimensions` whatever its values;
`OutOfBounds` is only answered for a point that passed both checks; and `Validate` always
returns one of `Success`, `WrongDataType`, `WrongDimensions`, `OutOfBounds`. -/
theorem validate_check_order :
    (∀ (S : FBoxSpace) (P : TPoint),
      ((∀ p, P ≠ .Box p) → S.Validate P = some .WrongDataType) ∧
      (∀ p, P = .Box p → (p.Values.length : Int) ≠ S.GetNumDimensions →
        S.Validate P = some .WrongDimensions) ∧
      (S.Validate P = some .OutOfBounds →
        ∃ p, P = .Box p ∧ (p.Values.length : Int) = S.GetNumDimensions) ∧
      (S.Validate P = some .Success ∨ S.Validate P = some .WrongDataType ∨
        S.Validate P = some .WrongDimensions ∨ S.Validate P = some .OutOfBounds)) ∧
    (∀ (S : FDiscreteSpace) (P : TPoint),
      ((∀ p, P ≠ .Discrete p) → S.Validate P = some .WrongDataType) ∧
      (∀ p, P = .Discrete p → (p.Values.length : Int) ≠ S.GetNumDimensions →
        S.Validate P = some .WrongDimensions) ∧
      (S.Validate P = some .OutOfBounds →
        ∃ p, P = .Discrete p ∧ (p.Values.length : Int) = S.GetNumDimensions) ∧
      (S.Validate P = some .Success ∨ S.Validate P = some .WrongDataType ∨
        S.Validate P = some .WrongDimensions ∨ S.Validate P = some .OutOfBounds)) ∧
    (∀ (S : FBinarySpace) (P : TPoint),
      ((∀ p, P ≠ .Binary p) → S.Validate P = some .WrongDataType) ∧
      (∀ p, P = .Binary p → (p.Values.length : Int) ≠ S.GetNumDimensions →
        S.Validate P = some .WrongDimensions) ∧
      S.Validate P ≠ some .OutOfBounds ∧
      (S.Validate P = some .Success ∨ S.Validate P = some .WrongDataType ∨
        S.Validate P = some .WrongDimensions)) := by
  have hcases : ∀ (o : Option ESpaceValidationResult), (∃ r, o = some r ∧ r ≠ .NoResults) →
      o = some .Success ∨ o = some .WrongDataType ∨ o = some .WrongDimensions ∨
        o = some .OutOfBounds := by
    rintro o ⟨r, rfl, hr⟩
    cases r <;> simp at hr ⊢
  refine ⟨fun S P => ⟨?_, ?_, S.Validate_box_outOfBounds P, hcases _ (S.Validate_box_total P)⟩,
    fun S P => ⟨?_, ?_, S.Validate_discrete_outOfBounds P,
      hcases _ (S.Validate_discrete_total P)⟩,
    fun S P => ⟨?_, ?_, ?_, ?_⟩⟩
  · intro h
    cases P with
    | Box p => exact absurd rfl (h p)
    | Binary p => rfl
    | Discrete p => rfl
  · rintro p rfl hne
    have hne2 : ¬ (S.Dimensions.length : Int) = p.Values.length := fun h2 =>
      hne (by simp [FBoxSpace.GetNumDimensions, h2])
    simp [FBoxSpace.Validate, hne2]
  · intro h
    cases P with
    | Discrete p => exact absurd rfl (h p)
    | Binary p => rfl
    | Box p => rfl
  · rintro p rfl hne
    have hne2 : ¬ (S.High.length : Int) = p.Values.length := fun h2 =>
      hne (by simp [FDiscreteSpace.GetNumDimensions, h2])
    simp [FDiscreteSpace.Validate, hne2]
  · intro h
    cases P with
    | Binary p => exact absurd rfl (h p)
    | Discrete p => rfl
    | Box p => rfl
  · rintro p rfl hne
    have hne2 : ¬ S.Shape = p.Values.length := fun h2 =>
      hne (by simp [FBinarySpace.GetNumDimensions, h2])
    simp [FBinarySpace.Validate, hne2]
  · cases P with
    | Binary p =>
      by_cases hlen : S.Shape = p.Values.length <;> simp [FBinarySpace.Validate, hlen]
    | Discrete p => simp [FBinarySpace.Validate]
    | Box p => simp [FBinarySpace.Validate]
  · cases P with
    | Binary p =>
      by_cases hlen : S.Shape = p.Values.length <;> simp [FBinarySpace.Validate, hlen]
    | Discrete p => simp [FBinarySpace.Validate]
    | Box p => simp [FBinarySpace.Validate]

/-! ## Dictionary validation -/

/-- One iteration of the loop of `FDictSpace::Validate` whose child answers `Success`. -/
theorem FDictSpace.ValidateLoop_step_success (Spaces : List TSpace) (P : FDictPoint)
    (n i : Nat) (Result : ESpaceValidationResult) (s : TSpace) (pt : TPoint)
    (hs : Spaces[i]? = some s) (hpt : P.Points[i]? = some pt)
    (hv : s.Validate pt = some .Success) :
    FDictSpace.ValidateLoop Spaces P (n + 1) i Result
      = FDictSpace.ValidateLoop Spaces P n (i + 1) .Success := by
  rw [FDictSpace.ValidateLoop, TArray.get_natCast, TArray.get_natCast, hs, hpt]
  simp only [Option.bind_eq_bind, Option.some_bind, hv]

/-- One iteration of the loop of `FDictSpace::Validate` whose child answers a failure. -/
theorem FDictSpace.ValidateLoop_step_failure (Spaces : List TSpace) (P : FDictPoint)
    (n i : Nat) (Result r : ESpaceValidationResult) (s : TSpace) (pt : TPoint)
    (hs : Spaces[i]? = some s) (hpt : P.Points[i]? = some pt)
    (hv : s.Validate pt = some r) (h1 : r ≠ .Success) (h2 : r ≠ .NoResults) :
    FDictSpace.ValidateLoop Spaces P (n + 1) i Result = some r := by
  rw [FDictSpace.ValidateLoop, TArray.get_natCast, TArray.get_natCast, hs, hpt]
  simp only [Option.bind_eq_bind, Option.some_bind, hv]

/-- The loop returns the answer of the first child that does not answer `Success`, provided the
children before it and that child have a sub-point. -/
theorem FDictSpace.ValidateLoop_first_failure (Spaces : List TSpace) (P : FDictPoint) (k : Nat)
    (r : ESpaceValidationResult) (h1 : r ≠ .Success) (h2 : r ≠ .NoResults)
    (hk : ∃ s pt, Spaces[k]? = some s ∧ P.Points[k]? = some pt ∧ s.Validate pt = some r) :
    ∀ (n i : Nat) (Result : ESpaceValidationResult), i ≤ k → k < i + n →
      (∀ j, i ≤ j → j < k → ∃ s pt, Spaces[j]? = some s ∧ P.Points[j]? = some pt ∧
        s.Validate pt = some .Success) →
      FDictSpace.ValidateLoop Spaces P n i Result = some r := by
  intro n
  induction n with
  | zero => intro i Result hik hki _; omega
  | succ n ih =>
    intro i Result hik hki hbefore
    rcases Nat.eq_or_lt_of_le hik with heq | hlt
    · subst heq
      obtain ⟨s, pt, hs, hpt, hv⟩ := hk
      exact FDictSpace.ValidateLoop_step_failure Spaces P n i Result r s pt hs hpt hv h1 h2
    · obtain ⟨s, pt, hs, hpt, hv⟩ := hbefore i (le_refl i) hlt
      rw [FDictSpace.ValidateLoop_step_success Spaces P n i Result s pt hs hpt hv]
      exact ih (i + 1) .Success (by omega) (by omega)
        (fun j hij hjk => hbefore j (by omega) hjk)

/-- When every remaining child answers `Success`, so does the loop, unless it has nothing left
to run. -/
theorem FDictSpace.ValidateLoop_all_success (Spaces : List TSpace) (P : FDictPoint) :
    ∀ (n i : Nat) (Result : ESpaceValidationResult),
      (∀ j, i ≤ j → j < i + n → ∃ s pt, Spaces[j]? = some s ∧ P.Points[j]? = some pt ∧
        s.Validate pt = some .Success) →
      FDictSpace.ValidateLoop Spaces P n i Result = some (if n = 0 then Result else .Success) := by
  intro n
  induction n with
  | zero => intro i Result _; rfl
  | succ n ih =>
    intro i Result hall
    obtain ⟨s, pt, hs, hpt, hv⟩ := hall i (le_refl i) (by omega)
    rw [FDictSpace.ValidateLoop_step_success Spaces P n i Result s pt hs hpt hv,
      ih (i + 1) .Success (fun j hij hjn => hall j (by omega) (by omega))]
    simp

/-- C8. Dict validation, for a point with at least as many sub-points as the dictionary has
spaces: `NoResults` when there are no spaces; otherwise the answer of the first child space
whose `Validate` on its positional sub-point is not `Success`, whatever the later sub-points are;
and `Success` when every child answers `Success`. -/
theorem dict_validate_first_failure (D : FDictSpace) (P : FDictPoint)
    (hlen : D.Spaces.length ≤ P.Points.length) :
    (D.Spaces = [] → D.Validate P = some .NoResults) ∧
    (∀ (k : Nat) (hk : k < D.Spaces.length) (r : ESpaceValidationResult),
      (∀ (j : Nat) (hj : j < k), D.Spaces[j].Validate P.Points[j] = some .Success) →
      D.Spaces[k].Validate P.Points[k] = some r → r ≠ .Success →
      D.Validate P = some r ∧
      ∀ later : List TPoint, D.Validate ⟨P.Points.take (k + 1) ++ later⟩ = some r) ∧
    (D.Spaces ≠ [] →
      (∀ (j : Nat) (hj : j < D.Spaces.length), D.Spaces[j].Validate P.Points[j] = some .Success) →
      D.Validate P = some .Success) := by
  refine ⟨?_, ?_, ?_⟩
  · intro hempty
    simp [FDictSpace.Validate, hempty, FDictSpace.ValidateLoop]
  · intro k hk r hbefore hr hne
    have hnr : r ≠ .NoResults := by
      obtain ⟨r2, hr2, hne2⟩ := (D.Spaces[k]).Validate_child_total P.Points[k]
      rw [hr] at hr2
      cases hr2
      exact hne2
    refine ⟨?_, ?_⟩
    · apply FDictSpace.ValidateLoop_first_failure D.Spaces P k r hne hnr
        ⟨D.Spaces[k], P.Points[k], List.getElem?_eq_getElem hk,
          List.getElem?_eq_getElem (by omega), hr⟩ D.Spaces.length 0 .NoResults
        (Nat.zero_le k) (by omega)
      intro j _ hjk
      exact ⟨D.Spaces[j], P.Points[j], List.getElem?_eq_getElem (by omega),
        List.getElem?_eq_getElem (by omega), hbefore j hjk⟩
    · intro later
      have hget : ∀ (j : Nat) (_ : j ≤ k) (hjP : j < P.Points.length),
          (P.Points.take (k + 1) ++ later)[j]? = some P.Points[j] := by
        intro j hjk hjP
        rw [List.getElem?_append_left (by rw [List.length_take]; omega), List.getElem?_take,
          if_pos (by omega), List.getElem?_eq_getElem (by omega)]
      apply FDictSpace.ValidateLoop_first_failure D.Spaces _ k r hne hnr
        ⟨D.Spaces[k], P.Points[k], List.getElem?_eq_getElem hk, hget k (le_refl k) (by omega), hr⟩
        D.Spaces.length 0 .NoResults (Nat.zero_le k) (by omega)
      intro j _ hjk
      exact ⟨D.Spaces[j], P.Points[j], List.getElem?_eq_getElem (by omega),
        hget j (by omega) (by omega), hbefore j hjk⟩
  · intro hne hall
    have h := FDictSpace.ValidateLoop_all_success D.Spaces P D.Spaces.length 0 .NoResults
      (fun j _ hj => ⟨D.Spaces[j], P.Points[j], List.getElem?_eq_getElem (by omega),
        List.getElem?_eq_getElem (by omega), hall j (by omega)⟩)
    rw [FDictSpace.Validate, h, if_neg (by simpa using hne)]

/-- Witness for C8: a dictionary of a box, a discrete and a binary space, validated against a
point whose second sub-point is out of bounds and whose third has the wrong type: the answer is
that of the second child. -/
theorem dict_validate_first_failure_witness :
    (⟨[], [.Box ⟨[⟨1, -1⟩]⟩, .Discrete ⟨[3]⟩, .Binary ⟨1⟩]⟩ : FDictSpace).Spaces.length
      ≤ (⟨[.Box ⟨[0]⟩, .Discrete ⟨[7]⟩, .Box ⟨[0]⟩]⟩ : FDictPoint).Points.length ∧
    FDictSpace.Validate ⟨[], [.Box ⟨[⟨1, -1⟩]⟩, .Discrete ⟨[3]⟩, .Binary ⟨1⟩]⟩
      ⟨[.Box ⟨[0]⟩, .Discrete ⟨[7]⟩, .Box ⟨[0]⟩]⟩ = some .OutOfBounds :=
  ⟨by decide,
    ((dict_validate_first_failure ⟨[], [.Box ⟨[⟨1, -1⟩]⟩, .Discrete ⟨[3]⟩, .Binary ⟨1⟩]⟩
      ⟨[.Box ⟨[0]⟩, .Discrete ⟨[7]⟩, .Box ⟨[0]⟩]⟩ (by decide)).2.1 1 (by decide) .OutOfBounds
      (by
        intro j hj
        have hj0 : j = 0 := by omega
        subst hj0
        rfl)
      (by decide) (by decide)).1⟩

/-! ## Flattened sizes -/

/-- C13 (the code at the failing input). For the dictionary `[Discrete(High=[2])]`, flattening
`Discrete(0)` into the zeroed buffer gives `[1, 0]`; flattening `Discrete(1)` into that reused
buffer gives `[1, 1]`, whereas flattening `Discrete(1)` alone into a zeroed buffer gives
`[0, 1]`: the 1 of the earlier observation stays. -/
theorem reused_buffer_keeps_stale_one :
    FDictSpace.CreateTensorBinding ⟨["a"], [.Discrete ⟨[2]⟩]⟩ [0, 0] ⟨[.Discrete ⟨[0]⟩]⟩
      = some ⟨[1, 0], 8⟩ ∧
    FDictSpace.CreateTensorBinding ⟨["a"], [.Discrete ⟨[2]⟩]⟩ [1, 0] ⟨[.Discrete ⟨[1]⟩]⟩
      = some ⟨[1, 1], 8⟩ ∧
    FDictSpace.CreateTensorBinding ⟨["a"], [.Discrete ⟨[2]⟩]⟩ [0, 0] ⟨[.Discrete ⟨[1]⟩]⟩
      = some ⟨[0, 1], 8⟩ := by
  decide

/-! ## Normalize and rescale -/

/-- C14. Normalize / rescale inverse: for a dimension with `High ≠ Low` and every value `v`,
`RescaleValue(NormalizeValue(v)) = v`, with `NormalizeValue(v) = (v - Low) / (High - Low)` and
`RescaleValue(n) = n * (High - Low) + Low`. -/
theorem rescale_normalize_inverse (d : FBoxSpaceDimension) (v : ℚ) (h : d.High ≠ d.Low) :
    d.RescaleValue (d.NormalizeValue v) = v ∧
    d.NormalizeValue v = (v - d.Low) / (d.High - d.Low) ∧
    (∀ n : ℚ, d.RescaleValue n = n * (d.High - d.Low) + d.Low) := by
  refine ⟨?_, rfl, fun _ => rfl⟩
  have hne : d.High - d.Low ≠ 0 := sub_ne_zero.mpr h
  simp only [FBoxSpaceDimension.RescaleValue, FBoxSpaceDimension.NormalizeValue]
  rw [div_mul_cancel₀ _ hne]
  ring

/-- Witness for C14: the dimension `(0, 10)` and the value 5. -/
theorem rescale_normalize_inverse_witness :
    FBoxSpaceDimension.RescaleValue ⟨10, 0⟩ (FBoxSpaceDimension.NormalizeValue ⟨10, 0⟩ 5) = 5 :=
  (rescale_normalize_inverse ⟨10, 0⟩ 5 (by decide)).1

/-! ## The number of spaces of a dictionary -/

/-- C18 (the code at the failing input). After one `Add("a")` on an empty dictionary the
dictionary holds one space, yet `Num()` answers 0: its body is `return 0`. -/
theorem dict_num_is_zero :
    (FDictSpace.Add {} "a").Spaces.length = 1 ∧ (FDictSpace.Add {} "a").Num = 0 ∧
    ∀ D : FDictSpace, D.Num = 0 := by
  exact ⟨rfl, rfl, fun _ => rfl⟩

/-! ## Normalization of observations -/

theorem take_succ_set {α : Type} (B : List α) (i : Nat) (x : α) (hi : i < B.length) :
    (B.set i x).take (i + 1) = B.take i ++ [x] := by
  have h0 : (B.set i x).take i = B.take i := by
    apply List.ext_getElem?
    intro k
    rw [List.getElem?_take, List.getElem?_take]
    split
    · rw [List.getElem?_set_ne (by omega)]
    · rfl
  rw [List.take_succ, h0]
  simp [hi]

/-- A loop that replaces `V[i]` by a value computed from `Ds[i]` and `V[i]` maps the positions it
runs over and leaves the others alone. -/
theorem forLoop_update {α β : Type} (f : β → α → Option α) (g : β → α → α) (Ds : List β) :
    ∀ (n i : Nat) (V : List α), i + n = Ds.length → V.length = Ds.length →
      (∀ (j : Nat) (hD : j < Ds.length) (hV : j < V.length), i ≤ j →
        f Ds[j] V[j] = some (g Ds[j] V[j])) →
      forLoop (fun i (V : List α) => (TArray.get Ds (i : Int)).bind fun d =>
          (TArray.get V (i : Int)).bind fun v => (f d v).bind fun w => TArray.set V (i : Int) w)
        n i V
      = some (V.take i ++ List.zipWith g (Ds.drop i) (V.drop i)) := by
  intro n
  induction n with
  | zero =>
    intro i V hin hlen _
    have h1 : Ds.drop i = [] := List.drop_eq_nil_of_le (by omega)
    have h2 : V.take i = V := List.take_of_length_le (by omega)
    simp [forLoop, h1, h2]
  | succ n ih =>
    intro i V hin hlen hf
    have hiD : i < Ds.length := by omega
    have hiV : i < V.length := by omega
    have hlen2 : (V.set i (g Ds[i] V[i])).length = Ds.length := by
      rw [List.length_set]; exact hlen
    rw [forLoop, TArray.get_of_lt Ds i hiD, Option.some_bind, TArray.get_of_lt V i hiV,
      Option.some_bind, hf i hiD hiV (le_refl i), Option.some_bind,
      TArray.set_natCast V i _ hiV, Option.some_bind, ih (i + 1) _ (by omega) hlen2]
    · rw [take_succ_set V i _ hiV, List.drop_set_of_lt _ _ (Nat.lt_succ_self i),
        List.drop_eq_getElem_cons hiD, List.drop_eq_getElem_cons hiV, List.zipWith_cons_cons,
        List.append_assoc]
      rfl
    · intro j hD hV hij
      have hV2 : j < V.length := by rw [hlen]; exact hD
      have hne : i ≠ j := by omega
      have hget : (V.set i (g Ds[i] V[i]))[j] = V[j] := List.getElem_set_ne hne hV
      rw [hget]
      exact hf j hD hV2 (by omega)

/-- A box point passes `FBoxSpace::Validate` exactly when it has one value per dimension and
every value lies in its closed interval. -/
theorem FBoxSpace.Validate_success_iff (S : FBoxSpace) (p : FBoxPoint) :
    S.Validate (.Box p) = some .Success ↔
      p.Values.length = S.Dimensions.length ∧
      ∀ (i : Nat) (h1 : i < p.Values.length) (h2 : i < S.Dimensions.length),
        S.Dimensions[i].Low ≤ p.Values[i] ∧ p.Values[i] ≤ S.Dimensions[i].High := by
  by_cases hlen : p.Values.length = S.Dimensions.length
  · have hval : S.Validate (.Box p) =
        FBoxSpace.ValidateLoop S.Dimensions p.Values S.Dimensions.length 0 := by
      simp [FBoxSpace.Validate, hlen]
    rw [hval]
    rcases FBoxSpace.ValidateLoop_box_spec S.Dimensions p.Values hlen S.Dimensions.length 0
      (by simp) with ⟨hall, hres⟩ | ⟨hnall, hres⟩
    · exact ⟨fun _ => ⟨hlen, fun i h1 h2 => hall i h1 h2 (Nat.zero_le i)⟩, fun _ => hres⟩
    · rw [hres]
      exact ⟨fun h => by simp at h, fun h => absurd (fun j h1 h2 _ => h.2 j h1 h2) hnall⟩
  · have hne : ¬ (S.Dimensions.length : Int) = p.Values.length := by omega
    simp [FBoxSpace.Validate, hne, hlen]

/-- The method `FBoxSpace::NormalizeObservation` on a box point with one value per dimension. -/
theorem FBoxSpace.NormalizeObservation_box (S : FBoxSpace) (p : FBoxPoint)
    (hlen : p.Values.length = S.Dimensions.length) :
    S.NormalizeObservation (.Box p)
      = some (.Box ⟨List.zipWith (fun d v => d.NormalizeValue v) S.Dimensions p.Values⟩) := by
  have h := forLoop_update (fun (d : FBoxSpaceDimension) (v : ℚ) => some (d.NormalizeValue v))
    (fun d v => d.NormalizeValue v) S.Dimensions S.Dimensions.length 0 p.Values (by simp) hlen
    (fun _ _ _ _ => rfl)
  simp only [List.take_zero, List.nil_append, List.drop_zero] at h
  have hbody : (fun (i : Nat) (Values : List ℚ) => do
      let d ← TArray.get S.Dimensions i
      let v ← TArray.get Values i
      TArray.set Values i (d.NormalizeValue v)) = (fun (i : Nat) (V : List ℚ) =>
        (TArray.get S.Dimensions (i : Int)).bind fun d => (TArray.get V (i : Int)).bind fun v =>
          (some (d.NormalizeValue v)).bind fun w => TArray.set V (i : Int) w) := rfl
  rw [FBoxSpace.NormalizeObservation, hbody, h]
  rfl

/-- The normalized observation space has one `[0, 1]` dimension per dimension of the space. -/
theorem FBoxSpace.GetNormalizedObservationSpace_eq (S : FBoxSpace) :
    S.GetNormalizedObservationSpace
      = ⟨List.replicate S.Dimensions.length FBoxSpaceDimension.ZeroOneUnitDimension⟩ := by
  have h : ∀ (L : List Nat) (S0 : FBoxSpace),
      L.foldl (fun (O : FBoxSpace) _ => O.Add FBoxSpaceDimension.ZeroOneUnitDimension) S0
        = ⟨S0.Dimensions ++ List.replicate L.length FBoxSpaceDimension.ZeroOneUnitDimension⟩ := by
    intro L
    induction L with
    | nil => intro S0; simp
    | cons x L ih =>
      intro S0
      rw [List.foldl_cons, ih, FBoxSpace.Add, List.length_cons, List.replicate_succ]
      simp
  rw [FBoxSpace.GetNormalizedObservationSpace, h]
  simp

/-- A value inside `[Low, High]`, with `Low < High`, normalizes into `[0, 1]`. -/
theorem FBoxSpaceDimension.NormalizeValue_mem_unit (d : FBoxSpaceDimension) (v : ℚ)
    (hd : d.Low < d.High) (h1 : d.Low ≤ v) (h2 : v ≤ d.High) :
    0 ≤ d.NormalizeValue v ∧ d.NormalizeValue v ≤ 1 := by
  have hpos : 0 < d.High - d.Low := sub_pos.mpr hd
  constructor
  · exact div_nonneg (sub_nonneg.mpr h1) (le_of_lt hpos)
  · rw [FBoxSpaceDimension.NormalizeValue, div_le_one hpos]
    linarith

/-- A child space normalizes a conforming point to `normalizedPoint`. -/
theorem TSpace.NormalizeObservation_child_conforms (Space : TSpace) (Point : TPoint)
    (hconf : Space.Conforms Point) :
    Space.NormalizeObservation Point = some (normalizedPoint Space Point) := by
  cases Space with
  | Box S =>
    cases Point with
    | Box p => exact S.NormalizeObservation_box p hconf.1
    | Binary p => exact absurd hconf (by simp [TSpace.Conforms])
    | Discrete p => exact absurd hconf (by simp [TSpace.Conforms])
  | Discrete S => rfl
  | Binary S => rfl

/-- The method `FDictSpace::NormalizeObservation` on a conforming point: every sub-point is
replaced by its `normalizedPoint`. -/
theorem FDictSpace.NormalizeObservation_dict_conforms (D : FDictSpace) (P : FDictPoint)
    (hconf : D.Conforms P) :
    D.NormalizeObservation P = some ⟨List.zipWith normalizedPoint D.Spaces P.Points⟩ := by
  have hlen : P.Points.length = D.Spaces.length := hconf.length_eq.symm
  have h := forLoop_update TSpace.NormalizeObservation normalizedPoint D.Spaces D.Spaces.length 0
    P.Points (by simp) hlen
    (fun j hD hV _ => (D.Spaces[j]).NormalizeObservation_child_conforms _ (by
      have := hconf.get hD hV
      simpa using this))
  simp only [List.take_zero, List.nil_append, List.drop_zero] at h
  have hbody : (fun (i : Nat) (Points : List TPoint) => do
      let CurrentObs ← TArray.get Points i
      let Space ← TArray.get D.Spaces i
      let Normalized ← Space.NormalizeObservation CurrentObs
      TArray.set Points i Normalized) = (fun (i : Nat) (V : List TPoint) =>
        (TArray.get D.Spaces (i : Int)).bind fun d => (TArray.get V (i : Int)).bind fun v =>
          (TSpace.NormalizeObservation d v).bind fun w => TArray.set V (i : Int) w) := by
    funext i V
    cases h1 : TArray.get V (i : Int) <;> cases h2 : TArray.get D.Spaces (i : Int) <;>
      simp [h1, h2, Option.bind_eq_bind]
  rw [FDictSpace.NormalizeObservation, hbody, h]
  rfl

/-- C16. Dict normalization touches only Box sub-points: for a conforming dictionary point,
`NormalizeObservation` returns a point with the same number of sub-points, in the same order;
a sub-point whose space is Discrete or Binary is unchanged, and a Box sub-point keeps its number
of values, each replaced by the `NormalizeValue` of its dimension. -/
theorem dict_normalize_only_box (D : FDictSpace) (P : FDictPoint) (hconf : D.Conforms P) :
    ∃ Q : FDictPoint, D.NormalizeObservation P = some Q ∧
      Q.Points.length = P.Points.length ∧
      ∀ (i : Nat) (h1 : i < D.Spaces.length) (h2 : i < P.Points.length)
        (h3 : i < Q.Points.length),
        (∀ S : FDiscreteSpace, D.Spaces[i] = .Discrete S → Q.Points[i] = P.Points[i]) ∧
        (∀ S : FBinarySpace, D.Spaces[i] = .Binary S → Q.Points[i] = P.Points[i]) ∧
        (∀ S : FBoxSpace, D.Spaces[i] = .Box S → ∃ p q : FBoxPoint,
          P.Points[i] = .Box p ∧ Q.Points[i] = .Box q ∧
          q.Values.length = p.Values.length ∧
          q.Values = List.zipWith (fun d v => d.NormalizeValue v) S.Dimensions p.Values) := by
  have hlen : P.Points.length = D.Spaces.length := hconf.length_eq.symm
  refine ⟨_, D.NormalizeObservation_dict_conforms P hconf, by simp [hlen], ?_⟩
  intro i h1 h2 h3
  have hget : (List.zipWith normalizedPoint D.Spaces P.Points)[i]
      = normalizedPoint D.Spaces[i] P.Points[i] := List.getElem_zipWith
  have hci : (D.Spaces[i]).Conforms P.Points[i] := by
    have := hconf.get h1 h2
    simpa using this
  refine ⟨?_, ?_, ?_⟩
  · intro S hS
    show (List.zipWith normalizedPoint D.Spaces P.Points)[i] = P.Points[i]
    rw [hget, hS]
    rfl
  · intro S hS
    show (List.zipWith normalizedPoint D.Spaces P.Points)[i] = P.Points[i]
    rw [hget, hS]
    rfl
  · intro S hS
    rw [hS] at hci
    cases hP : P.Points[i] with
    | Box p =>
      rw [hP] at hci
      refine ⟨p, ⟨_⟩, rfl, ?_, ?_, rfl⟩
      · show (List.zipWith normalizedPoint D.Spaces P.Points)[i] = _
        rw [hget, hS, hP]
        rfl
      · rw [List.length_zipWith, hci.1]
        simp
    | Binary p =>
      rw [hP] at hci
      exact absurd hci (by simp [TSpace.Conforms])
    | Discrete p =>
      rw [hP] at hci
      exact absurd hci (by simp [TSpace.Conforms])

/-- Witness for C16: the dictionary `[Box((0, 10)), Discrete(High=[3]), Binary(1)]` and the
conforming point `Box(5), Discrete(2), Binary(true)`; only the box value changes, to 1/2. -/
theorem dict_normalize_only_box_witness :
    FDictSpace.Conforms ⟨[], [.Box ⟨[⟨10, 0⟩]⟩, .Discrete ⟨[3]⟩, .Binary ⟨1⟩]⟩
      ⟨[.Box ⟨[5]⟩, .Discrete ⟨[2]⟩, .Binary ⟨[true]⟩]⟩ ∧
    ∃ Q : FDictPoint,
      FDictSpace.NormalizeObservation ⟨[], [.Box ⟨[⟨10, 0⟩]⟩, .Discrete ⟨[3]⟩, .Binary ⟨1⟩]⟩
        ⟨[.Box ⟨[5]⟩, .Discrete ⟨[2]⟩, .Binary ⟨[true]⟩]⟩ = some Q ∧
      Q.Points.length = 3 := by
  have hconf : FDictSpace.Conforms ⟨[], [.Box ⟨[⟨10, 0⟩]⟩, .Discrete ⟨[3]⟩, .Binary ⟨1⟩]⟩
      ⟨[.Box ⟨[5]⟩, .Discrete ⟨[2]⟩, .Binary ⟨[true]⟩]⟩ := by
    unfold FDictSpace.Conforms
    refine List.Forall₂.cons ?_ (List.Forall₂.cons ?_ (List.Forall₂.cons ?_ List.Forall₂.nil))
    · exact ⟨rfl, by decide⟩
    · exact ⟨rfl, by decide⟩
    · exact rfl
  exact ⟨hconf, (dict_normalize_only_box _ _ hconf).imp fun Q h => ⟨h.1, h.2.1⟩⟩

/-! ## Dictionary unflatten layout -/

theorem TArray.modifyLast_append_one {α : Type} (l : List α) (a : α) (f : α → α) :
    TArray.modifyLast (l ++ [a]) f = l ++ [f a] := by
  simp [TArray.modifyLast]

/-- The method `CollectObservationsFromObservers` appends, in order, what each observer makes
of a fresh point. -/
theorem UInteractionManager.CollectObservationsFromObservers_eq :
    ∀ (InObservers : List UAbstractObserver) (Out : FDictPoint),
      UInteractionManager.CollectObservationsFromObservers InObservers Out
        = ⟨Out.Points ++ InObservers.map fun O => O.CollectObservations TPoint.default⟩ := by
  intro InObservers
  induction InObservers with
  | nil => intro Out; simp [UInteractionManager.CollectObservationsFromObservers]
  | cons O rest ih =>
    intro Out
    have := ih ⟨TArray.modifyLast Out.Add.Points O.CollectObservations⟩
    simp only [UInteractionManager.CollectObservationsFromObservers, List.foldl_cons] at this ⊢
    rw [this, FDictPoint.Add, TArray.modifyLast_append_one]
    simp

/-- Whenever a loop that replaces `V[i]` by a value computed from `Ds[i]` and `V[i]` returns, the
array has kept its length, the positions the loop ran over hold the computed values and the
others are unchanged. -/
theorem forLoop_update_some {α β : Type} (f : β → α → Option α) (Ds : List β) :
    ∀ (n i : Nat) (V V2 : List α),
      forLoop (fun i (V : List α) => (TArray.get Ds (i : Int)).bind fun d =>
          (TArray.get V (i : Int)).bind fun v => (f d v).bind fun w => TArray.set V (i : Int) w)
        n i V = some V2 →
      V2.length = V.length ∧
      ∀ (j : Nat) (hj : j < V.length) (hj2 : j < V2.length),
        ((j < i ∨ i + n ≤ j) → V2[j] = V[j]) ∧
        (i ≤ j → j < i + n → ∃ d, Ds[j]? = some d ∧ f d V[j] = some V2[j]) := by
  intro n
  induction n with
  | zero =>
    intro i V V2 h
    simp only [forLoop, Option.some.injEq] at h
    subst h
    exact ⟨rfl, fun j hj hj2 => ⟨fun _ => rfl, fun h1 h2 => by omega⟩⟩
  | succ n ih =>
    intro i V V2 h
    rw [forLoop] at h
    obtain ⟨V1, hbody, hloop⟩ := Option.bind_eq_some.mp h
    obtain ⟨d, hd, hbody⟩ := Option.bind_eq_some.mp hbody
    obtain ⟨v, hv, hbody⟩ := Option.bind_eq_some.mp hbody
    obtain ⟨w, hw, hset⟩ := Option.bind_eq_some.mp hbody
    rw [TArray.get_natCast] at hd hv
    have hiV : i < V.length := by
      by_contra hge
      rw [List.getElem?_eq_none (by omega)] at hv
      simp at hv
    have hvi : V[i] = v := by
      rw [List.getElem?_eq_getElem hiV] at hv
      exact Option.some.inj hv
    rw [TArray.set_natCast V i w hiV] at hset
    have hV1 : V1 = V.set i w := (Option.some.inj hset).symm
    subst hV1
    obtain ⟨hl, hp⟩ := ih (i + 1) _ V2 hloop
    rw [List.length_set] at hl
    refine ⟨hl, ?_⟩
    intro j hj hj2
    obtain ⟨hp1, hp2⟩ := hp j (by rw [List.length_set]; exact hj) hj2
    constructor
    · intro hout
      rw [hp1 (by omega), List.getElem_set_ne (by omega)]
    · intro h1 h2
      rcases Nat.eq_or_lt_of_le h1 with heq | hlt
      · subst heq
        refine ⟨d, hd, ?_⟩
        rw [hp1 (by omega), List.getElem_set_self, hvi]
        exact hw
      · obtain ⟨d2, hd2, hf2⟩ := hp2 (by omega) (by omega)
        rw [List.getElem_set_ne (by omega)] at hf2
        exact ⟨d2, hd2, hf2⟩

/-- The loop body of `FDictSpace::NormalizeObservation`, with the two reads in the other
order. -/
theorem FDictSpace.NormalizeObservation_body (D : FDictSpace) :
    (fun (i : Nat) (Points : List TPoint) => do
      let CurrentObs ← TArray.get Points i
      let Space ← TArray.get D.Spaces i
      let Normalized ← Space.NormalizeObservation CurrentObs
      TArray.set Points i Normalized) = (fun (i : Nat) (V : List TPoint) =>
        (TArray.get D.Spaces (i : Int)).bind fun d => (TArray.get V (i : Int)).bind fun v =>
          (TSpace.NormalizeObservation d v).bind fun w => TArray.set V (i : Int) w) := by
  funext i V
  cases h1 : TArray.get V (i : Int) <;> cases h2 : TArray.get D.Spaces (i : Int) <;>
    simp [h1, h2, Option.bind_eq_bind]

/-- Whenever `FDictSpace::NormalizeObservation` returns, the point has kept its number of
sub-points; sub-point `i` is what space `i` normalizes the old one to, and a sub-point without
a space is unchanged. -/
theorem FDictSpace.NormalizeObservation_some (D : FDictSpace) (P Q : FDictPoint)
    (h : D.NormalizeObservation P = some Q) :
    Q.Points.length = P.Points.length ∧
    ∀ (j : Nat) (hj : j < P.Points.length) (hj2 : j < Q.Points.length),
      (D.Spaces.length ≤ j → Q.Points[j] = P.Points[j]) ∧
      (j < D.Spaces.length → ∃ Space, D.Spaces[j]? = some Space ∧
        Space.NormalizeObservation P.Points[j] = some Q.Points[j]) := by
  rw [FDictSpace.NormalizeObservation, D.NormalizeObservation_body] at h
  obtain ⟨V2, hloop, hQ⟩ := Option.map_eq_some'.mp h
  subst hQ
  obtain ⟨hl, hp⟩ := forLoop_update_some TSpace.NormalizeObservation D.Spaces D.Spaces.length 0
    P.Points V2 hloop
  refine ⟨hl, fun j hj hj2 => ⟨fun hge => (hp j hj hj2).1 (Or.inr (by omega)),
    fun hlt => (hp j hj hj2).2 (Nat.zero_le j) (by omega)⟩⟩

/-- C20. Aggregation refills rather than accumulates: whatever observation point the manager
held before, `AggregateObservations` gives the same result as from an empty one; without
normalization it always returns, holding exactly what each observer made of a fresh point, in
registration order; with normalization it returns whenever those points conform to the
observation space; and whenever it returns the held point has one sub-point per registered
observer, sub-point `i` being the one filled by observer `i` (normalized by space `i` when
normalization is on). -/
theorem aggregate_observations_refills (M : UInteractionManager) :
    (∀ Old : FDictPoint,
      ({ M with Observations := Old } : UInteractionManager).AggregateObservations
        = M.AggregateObservations) ∧
    (M.InteractionDefn.bNormalizeObservations = false →
      M.AggregateObservations = some { M with Observations :=
        ⟨M.Observers.map fun O => O.CollectObservations TPoint.default⟩ }) ∧
    (M.InteractionDefn.bNormalizeObservations = true →
      M.InteractionDefn.ObsSpaceDefn.Conforms
        ⟨M.Observers.map fun O => O.CollectObservations TPoint.default⟩ →
      ∃ M2, M.AggregateObservations = some M2) ∧
    (∀ M2 : UInteractionManager, M.AggregateObservations = some M2 →
      M2.Observers = M.Observers ∧
      M2.Observations.Points.length = M.Observers.length ∧
      ∀ (i : Nat) (h1 : i < M.Observers.length) (h2 : i < M2.Observations.Points.length),
        (M.InteractionDefn.bNormalizeObservations = false →
          M2.Observations.Points[i] = (M.Observers[i]).CollectObservations TPoint.default) ∧
        (M.InteractionDefn.bNormalizeObservations = true →
          (M.InteractionDefn.ObsSpaceDefn.Spaces.length ≤ i →
            M2.Observations.Points[i]
              = (M.Observers[i]).CollectObservations TPoint.default) ∧
          (i < M.InteractionDefn.ObsSpaceDefn.Spaces.length →
            ∃ Space, M.InteractionDefn.ObsSpaceDefn.Spaces[i]? = some Space ∧
              Space.NormalizeObservation ((M.Observers[i]).CollectObservations TPoint.default)
                = some M2.Observations.Points[i]))) := by
  have hcollect : UInteractionManager.CollectObservationsFromObservers M.Observers
      M.Observations.Reset = ⟨M.Observers.map fun O => O.CollectObservations TPoint.default⟩ := by
    rw [UInteractionManager.CollectObservationsFromObservers_eq]
    simp [FDictPoint.Reset]
  have hagg : M.AggregateObservations =
      if M.InteractionDefn.bNormalizeObservations then
        (M.InteractionDefn.ObsSpaceDefn.NormalizeObservation
          ⟨M.Observers.map fun O => O.CollectObservations TPoint.default⟩).bind
          fun Normalized => some { M with Observations := Normalized }
      else some { M with Observations :=
        ⟨M.Observers.map fun O => O.CollectObservations TPoint.default⟩ } := by
    rw [UInteractionManager.AggregateObservations, hcollect]
    rfl
  refine ⟨fun Old => rfl, ?_, ?_, ?_⟩
  · intro hn
    rw [hagg, hn]
    rfl
  · intro hn hconf
    rw [hagg, hn, if_pos rfl, FDictSpace.NormalizeObservation_dict_conforms _ _ hconf]
    exact ⟨_, rfl⟩
  · intro M2 hM2
    rw [hagg] at hM2
    cases hn : M.InteractionDefn.bNormalizeObservations with
    | false =>
      rw [hn] at hM2
      simp only [Bool.false_eq_true, if_false, Option.some.injEq] at hM2
      subst hM2
      refine ⟨rfl, by simp, fun i h1 h2 => ⟨fun _ => by simp, fun h => by simp at h⟩⟩
    | true =>
      rw [hn, if_pos rfl] at hM2
      obtain ⟨Q, hQ, hM2⟩ := Option.bind_eq_some.mp hM2
      simp only [Option.some.injEq] at hM2
      subst hM2
      obtain ⟨hl, hp⟩ := FDictSpace.NormalizeObservation_some _ _ Q hQ
      simp only [List.length_map] at hl
      refine ⟨rfl, hl, fun i h1 h2 => ⟨fun h => by simp at h, fun _ => ?_⟩⟩
      have := hp i (by simpa using h1) h2
      simpa using this

/-! ## Interactor ids -/

theorem toDigitsCore_step (f n : Nat) (ds : List Char) :
    Nat.toDigitsCore 10 (f + 1) n ds
      = if n / 10 = 0 then Nat.digitChar (n % 10) :: ds
        else Nat.toDigitsCore 10 f (n / 10) (Nat.digitChar (n % 10) :: ds) := by
  rw [Nat.toDigitsCore]

theorem toDigitsCore_fuel : ∀ (f1 f2 n : Nat) (ds : List Char), n < 10 ^ (f1 + 1) →
    n < 10 ^ (f2 + 1) →
    Nat.toDigitsCore 10 (f1 + 1) n ds = Nat.toDigitsCore 10 (f2 + 1) n ds := by
  intro f1
  induction f1 with
  | zero =>
    intro f2 n ds h1 _
    have hn : n / 10 = 0 := by omega
    simp [Nat.toDigitsCore, hn]
  | succ k ih =>
    intro f2 n ds h1 h2
    by_cases hn : n / 10 = 0
    · simp [Nat.toDigitsCore, hn]
    · cases f2 with
      | zero => omega
      | succ g =>
        have h3 : n / 10 < 10 ^ (k + 1) := by
          rw [Nat.div_lt_iff_lt_mul (by norm_num)]
          rw [pow_succ] at h1
          exact h1
        have h4 : n / 10 < 10 ^ (g + 1) := by
          rw [Nat.div_lt_iff_lt_mul (by norm_num)]
          rw [pow_succ] at h2
          exact h2
        rw [toDigitsCore_step (k + 1), toDigitsCore_step (g + 1), if_neg hn, if_neg hn]
        exact ih g (n / 10) _ h3 h4

theorem leftpad_toDigits (n : Nat) (h : n < 100000) :
    List.leftpad 5 '0' (Nat.toDigits 10 n) = fiveDigits n := by
  have hfuel : Nat.toDigits 10 n = Nat.toDigitsCore 10 (4 + 1) n [] := by
    rw [Nat.toDigits]
    exact toDigitsCore_fuel n 4 n [] (Nat.lt_pow_self (by norm_num) _ |>.trans_le
      (Nat.pow_le_pow_right (by norm_num) (Nat.le_succ n))) (by norm_num; omega)
  rw [hfuel]
  have hdc : Nat.digitChar 0 = '0' := rfl
  simp only [toDigitsCore_step, fiveDigits]
  by_cases h1 : n / 10 = 0
  · have e1 : n / 10000 % 10 = 0 := by omega
    have e2 : n / 1000 % 10 = 0 := by omega
    have e3 : n / 100 % 10 = 0 := by omega
    have e4 : n / 10 % 10 = 0 := by omega
    simp [h1, e1, e2, e3, e4, List.leftpad, hdc]
  · by_cases h2 : n / 10 / 10 = 0
    · have e1 : n / 10000 % 10 = 0 := by omega
      have e2 : n / 1000 % 10 = 0 := by omega
      have e3 : n / 100 % 10 = 0 := by omega
      simp [h1, h2, e1, e2, e3, List.leftpad, hdc]
    · by_cases h3 : n / 10 / 10 / 10 = 0
      · have e1 : n / 10000 % 10 = 0 := by omega
        have e2 : n / 1000 % 10 = 0 := by omega
        have e3 : n / 10 / 10 % 10 = n / 100 % 10 := by omega
        simp [h1, h2, h3, e1, e2, e3, List.leftpad, hdc]
      · by_cases h4 : n / 10 / 10 / 10 / 10 = 0
        · have e1 : n / 10000 % 10 = 0 := by omega
          have e2 : n / 10 / 10 / 10 % 10 = n / 1000 % 10 := by omega
          have e3 : n / 10 / 10 % 10 = n / 100 % 10 := by omega
          simp [h1, h2, h3, h4, e1, e2, e3, List.leftpad, hdc]
        · have e0 : n / 10 / 10 / 10 / 10 / 10 = 0 := by omega
          have e1 : n / 10 / 10 / 10 / 10 % 10 = n / 10000 % 10 := by omega
          have e2 : n / 10 / 10 / 10 % 10 = n / 1000 % 10 := by omega
          have e3 : n / 10 / 10 % 10 = n / 100 % 10 := by omega
          simp [h1, h2, h3, h4, e0, e1, e2, e3, List.leftpad, hdc]

theorem digitChar_lt : ∀ a < 10, ∀ b < 10, a < b → Nat.digitChar a < Nat.digitChar b := by
  decide

/-- Two different numbers below 100000 differ in one of their five digits, and the smaller number
has the smaller digit at the first place where they differ: the digit strings compare like the
numbers, whatever follows them. -/
theorem fiveDigits_lt (i j : Nat) (hij : i < j) (hj : j < 100000) (t1 t2 : List Char) :
    fiveDigits i ++ t1 < fiveDigits j ++ t2 := by
  have hd : ∀ a b : Nat, a % 10 < b % 10 → Nat.digitChar (a % 10) < Nat.digitChar (b % 10) :=
    fun a b h => digitChar_lt _ (Nat.mod_lt _ (by norm_num)) _ (Nat.mod_lt _ (by norm_num)) h
  simp only [fiveDigits, List.cons_append, List.nil_append]
  rcases Nat.lt_trichotomy (i / 10000 % 10) (j / 10000 % 10) with h4 | h4 | h4
  · exact List.Lex.rel (hd _ _ h4)
  · rw [h4]
    refine List.Lex.cons ?_
    rcases Nat.lt_trichotomy (i / 1000 % 10) (j / 1000 % 10) with h3 | h3 | h3
    · exact List.Lex.rel (hd _ _ h3)
    · rw [h3]
      refine List.Lex.cons ?_
      rcases Nat.lt_trichotomy (i / 100 % 10) (j / 100 % 10) with h2 | h2 | h2
      · exact List.Lex.rel (hd _ _ h2)
      · rw [h2]
        refine List.Lex.cons ?_
        rcases Nat.lt_trichotomy (i / 10 % 10) (j / 10 % 10) with h1 | h1 | h1
        · exact List.Lex.rel (hd _ _ h1)
        · rw [h1]
          refine List.Lex.cons ?_
          rcases Nat.lt_trichotomy (i % 10) (j % 10) with h0 | h0 | h0
          · exact List.Lex.rel (hd _ _ h0)
          · omega
          · omega
        · omega
      · omega
    · omega
  · omega

theorem GetId_toList (Label : String) (IntId : Int) (h0 : 0 ≤ IntId) (h1 : IntId ≤ 99999) :
    (UAbstractInteractor.GetId Label IntId).toList
      = fiveDigits IntId.toNat ++ '_' :: Label.toList := by
  have hfmt : formatD05 IntId = fiveDigits IntId.toNat := by
    rw [formatD05, if_pos h0, leftpad_toDigits _ (by omega)]
  rw [UAbstractInteractor.GetId, hfmt]
  cases Label
  rfl

theorem GetId_lt (L1 L2 : String) (i j : Int) (h0 : 0 ≤ i) (hij : i < j) (hj : j ≤ 99999) :
    UAbstractInteractor.GetId L1 i < UAbstractInteractor.GetId L2 j := by
  rw [String.lt_iff_toList_lt, GetId_toList L1 i h0 (by omega), GetId_toList L2 j (by omega) hj]
  exact fiveDigits_lt _ _ (by omega) (by omega) _ _

/-- The labels `CollectObservationSpaceFromObservers` appends are the ids of the observers,
numbered from the running `Id`. -/
theorem UInteractionManager.CollectObservationSpace_labels :
    ∀ (InObservers : List UAbstractObserver) (st : Int × FDictSpace),
      (InObservers.foldl
        (fun (st : Int × FDictSpace) (Observer : UAbstractObserver) =>
          let Added := st.2.Add (Observer.GetId st.1)
          (st.1 + 1,
            { Added with
              Spaces := TArray.modifyLast Added.Spaces Observer.FillObservationSpace }))
        st).2.Labels
      = st.2.Labels ++ idsFrom st.1 (InObservers.map fun O => O.Label) := by
  intro InObservers
  induction InObservers with
  | nil => intro st; simp [idsFrom]
  | cons O rest ih =>
    intro st
    rw [List.foldl_cons, ih]
    simp [idsFrom, FDictSpace.Add, UAbstractObserver.GetId]

/-- The labels `CollectActionSpaceFromActuators` appends are the ids of the actuators, numbered
from the running `Id`. -/
theorem UInteractionManager.CollectActionSpace_labels :
    ∀ (InActuators : List UActuator) (st : Int × FDictSpace),
      (InActuators.foldl
        (fun (st : Int × FDictSpace) (Actuator : UActuator) =>
          let Added := st.2.Add (Actuator.GetId st.1)
          (st.1 + 1,
            { Added with Spaces := TArray.modifyLast Added.Spaces Actuator.FillActionSpace }))
        st).2.Labels
      = st.2.Labels ++ idsFrom st.1 (InActuators.map fun A => A.Label) := by
  intro InActuators
  induction InActuators with
  | nil => intro st; simp [idsFrom]
  | cons A rest ih =>
    intro st
    rw [List.foldl_cons, ih]
    simp [idsFrom, FDictSpace.Add, UActuator.GetId]

/-- Every id of `idsFrom Id Labels` is the id of a number from `Id` on, below
`Id + Labels.length`. -/
theorem mem_idsFrom : ∀ (Labels : List String) (Id : Int) (x : String),
    x ∈ idsFrom Id Labels →
    ∃ (L : String) (k : Int), Id ≤ k ∧ k < Id + Labels.length ∧
      x = UAbstractInteractor.GetId L k := by
  intro Labels
  induction Labels with
  | nil => intro Id x hx; simp [idsFrom] at hx
  | cons L rest ih =>
    intro Id x hx
    simp only [idsFrom, List.mem_cons] at hx
    rcases hx with rfl | hx
    · exact ⟨L, Id, le_refl _, by simp only [List.length_cons]; push_cast; omega, rfl⟩
    · obtain ⟨L2, k, h1, h2, rfl⟩ := ih (Id + 1) x hx
      exact ⟨L2, k, by omega, by simp only [List.length_cons]; push_cast; omega, rfl⟩

/-- The ids of at most 100000 interactors numbered from 0 are strictly increasing. -/
theorem idsFrom_pairwise : ∀ (Labels : List String) (Id : Int), 0 ≤ Id →
    Id + Labels.length ≤ 100000 → (idsFrom Id Labels).Pairwise (· < ·) := by
  intro Labels
  induction Labels with
  | nil => intro Id _ _; simp [idsFrom]
  | cons L rest ih =>
    intro Id h0 hlen
    simp only [List.length_cons, Nat.cast_add, Nat.cast_one] at hlen
    simp only [idsFrom, List.pairwise_cons]
    refine ⟨?_, ih (Id + 1) (by omega) (by omega)⟩
    intro x hx
    obtain ⟨L2, k, h1, h2, rfl⟩ := mem_idsFrom rest (Id + 1) x hx
    exact GetId_lt L L2 Id k h0 (by omega) (by omega)

/-- C19. Interactor ids are unique and ordered: for every label `L` and every `i` in
`[0, 99999]`, `GetId(i)` is the five decimal digits of `i`, then `_`, then `L` (so
`GetId(42)` of "Sensor" is "00042_Sensor"); for any labels, ids of different numbers in that
range differ, and `i < j` makes `GetId(i)` strictly smaller than `GetId(j)` in the lexicographic
order of strings; hence the labels that `CollectObservationSpaceFromObservers` and
`CollectActionSpaceFromActuators` give to an empty dictionary for at most 100000 interactors are
pairwise distinct. -/
theorem interactor_ids_unique_ordered :
    (∀ (L : String) (i : Int), 0 ≤ i → i ≤ 99999 →
      (UAbstractInteractor.GetId L i).toList = fiveDigits i.toNat ++ '_' :: L.toList) ∧
    UAbstractInteractor.GetId "Sensor" 42 = "00042_Sensor" ∧
    (∀ (L1 L2 : String) (i j : Int), 0 ≤ i → i ≤ 99999 → 0 ≤ j → j ≤ 99999 → i ≠ j →
      UAbstractInteractor.GetId L1 i ≠ UAbstractInteractor.GetId L2 j) ∧
    (∀ (L1 L2 : String) (i j : Int), 0 ≤ i → i < j → j ≤ 99999 →
      UAbstractInteractor.GetId L1 i < UAbstractInteractor.GetId L2 j) ∧
    (∀ InObservers : List UAbstractObserver, InObservers.length ≤ 100000 →
      (UInteractionManager.CollectObservationSpaceFromObservers InObservers {}).Labels.Nodup) ∧
    (∀ InActuators : List UActuator, InActuators.length ≤ 100000 →
      (UInteractionManager.CollectActionSpaceFromActuators InActuators {}).Labels.Nodup) := by
  refine ⟨GetId_toList, by decide, ?_, GetId_lt, ?_, ?_⟩
  · intro L1 L2 i j hi0 hi hj0 hj hne
    rcases lt_or_gt_of_ne hne with hlt | hgt
    · exact ne_of_lt (GetId_lt L1 L2 i j hi0 hlt hj)
    · exact ne_of_gt (GetId_lt L2 L1 j i hj0 hgt hi)
  · intro InObservers hlen
    rw [UInteractionManager.CollectObservationSpaceFromObservers,
      UInteractionManager.CollectObservationSpace_labels]
    simp only [List.nil_append]
    exact (idsFrom_pairwise _ 0 (le_refl 0) (by simp; omega)).imp ne_of_lt
  · intro InActuators hlen
    rw [UInteractionManager.CollectActionSpaceFromActuators,
      UInteractionManager.CollectActionSpace_labels]
    simp only [List.nil_append]
    exact (idsFrom_pairwise _ 0 (le_refl 0) (by simp; omega)).imp ne_of_lt

/-! ## The decision paths of the inference policy -/

/-- C28 (the code at the failing inputs). A point that `FDiscreteSpace::Validate` accepts need
not flatten inside its segments, because `Validate` accepts a value equal to `High[i]`: for
`High = [2]` the point `[2]` is validated and `FlattenPoint` then writes at index 2 of a
two-element buffer, which the range check refuses; for `High = [2, 2]` the point `[2, 0]` is
validated and the 1 of dimension 0 is written at index 2, inside the segment `[2, 4)` of
dimension 1. -/
theorem validated_point_flattens_outside_segment :
    FDiscreteSpace.Validate ⟨[2]⟩ (.Discrete ⟨[2]⟩) = some .Success ∧
    FDiscreteSpace.FlattenPoint ⟨[2]⟩ [0, 0] (.Discrete ⟨[2]⟩) = none ∧
    FDiscreteSpace.Validate ⟨[2, 2]⟩ (.Discrete ⟨[2, 0]⟩) = some .Success ∧
    FDiscreteSpace.FlattenPoint ⟨[2, 2]⟩ [0, 0, 0, 0] (.Discrete ⟨[2, 0]⟩)
      = some [0, 0, 1, 0] := by
  decide

/-! ## The axis order of the rotation actuator -/

/-- C29 (the code at the failing inputs). With yaw and roll enabled and no pitch,
`GetActionSpace` declares the dimensions in the order yaw, roll, while
`ConvertActionToFRotator` reads the values in the order roll, yaw: without rescaling the space is
`[YawBounds, RollBounds]` and the action `[170, 5]` becomes roll 170 and yaw 5; with rescaling
the value `1` of the first dimension is rescaled with the roll bounds (to 10) and not with the
yaw bounds (180). The number of values read is the number of dimensions. -/
theorem rotation_axis_order_differs :
    (URotationActuator.GetActionSpace
      { bHasPitch := false, PitchBounds := { High := 90, Low := -90 },
        bHasYaw := true, YawBounds := { High := 180, Low := -180 },
        bHasRoll := true, RollBounds := { High := 10, Low := -10 },
        bNormalizeAndRescale := false }).Dimensions
      = [{ High := 180, Low := -180 }, { High := 10, Low := -10 }] ∧
    URotationActuator.ConvertActionToFRotator
      { bHasPitch := false, PitchBounds := { High := 90, Low := -90 },
        bHasYaw := true, YawBounds := { High := 180, Low := -180 },
        bHasRoll := true, RollBounds := { High := 10, Low := -10 },
        bNormalizeAndRescale := false } ⟨[170, 5]⟩
      = some { Pitch := 0, Yaw := 5, Roll := 170 } ∧
    (URotationActuator.GetActionSpace
      { bHasPitch := false, PitchBounds := { High := 90, Low := -90 },
        bHasYaw := true, YawBounds := { High := 180, Low := -180 },
        bHasRoll := true, RollBounds := { High := 10, Low := -10 },
        bNormalizeAndRescale := true }).Dimensions
      = [FBoxSpaceDimension.ZeroOneUnitDimension, FBoxSpaceDimension.ZeroOneUnitDimension] ∧
    URotationActuator.ConvertActionToFRotator
      { bHasPitch := false, PitchBounds := { High := 90, Low := -90 },
        bHasYaw := true, YawBounds := { High := 180, Low := -180 },
        bHasRoll := true, RollBounds := { High := 10, Low := -10 },
        bNormalizeAndRescale := true } ⟨[1, 0]⟩
      = some { Pitch := 0, Yaw := -180, Roll := 10 } := by
  refine ⟨by decide, by decide, by decide, ?_⟩
  simp [URotationActuator.ConvertActionToFRotator, TArray.get, FBoxSpaceDimension.RescaleValue]

/-! ## Serialization of spaces -/

theorem FBoxSpace.FillProtobuf_box_eq (S : FBoxSpace) (Msg : BoxSpace) :
    S.FillProtobuf Msg = ⟨Msg.dimensions ++ S.Dimensions.map fun d => ⟨d.Low, d.High⟩⟩ := by
  unfold FBoxSpace.FillProtobuf
  generalize S.Dimensions = Ds
  induction Ds generalizing Msg with
  | nil => simp
  | cons d Ds ih => rw [List.foldl_cons, ih]; simp [FBoxSpaceDimension.FillProtobuf]

theorem FDiscreteSpace.FillProtobuf_discrete_eq (S : FDiscreteSpace) (Msg : DiscreteSpace) :
    S.FillProtobuf Msg = ⟨Msg.high ++ S.High⟩ := by
  unfold FDiscreteSpace.FillProtobuf
  generalize S.High = H
  induction H generalizing Msg with
  | nil => simp
  | cons h H ih => rw [List.foldl_cons, ih]; simp

/-- A fresh `FundamentalSpace` filled by a space holds the encoding of that space. -/
theorem TSpace.FillProtobuf_fresh (Space : TSpace) :
    Space.FillProtobuf .SPACE_NOT_SET = spaceEncoding Space := by
  cases Space with
  | Box S =>
    simp [TSpace.FillProtobuf, FBoxSpace.FillFundamentalSpace, FBoxSpace.FillProtobuf_box_eq,
      FundamentalSpace.mutable_box_space, spaceEncoding]
  | Discrete S =>
    simp [TSpace.FillProtobuf, FDiscreteSpace.FillFundamentalSpace,
      FDiscreteSpace.FillProtobuf_discrete_eq, FundamentalSpace.mutable_discrete_space, spaceEncoding]
  | Binary S =>
    simp [TSpace.FillProtobuf, FBinarySpace.FillFundamentalSpace, FBinarySpace.FillProtobuf,
      FundamentalSpace.mutable_binary_space, spaceEncoding]

/-- The loop of `FDictSpace::FillProtobuf` from index `i` on appends the remaining labels and
encodings. -/
theorem FDictSpace.FillProtobufLoop_eq (D : FDictSpace)
    (hlab : D.Spaces.length ≤ D.Labels.length) :
    ∀ (n i : Nat) (Msg : DictSpace), i + n = D.Spaces.length →
      forLoop (fun i (Msg : DictSpace) =>
          (TArray.get D.Labels (i : Int)).bind fun Label =>
          (TArray.get D.Spaces (i : Int)).bind fun Space =>
            some { labels := Msg.labels ++ [Label],
                   values := Msg.values ++ [Space.FillProtobuf .SPACE_NOT_SET] })
        n i Msg
      = some { labels := Msg.labels ++ (D.Labels.drop i).take n,
               values := Msg.values ++ (D.Spaces.drop i).map spaceEncoding } := by
  intro n
  induction n with
  | zero =>
    intro i Msg hin
    have hdrop : D.Spaces.drop i = [] := List.drop_eq_nil_of_le (by omega)
    simp [forLoop, hdrop]
  | succ n ih =>
    intro i Msg hin
    have hiS : i < D.Spaces.length := by omega
    have hiL : i < D.Labels.length := by omega
    rw [forLoop, TArray.get_of_lt D.Labels i hiL, TArray.get_of_lt D.Spaces i hiS,
      Option.some_bind, Option.some_bind, Option.some_bind, ih (i + 1) _ (by omega),
      List.drop_eq_getElem_cons hiS, List.drop_eq_getElem_cons hiL, List.take_succ_cons,
      List.map_cons, TSpace.FillProtobuf_fresh]
    simp

/-- C21. Space serialization is order-preserving: for a dictionary with `n` spaces and a label
for each of them, `FillProtobuf` on an empty `DictSpace` message returns a message with exactly
`n` labels and `n` values, the labels being the first `n` labels of the dictionary in order and
value `i` the encoding of space `i` in the matching arm of the oneof. -/
theorem dict_space_serialization_order (D : FDictSpace)
    (hlab : D.Spaces.length ≤ D.Labels.length) :
    ∃ Msg : DictSpace, D.FillProtobuf {} = some Msg ∧
      Msg.labels.length = D.Spaces.length ∧ Msg.values.length = D.Spaces.length ∧
      (∀ (i : Nat) (h1 : i < Msg.labels.length) (h2 : i < D.Labels.length),
        Msg.labels[i] = D.Labels[i]) ∧
      (∀ (i : Nat) (h1 : i < Msg.values.length) (h2 : i < D.Spaces.length),
        Msg.values[i] = spaceEncoding D.Spaces[i]) := by
  have h := D.FillProtobufLoop_eq hlab D.Spaces.length 0 {} (by simp)
  refine ⟨_, h, ?_, ?_, ?_, ?_⟩
  · simp; omega
  · simp
  · intro i h1 h2
    simp
  · intro i h1 h2
    simp

/-- Witness for C21: a dictionary of a box, a discrete and a binary space. -/
theorem dict_space_serialization_order_witness :
    ∃ Msg : DictSpace,
      FDictSpace.FillProtobuf
        ⟨["a", "b", "c"], [.Box ⟨[⟨1, -1⟩, ⟨10, 0⟩]⟩, .Discrete ⟨[2, 3]⟩, .Binary ⟨4⟩]⟩ {}
        = some Msg ∧
      Msg.labels.length = 3 ∧ Msg.values.length = 3 ∧
      (∀ (i : Nat) (h1 : i < Msg.labels.length) (h2 : i < ["a", "b", "c"].length),
        Msg.labels[i] = ["a", "b", "c"][i]) ∧
      (∀ (i : Nat) (h1 : i < Msg.values.length)
          (h2 : i < ([.Box ⟨[⟨1, -1⟩, ⟨10, 0⟩]⟩, .Discrete ⟨[2, 3]⟩, .Binary ⟨4⟩] :
            List TSpace).length),
        Msg.values[i] = spaceEncoding
          ([.Box ⟨[⟨1, -1⟩, ⟨10, 0⟩]⟩, .Discrete ⟨[2, 3]⟩, .Binary ⟨4⟩] : List TSpace)[i]) :=
  dict_space_serialization_order
    ⟨["a", "b", "c"], [.Box ⟨[⟨1, -1⟩, ⟨10, 0⟩]⟩, .Discrete ⟨[2, 3]⟩, .Binary ⟨4⟩]⟩ (by decide)

/-- The serialized form of a dictionary of a box, a discrete and a binary space. -/
theorem dict_space_serialization_example :
    FDictSpace.FillProtobuf
      ⟨["a", "b", "c"], [.Box ⟨[⟨1, -1⟩, ⟨10, 0⟩]⟩, .Discrete ⟨[2, 3]⟩, .Binary ⟨4⟩]⟩ {}
    = some ⟨["a", "b", "c"],
        [.box_space ⟨[⟨-1, 1⟩, ⟨0, 10⟩]⟩, .discrete_space ⟨[2, 3]⟩, .binary_space ⟨4⟩]⟩ := by
  decide

/-! ## The environment state message -/

theorem Map.lookup_updateAt {K V : Type} [DecidableEq K] (Fresh : V) (Write : V → V) :
    ∀ (m : List (K × V)) (Key k : K),
      (Map.updateAt Fresh Write m Key).lookup k
        = if k = Key then some (Write ((m.lookup Key).getD Fresh)) else m.lookup k := by
  intro m
  induction m with
  | nil =>
    intro Key k
    by_cases h : k = Key
    · simp [Map.updateAt, List.lookup, h]
    · have hne : (k == Key) = false := by simpa using h
      simp [Map.updateAt, List.lookup, h, hne]
  | cons e m ih =>
    intro Key k
    obtain ⟨a, v⟩ := e
    by_cases hk : a = Key
    · subst hk
      by_cases h : k = a
      · simp [Map.updateAt, List.lookup, h]
      · have hne : (k == a) = false := by simpa using h
        simp [Map.updateAt, List.lookup, h, hne]
    · by_cases h : k = Key
      · subst h
        have hne : (k == a) = false := by simpa using fun h2 : k = a => hk h2.symm
        simp [Map.updateAt, List.lookup, hk, hne, ih]
      · by_cases h2 : k = a
        · subst h2
          simp [Map.updateAt, List.lookup, hk, h]
        · have hne : (k == a) = false := by simpa using h2
          simp [Map.updateAt, List.lookup, hk, hne, ih, h]

/-- The reward and status that `FTrainerState::ToProto` writes. -/
theorem FTrainerState.ToProto_reward_status {μ : Type} (St : FTrainerState)
    (Serializer : ProtobufSerializer μ) (OutState : AgentState μ) :
    (St.ToProto Serializer OutState).reward = St.Reward ∧
    (St.ToProto Serializer OutState).status =
      match St.TrainingStatus with
      | .Running => .RUNNING
      | .Completed => .COMPLETED
      | .Truncated => .TRUNCATED := by
  unfold FTrainerState.ToProto
  cases St.TrainingStatus <;> exact ⟨rfl, rfl⟩

/-- The loop of `FSharedEnvironmentState::ToProto` over pairs with distinct keys: the entry of
an agent whose last message is not sent is what its state writes over the entry found, and every
other key is left as it was. -/
theorem FSharedEnvironmentState.ToProtoLoop_lookup {μ : Type} [Inhabited μ]
    (Serializer : ProtobufSerializer μ) :
    ∀ (L : List (Int × FTrainerState)) (OutMsg : EnvironmentState μ),
      (L.map Prod.fst).Pairwise (fun a b => a < b) →
      (∀ (k : Int) (St : FTrainerState), (k, St) ∈ L → St.TrainingMsgStatus ≠ .LastMsgSent →
        (L.foldl
          (fun (OutMsg : EnvironmentState μ) IdToSharedState =>
            if IdToSharedState.2.TrainingMsgStatus = .LastMsgSent then OutMsg
            else
              { OutMsg with
                agent_states := Map.updateAt { observations := default }
                  (IdToSharedState.2.ToProto Serializer) OutMsg.agent_states
                  IdToSharedState.1 })
          OutMsg).agent_states.lookup k
          = some (St.ToProto Serializer
              ((OutMsg.agent_states.lookup k).getD { observations := default }))) ∧
      (∀ k : Int, (∀ St : FTrainerState, (k, St) ∈ L → St.TrainingMsgStatus = .LastMsgSent) →
        (L.foldl
          (fun (OutMsg : EnvironmentState μ) IdToSharedState =>
            if IdToSharedState.2.TrainingMsgStatus = .LastMsgSent then OutMsg
            else
              { OutMsg with
                agent_states := Map.updateAt { observations := default }
                  (IdToSharedState.2.ToProto Serializer) OutMsg.agent_states
                  IdToSharedState.1 })
          OutMsg).agent_states.lookup k
          = OutMsg.agent_states.lookup k) := by
  intro L
  induction L with
  | nil =>
    intro OutMsg _
    exact ⟨fun k St h => absurd h (by simp), fun k _ => rfl⟩
  | cons e L ih =>
    intro OutMsg hsorted
    obtain ⟨a, s⟩ := e
    rw [List.map_cons, List.pairwise_cons] at hsorted
    obtain ⟨hlt, hrest⟩ := hsorted
    have hfresh : ∀ St : FTrainerState, (a, St) ∉ L := by
      intro St hmem
      have := hlt a (List.mem_map_of_mem Prod.fst hmem)
      omega
    rw [List.foldl_cons]
    constructor
    · intro k St hmem hns
      rcases List.mem_cons.mp hmem with heq | hmem2
      · obtain ⟨rfl, rfl⟩ := Prod.mk.inj heq
        rw [(ih _ hrest).2 k (fun St2 h2 => absurd h2 (hfresh St2))]
        simp only [] at hns ⊢
        rw [if_neg hns]
        simp [Map.lookup_updateAt]
      · have hka : k ≠ a := by
          rintro rfl
          exact hfresh St hmem2
        rw [(ih _ hrest).1 k St hmem2 hns]
        by_cases hs : s.TrainingMsgStatus = .LastMsgSent
        · simp [hs]
        · simp [hs, Map.lookup_updateAt, hka]
    · intro k hall
      rw [(ih _ hrest).2 k (fun St h => hall St (List.mem_cons_of_mem _ h))]
      by_cases hka : k = a
      · subst hka
        have hs := hall s (List.mem_cons_self _ _)
        simp [hs]
      · by_cases hs : s.TrainingMsgStatus = .LastMsgSent
        · simp [hs]
        · simp [hs, Map.lookup_updateAt, hka]

/-- C22. The environment state omits agents whose final message was sent: `ToProto` on an empty
message produces an entry for agent id `k` exactly when the map holds agent `k` and its
`TrainingMsgStatus` is not `LastMsgSent`, and each emitted entry carries the reward of that
agent and its status, `Running` as `RUNNING`, `Completed` as `COMPLETED` and `Truncated` as
`TRUNCATED`. -/
theorem environment_state_omits_sent {μ : Type} [Inhabited μ] (S : FSharedEnvironmentState)
    (Serializer : ProtobufSerializer μ) :
    (∀ k : Int,
      (∃ Entry, (S.ToProto Serializer {}).agent_states.lookup k = some Entry) ↔
        ∃ St : FTrainerState, (k, St) ∈ S.AgentStates.Pairs ∧
          St.TrainingMsgStatus ≠ .LastMsgSent) ∧
    (∀ (k : Int) (St : FTrainerState), (k, St) ∈ S.AgentStates.Pairs →
      St.TrainingMsgStatus ≠ .LastMsgSent →
      ∃ Entry, (S.ToProto Serializer {}).agent_states.lookup k = some Entry ∧
        Entry.reward = St.Reward ∧
        (St.TrainingStatus = .Running → Entry.status = .RUNNING) ∧
        (St.TrainingStatus = .Completed → Entry.status = .COMPLETED) ∧
        (St.TrainingStatus = .Truncated → Entry.status = .TRUNCATED)) := by
  obtain ⟨h1, h2⟩ := FSharedEnvironmentState.ToProtoLoop_lookup Serializer S.AgentStates.Pairs
    ({} : EnvironmentState μ) S.AgentStates.sorted
  have hemit : ∀ (k : Int) (St : FTrainerState), (k, St) ∈ S.AgentStates.Pairs →
      St.TrainingMsgStatus ≠ .LastMsgSent →
      ∃ Entry, (S.ToProto Serializer {}).agent_states.lookup k = some Entry ∧
        Entry.reward = St.Reward ∧
        (St.TrainingStatus = .Running → Entry.status = .RUNNING) ∧
        (St.TrainingStatus = .Completed → Entry.status = .COMPLETED) ∧
        (St.TrainingStatus = .Truncated → Entry.status = .TRUNCATED) := by
    intro k St hmem hns
    refine ⟨_, h1 k St hmem hns, ?_⟩
    obtain ⟨hr, hst⟩ := St.ToProto_reward_status Serializer
      ((([] : List (Int × AgentState μ)).lookup k).getD { observations := default })
    refine ⟨hr, ?_, ?_, ?_⟩ <;> intro h <;> rw [hst, h]
  refine ⟨fun k => ⟨?_, ?_⟩, hemit⟩
  · rintro ⟨Entry, hEntry⟩
    by_contra hnone
    have hall : ∀ St : FTrainerState, (k, St) ∈ S.AgentStates.Pairs →
        St.TrainingMsgStatus = .LastMsgSent := by
      intro St hmem
      by_contra hns
      exact hnone ⟨St, hmem, hns⟩
    have := h2 k hall
    rw [FSharedEnvironmentState.ToProto] at hEntry
    rw [this] at hEntry
    simp at hEntry
  · rintro ⟨St, hmem, hns⟩
    obtain ⟨Entry, hEntry, _⟩ := hemit k St hmem hns
    exact ⟨Entry, hEntry⟩

/-! ## The last message of a finished agent -/

/-- Aggregating again gives the same manager: the held point is emptied first. -/
theorem UInteractionManager.AggregateObservations_again (M M2 : UInteractionManager)
    (h : M.AggregateObservations = some M2) : M2.AggregateObservations = some M2 := by
  have hagg : ∀ N : UInteractionManager, N.AggregateObservations =
      if N.InteractionDefn.bNormalizeObservations then
        (N.InteractionDefn.ObsSpaceDefn.NormalizeObservation
          (UInteractionManager.CollectObservationsFromObservers N.Observers
            N.Observations.Reset)).bind
          fun Normalized => some { N with Observations := Normalized }
      else some { N with Observations :=
        (UInteractionManager.CollectObservationsFromObservers N.Observers
          N.Observations.Reset) } := fun N => rfl
  rw [hagg] at h
  by_cases hn : M.InteractionDefn.bNormalizeObservations = true
  · rw [if_pos hn] at h
    cases hnorm : M.InteractionDefn.ObsSpaceDefn.NormalizeObservation
        (UInteractionManager.CollectObservationsFromObservers M.Observers
          M.Observations.Reset) with
    | none => rw [hnorm] at h; simp at h
    | some Q =>
      rw [hnorm, Option.some_bind] at h
      have hM2 := Option.some.inj h
      subst hM2
      rw [hagg]
      simp only [hn, if_true]
      have : (UInteractionManager.CollectObservationsFromObservers M.Observers Q.Reset)
          = UInteractionManager.CollectObservationsFromObservers M.Observers
              M.Observations.Reset := rfl
      rw [this, hnorm]
      rfl
  · rw [if_neg hn] at h
    have hM2 := Option.some.inj h
    subst hM2
    rw [hagg]
    simp only [hn]
    rfl

/-- One call of `Think` on a trainer whose manager aggregates: it returns, the manager is the
aggregated one, the status is the computed one and the message status advances by one step
exactly when the computed status is a done one. -/
theorem AAbstractTrainer.Think_msgStatus (T : AAbstractTrainer) (Call : ThinkCall)
    (M : UInteractionManager) (hM : T.InteractionManager.AggregateObservations = some M) :
    ∃ T2 : AAbstractTrainer,
      T.Think Call.ComputeStatus Call.ComputeReward Call.GetInfo = some (T2, T2.State) ∧
      T2.InteractionManager = M ∧
      T2.State.TrainingStatus = Call.ComputeStatus ∧
      T2.State.Reward = Call.ComputeReward ∧
      T2.State.TrainingMsgStatus =
        if Call.ComputeStatus ≠ .Running then
          match T.State.TrainingMsgStatus with
          | .NoStatus => .LastMsgPending
          | .LastMsgPending => .LastMsgSent
          | .LastMsgSent => .LastMsgSent
        else T.State.TrainingMsgStatus := by
  have hthink : T.Think Call.ComputeStatus Call.ComputeReward Call.GetInfo =
      (T.InteractionManager.AggregateObservations).bind fun Manager =>
        let T1 : AAbstractTrainer :=
          { State := { Reward := Call.ComputeReward
                       TrainingMsgStatus := T.State.TrainingMsgStatus
                       Observations := Manager.Observations
                       Info := Call.GetInfo []
                       TrainingStatus := Call.ComputeStatus }
            InteractionManager := Manager
            Step := T.Step }
        let T2 :=
          if T1.IsDone then
            if T1.GetTrainingMsgStatus = .LastMsgPending then
              T1.SetTrainingMsgStatus .LastMsgSent
            else if T1.GetTrainingMsgStatus = .NoStatus then
              T1.SetTrainingMsgStatus .LastMsgPending
            else T1
          else T1
        some (T2, T2.State) := rfl
  rw [hthink, hM, Option.some_bind]
  refine ⟨_, rfl, ?_, ?_, ?_, ?_⟩ <;>
    cases hs : Call.ComputeStatus <;> cases hm : T.State.TrainingMsgStatus <;>
    simp [AAbstractTrainer.IsDone, FTrainerState.IsDone, AAbstractTrainer.GetTrainingMsgStatus,
      AAbstractTrainer.SetTrainingMsgStatus, hs, hm]

/-- One step of the message status is one more done call. -/
theorem msgStatusAfter_succ (c : Nat) :
    (match msgStatusAfter c with
      | .NoStatus => ETrainingMsgStatus.LastMsgPending
      | .LastMsgPending => .LastMsgSent
      | .LastMsgSent => .LastMsgSent) = msgStatusAfter (c + 1) := by
  match c with
  | 0 => rfl
  | 1 => rfl
  | _ + 2 => rfl

/-- A sequence of `Think` calls on a trainer whose manager aggregates to itself returns, and the
message status has advanced by the number of done calls. -/
theorem thinkAll_msgStatus : ∀ (Calls : List ThinkCall) (T : AAbstractTrainer) (c : Nat),
    T.InteractionManager.AggregateObservations = some T.InteractionManager →
    T.State.TrainingMsgStatus = msgStatusAfter c →
    ∃ Tn : AAbstractTrainer, thinkAll T Calls = some Tn ∧
      Tn.InteractionManager = T.InteractionManager ∧
      Tn.State.TrainingMsgStatus = msgStatusAfter (c + doneCount Calls) := by
  intro Calls
  induction Calls with
  | nil => intro T c _ hc; exact ⟨T, rfl, rfl, by simpa [doneCount] using hc⟩
  | cons Call Calls ih =>
    intro T c hM hc
    obtain ⟨T2, hT2, hM2, _, _, hmsg⟩ := T.Think_msgStatus Call _ hM
    by_cases hd : Call.ComputeStatus ≠ .Running
    · rw [if_pos hd, hc, msgStatusAfter_succ] at hmsg
      obtain ⟨Tn, hTn, hMn, hn⟩ := ih T2 (c + 1) (by rw [hM2]; exact hM) hmsg
      refine ⟨Tn, ?_, by rw [hMn, hM2], ?_⟩
      · rw [thinkAll, hT2, Option.some_bind]; exact hTn
      · rw [hn]
        congr 1
        simp [doneCount, List.filter_cons, hd]
        omega
    · rw [if_neg hd, hc] at hmsg
      obtain ⟨Tn, hTn, hMn, hn⟩ := ih T2 c (by rw [hM2]; exact hM) hmsg
      refine ⟨Tn, ?_, by rw [hMn, hM2], ?_⟩
      · rw [thinkAll, hT2, Option.some_bind]; exact hTn
      · rw [hn]
        congr 1
        simp [doneCount, List.filter_cons, hd]

/-- A sorted map holds one value per key. -/
theorem TSortedMap.value_unique {V : Type} :
    ∀ (L : List (Int × V)), (L.map Prod.fst).Pairwise (fun a b => a < b) →
      ∀ (k : Int) (a b : V), (k, a) ∈ L → (k, b) ∈ L → a = b := by
  intro L
  induction L with
  | nil => intro _ k a b h; exact absurd h (by simp)
  | cons e L ih =>
    intro hs k a b ha hb
    rw [List.map_cons, List.pairwise_cons] at hs
    obtain ⟨hlt, hrest⟩ := hs
    rcases List.mem_cons.mp ha with ha | ha <;> rcases List.mem_cons.mp hb with hb | hb
    · rw [← ha] at hb
      exact (Prod.mk.inj hb).2.symm
    · have := hlt k (List.mem_map_of_mem Prod.fst hb)
      rw [← ha] at this
      simp at this
    · have := hlt k (List.mem_map_of_mem Prod.fst ha)
      rw [← hb] at this
      simp at this
    · exact ih hrest k a b ha hb

/-- C30. A finished agent's last state is reported exactly once: `Reset`, from any state of the
trainer, returns (when its observations aggregate) with `TrainingStatus` `Running` and
`TrainingMsgStatus` `NoStatus`; after any sequence of `Think` calls from there the message status
is `NoStatus` when no call found the agent done, `LastMsgPending` after the first done call and
`LastMsgSent` after the second and every later one; so `FSharedEnvironmentState::ToProto` has an
entry for the agent as long as fewer than two calls found it done and omits it afterwards. -/
theorem finished_agent_reported_once (T : AAbstractTrainer)
    (ResetTrainer : AAbstractTrainer → AAbstractTrainer)
    (GetInfo : List (String × String) → List (String × String)) (M : UInteractionManager)
    (hagg : (ResetTrainer T).InteractionManager.AggregateObservations = some M) :
    ∃ T0 : AAbstractTrainer, T.Reset ResetTrainer GetInfo = some T0 ∧
      T0.State.TrainingStatus = .Running ∧ T0.State.TrainingMsgStatus = .NoStatus ∧
      ∀ Calls : List ThinkCall, ∃ Tn : AAbstractTrainer, thinkAll T0 Calls = some Tn ∧
        Tn.State.TrainingMsgStatus = msgStatusAfter (doneCount Calls) ∧
        ∀ (μ : Type) (_ : Inhabited μ) (Serializer : ProtobufSerializer μ)
          (S : FSharedEnvironmentState) (k : Int), (k, Tn.State) ∈ S.AgentStates.Pairs →
          ((∃ Entry, (S.ToProto Serializer {}).agent_states.lookup k = some Entry) ↔
            doneCount Calls < 2) := by
  have hreset : T.Reset ResetTrainer GetInfo =
      (({ (ResetTrainer T).InteractionManager with
          Observations := (ResetTrainer T).State.Observations.Reset } :
        UInteractionManager).AggregateObservations).bind fun Manager =>
        some
          { State := { Reward := (ResetTrainer T).State.Reward
                       TrainingMsgStatus := .NoStatus
                       Observations := Manager.Observations
                       Info := GetInfo []
                       TrainingStatus := .Running }
            InteractionManager := Manager
            Step := 0 } := rfl
  have hsame : ({ (ResetTrainer T).InteractionManager with
      Observations := (ResetTrainer T).State.Observations.Reset } :
        UInteractionManager).AggregateObservations
      = (ResetTrainer T).InteractionManager.AggregateObservations := rfl
  rw [hsame, hagg, Option.some_bind] at hreset
  obtain ⟨T0, hT0, hRun, hNo, hMgr⟩ : ∃ T0 : AAbstractTrainer,
      T.Reset ResetTrainer GetInfo = some T0 ∧ T0.State.TrainingStatus = .Running ∧
      T0.State.TrainingMsgStatus = .NoStatus ∧ T0.InteractionManager = M :=
    ⟨_, hreset, rfl, rfl, rfl⟩
  refine ⟨T0, hT0, hRun, hNo, ?_⟩
  intro Calls
  obtain ⟨Tn, hTn, _, hmsg⟩ := thinkAll_msgStatus Calls T0 0
    (by rw [hMgr]; exact UInteractionManager.AggregateObservations_again _ M hagg) hNo
  rw [Nat.zero_add] at hmsg
  refine ⟨Tn, hTn, hmsg, ?_⟩
  intro μ _ Serializer S k hmem
  obtain ⟨h1, h2⟩ := FSharedEnvironmentState.ToProtoLoop_lookup Serializer S.AgentStates.Pairs
    ({} : EnvironmentState μ) S.AgentStates.sorted
  constructor
  · rintro ⟨Entry, hEntry⟩
    by_contra hge
    have hsent : Tn.State.TrainingMsgStatus = .LastMsgSent := by
      rw [hmsg]
      match hc : doneCount Calls with
      | 0 => omega
      | 1 => omega
      | _ + 2 => rfl
    have hall : ∀ St : FTrainerState, (k, St) ∈ S.AgentStates.Pairs →
        St.TrainingMsgStatus = .LastMsgSent := by
      intro St hSt
      rw [TSortedMap.value_unique _ S.AgentStates.sorted k St Tn.State hSt hmem]
      exact hsent
    have := h2 k hall
    rw [FSharedEnvironmentState.ToProto, this] at hEntry
    simp at hEntry
  · intro hlt
    have hns : Tn.State.TrainingMsgStatus ≠ .LastMsgSent := by
      rw [hmsg]
      match hc : doneCount Calls with
      | 0 => simp [msgStatusAfter]
      | 1 => simp [msgStatusAfter]
      | _ + 2 => omega
    exact ⟨_, h1 k Tn.State hmem hns⟩

/-- Witness for C30: a trainer without observers, reset and then asked to think three times,
the agent being done at the second and third call. -/
theorem finished_agent_reported_once_witness :
    ∃ T0 Tn : AAbstractTrainer, AAbstractTrainer.Reset {} id id = some T0 ∧
      thinkAll T0 [{ ComputeStatus := .Running }, { ComputeStatus := .Completed },
        { ComputeStatus := .Truncated }] = some Tn ∧
      Tn.State.TrainingMsgStatus = .LastMsgSent := by
  obtain ⟨T0, h0, _, _, h⟩ := finished_agent_reported_once {} id id {} rfl
  obtain ⟨Tn, hTn, hmsg, _⟩ := h [{ ComputeStatus := .Running }, { ComputeStatus := .Completed },
    { ComputeStatus := .Truncated }]
  exact ⟨T0, Tn, h0, hTn, hmsg⟩

/-! ## The post-reset state message -/

/-- The loop of `SubmitPostResetState` collects the indices of the completed environments: every
index it adds is the index of a completed environment, and every completed environment from `i`
on is added. -/
theorem UPythonGymConnector.EnvsToResetLoop (Envs : List AAbstractScholaEnvironment) :
    ∀ (n i : Nat) (acc : List Int), i + n = Envs.length →
      ∃ ids : List Int,
        forLoop (fun i (EnvsToReset : List Int) =>
            (TArray.get Envs (i : Int)).bind fun Env =>
              if Env.GetStatus = .Completed then some (EnvsToReset ++ [(i : Int)])
              else some EnvsToReset)
          n i acc = some (acc ++ ids) ∧
        ∀ t : Int, t ∈ ids ↔
          ∃ Env, TArray.get Envs t = some Env ∧ Env.EnvironmentStatus = .Completed ∧
            (i : Int) ≤ t := by
  intro n
  induction n with
  | zero =>
    intro i acc hin
    refine ⟨[], by simp [forLoop], ?_⟩
    intro t
    constructor
    · intro h; exact absurd h (by simp)
    · rintro ⟨Env, hget, _, hle⟩
      exfalso
      unfold TArray.get at hget
      split at hget
      · have := List.getElem?_eq_some_iff.mp hget
        obtain ⟨hlt, _⟩ := this
        omega
      · exact absurd hget (by simp)
  | succ n ih =>
    intro i acc hin
    have hi : i < Envs.length := by omega
    rw [forLoop, TArray.get_of_lt Envs i hi, Option.some_bind]
    have hkey : ∀ (t : Int) (Env : AAbstractScholaEnvironment), TArray.get Envs t = some Env →
        (i : Int) ≤ t → t = (i : Int) ∨ ((i + 1 : Nat) : Int) ≤ t := by
      intro t Env _ hle
      push_cast
      omega
    by_cases hc : (Envs[i]).GetStatus = .Completed
    · rw [if_pos hc, Option.some_bind]
      obtain ⟨ids, hloop, hids⟩ := ih (i + 1) (acc ++ [(i : Int)]) (by omega)
      refine ⟨(i : Int) :: ids, by rw [hloop]; simp, ?_⟩
      intro t
      rw [List.mem_cons, hids]
      constructor
      · rintro (rfl | ⟨Env, hget, hcomp, hle⟩)
        · exact ⟨Envs[i], TArray.get_of_lt Envs i hi, hc, le_refl _⟩
        · exact ⟨Env, hget, hcomp, by push_cast at hle; omega⟩
      · rintro ⟨Env, hget, hcomp, hle⟩
        rcases hkey t Env hget hle with h | h
        · exact Or.inl h
        · exact Or.inr ⟨Env, hget, hcomp, h⟩
    · rw [if_neg hc, Option.some_bind]
      obtain ⟨ids, hloop, hids⟩ := ih (i + 1) acc (by omega)
      refine ⟨ids, hloop, ?_⟩
      intro t
      rw [hids]
      constructor
      · rintro ⟨Env, hget, hcomp, hle⟩
        exact ⟨Env, hget, hcomp, by push_cast at hle; omega⟩
      · rintro ⟨Env, hget, hcomp, hle⟩
        rcases hkey t Env hget hle with h | h
        · subst h
          rw [TArray.get_of_lt Envs i hi] at hget
          rw [← Option.some.inj hget] at hcomp
          exact absurd hcomp hc
        · exact ⟨Env, hget, hcomp, h⟩

/-- The keys of the message filled by `FSharedEnvironmentState::ToResetProto`: the ones it
had and the ids of the agents. -/
theorem FSharedEnvironmentState.ToResetProtoLoop_keys {μ : Type} [Inhabited μ]
    (Visitor : ProtobufSerializer μ) :
    ∀ (L : List (Int × FTrainerState)) (Out : InitialEnvironmentState μ) (k : Int),
      ((L.foldl
          (fun (Out : InitialEnvironmentState μ) AgentIdToState =>
            { Out with
              agent_states := Map.updateAt { observations := default }
                (AgentIdToState.2.ToResetProto Visitor) Out.agent_states AgentIdToState.1 })
          Out).agent_states.lookup k).isSome = true ↔
        (Out.agent_states.lookup k).isSome = true ∨ ∃ St : FTrainerState, (k, St) ∈ L := by
  intro L
  induction L with
  | nil => intro Out k; simp
  | cons e L ih =>
    intro Out k
    obtain ⟨a, s⟩ := e
    rw [List.foldl_cons, ih]
    simp only [Map.lookup_updateAt, List.mem_cons, Prod.mk.injEq]
    by_cases hka : k = a
    · subst hka
      simp only [if_true, Option.isSome_some, true_or, true_iff]
      exact Or.inr ⟨s, by simp⟩
    · simp only [hka, if_false, false_and, false_or]

/-- The loop of `FTrainingState::ToResetProto` over target ids that are all indices of
environment states: it returns, the keys of the message are the ones it had and the targets,
and every entry has the agent ids of the environment state of its key as the keys of its
`agent_states`, provided that was so before. -/
theorem FTrainingState.ToResetProtoLoop {μ : Type} [Inhabited μ] (T : FTrainingState)
    (Visitor : ProtobufSerializer μ) :
    ∀ (Targets : List Int) (Msg0 : InitialTrainingState μ),
      (∀ t ∈ Targets, ∃ EnvState, TArray.get T.EnvironmentStates t = some EnvState) →
      (∀ (i : Int) (Entry : InitialEnvironmentState μ),
        Msg0.environment_states.lookup i = some Entry →
        ∃ EnvState, TArray.get T.EnvironmentStates i = some EnvState ∧
          ∀ k : Int, (Entry.agent_states.lookup k).isSome = true ↔
            ∃ St : FTrainerState, (k, St) ∈ EnvState.AgentStates.Pairs) →
      ∃ Msg : InitialTrainingState μ,
        Targets.foldlM
          (fun (TrainingStateMessage : InitialTrainingState μ) EnvId =>
            (TArray.get T.EnvironmentStates EnvId).bind fun EnvState =>
              some { TrainingStateMessage with
                environment_states := Map.updateAt {} (EnvState.ToResetProto Visitor)
                  TrainingStateMessage.environment_states EnvId })
          Msg0 = some Msg ∧
        (∀ i : Int, (Msg.environment_states.lookup i).isSome = true ↔
          (Msg0.environment_states.lookup i).isSome = true ∨ i ∈ Targets) ∧
        (∀ (i : Int) (Entry : InitialEnvironmentState μ),
          Msg.environment_states.lookup i = some Entry →
          ∃ EnvState, TArray.get T.EnvironmentStates i = some EnvState ∧
            ∀ k : Int, (Entry.agent_states.lookup k).isSome = true ↔
              ∃ St : FTrainerState, (k, St) ∈ EnvState.AgentStates.Pairs) := by
  intro Targets
  induction Targets with
  | nil =>
    intro Msg0 _ hgood
    exact ⟨Msg0, rfl, fun i => by simp, hgood⟩
  | cons t Targets ih =>
    intro Msg0 hrange hgood
    obtain ⟨EnvState, hEnv⟩ := hrange t (List.mem_cons_self _ _)
    rw [List.foldlM_cons, hEnv, Option.some_bind]
    obtain ⟨Msg, hMsg, hkeys, hentries⟩ := ih
      { Msg0 with
        environment_states := Map.updateAt {} (EnvState.ToResetProto Visitor)
          Msg0.environment_states t }
      (fun x hx => hrange x (List.mem_cons_of_mem _ hx))
      (by
        intro i Entry hi
        simp only [Map.lookup_updateAt] at hi
        by_cases hit : i = t
        · subst hit
          rw [if_pos rfl] at hi
          refine ⟨EnvState, hEnv, fun k => ?_⟩
          rw [← Option.some.inj hi, FSharedEnvironmentState.ToResetProto,
            FSharedEnvironmentState.ToResetProtoLoop_keys]
          cases hold : Msg0.environment_states.lookup i with
          | none => simp
          | some Old =>
            obtain ⟨EnvState2, hEnv2, hk⟩ := hgood i Old hold
            rw [hEnv] at hEnv2
            rw [← Option.some.inj hEnv2] at hk
            simp only [Option.getD_some, hk, or_self]
        · rw [if_neg hit] at hi
          exact hgood i Entry hi)
    refine ⟨Msg, hMsg, ?_, hentries⟩
    intro i
    rw [hkeys, Map.lookup_updateAt, List.mem_cons]
    by_cases hit : i = t
    · simp [hit]
    · simp [hit]

/-- C23. The post-reset state covers exactly the completed environments: when the training
state holds a state for every environment, `SubmitPostResetState` builds a message whose
`environment_states` has an entry keyed by `i` exactly when `Environments[i]` exists and has
status `Completed`, and the entry of `i` has one agent entry for each agent id of environment
state `i`. -/
theorem post_reset_state_covers_completed {μ : Type} [Inhabited μ]
    (Connector : UPythonGymConnector) (Visitor : ProtobufSerializer μ) (States : FTrainingState)
    (hlen : Connector.Environments.length ≤ States.EnvironmentStates.length) :
    ∃ Msg : InitialTrainingState μ,
      Connector.SubmitPostResetState Visitor States = some Msg ∧
      (∀ i : Int, (∃ Entry, Msg.environment_states.lookup i = some Entry) ↔
        ∃ Env, TArray.get Connector.Environments i = some Env ∧
          Env.EnvironmentStatus = .Completed) ∧
      (∀ (i : Int) (Entry : InitialEnvironmentState μ),
        Msg.environment_states.lookup i = some Entry →
        ∃ EnvState, TArray.get States.EnvironmentStates i = some EnvState ∧
          ∀ k : Int, (∃ Agent, Entry.agent_states.lookup k = some Agent) ↔
            ∃ St : FTrainerState, (k, St) ∈ EnvState.AgentStates.Pairs) := by
  obtain ⟨ids, hloop, hids⟩ := UPythonGymConnector.EnvsToResetLoop Connector.Environments
    Connector.Environments.length 0 [] (by simp)
  have hrange : ∀ t ∈ ids, ∃ EnvState, TArray.get States.EnvironmentStates t = some EnvState := by
    intro t ht
    obtain ⟨Env, hget, _, hle⟩ := (hids t).mp ht
    unfold TArray.get at hget ⊢
    split at hget
    · rename_i h0
      obtain ⟨hlt, _⟩ := List.getElem?_eq_some_iff.mp hget
      rw [if_pos h0]
      exact ⟨_, List.getElem?_eq_getElem (by omega)⟩
    · exact absurd hget (by simp)
  obtain ⟨Msg, hMsg, hkeys, hentries⟩ := States.ToResetProtoLoop Visitor ids {} hrange
    (fun i Entry h => absurd h (by simp))
  have hsubmit : Connector.SubmitPostResetState Visitor States =
      (forLoop (fun i (EnvsToReset : List Int) =>
          (TArray.get Connector.Environments (i : Int)).bind fun Env =>
            if Env.GetStatus = .Completed then some (EnvsToReset ++ [(i : Int)])
            else some EnvsToReset)
        Connector.Environments.length 0 []).bind fun EnvsToReset =>
        EnvsToReset.foldlM
          (fun (TrainingStateMessage : InitialTrainingState μ) EnvId =>
            (TArray.get States.EnvironmentStates EnvId).bind fun EnvState =>
              some { TrainingStateMessage with
                environment_states := Map.updateAt {} (EnvState.ToResetProto Visitor)
                  TrainingStateMessage.environment_states EnvId })
          {} := rfl
  rw [List.nil_append] at hloop
  refine ⟨Msg, by rw [hsubmit, hloop, Option.some_bind]; exact hMsg, ?_, ?_⟩
  · intro i
    rw [← Option.isSome_iff_exists, hkeys, hids]
    constructor
    · rintro (h | ⟨Env, hget, hcomp, _⟩)
      · exact absurd h (by simp)
      · exact ⟨Env, hget, hcomp⟩
    · rintro ⟨Env, hget, hcomp⟩
      refine Or.inr ⟨Env, hget, hcomp, ?_⟩
      unfold TArray.get at hget
      split at hget
      · rename_i h0; simpa using h0
      · exact absurd hget (by simp)
  · intro i Entry hEntry
    obtain ⟨EnvState, hEnv, hk⟩ := hentries i Entry hEntry
    exact ⟨EnvState, hEnv, fun k => by rw [← Option.isSome_iff_exists]; exact hk k⟩

/-- Witness for C23: three environments, the first and the last completed; the message has
entries for 0 and 2 and none for 1. -/
theorem post_reset_state_covers_completed_witness :
    ∃ Msg : InitialTrainingState Unit,
      UPythonGymConnector.SubmitPostResetState
        ⟨[⟨.Completed⟩, ⟨.Running⟩, ⟨.Completed⟩]⟩ ⟨fun _ m => m, fun _ m => m, fun _ m => m⟩
        ⟨[{}, {}, { AgentStates := { Pairs := [(0, {}), (4, {})] } }]⟩ = some Msg ∧
      (∃ Entry, Msg.environment_states.lookup 0 = some Entry) ∧
      (¬ ∃ Entry, Msg.environment_states.lookup 1 = some Entry) ∧
      (∃ Entry, Msg.environment_states.lookup 2 = some Entry) := by
  obtain ⟨Msg, hMsg, hkeys, _⟩ := post_reset_state_covers_completed
    ⟨[⟨.Completed⟩, ⟨.Running⟩, ⟨.Completed⟩]⟩
    (⟨fun _ m => m, fun _ m => m, fun _ m => m⟩ : ProtobufSerializer Unit)
    ⟨[{}, {}, { AgentStates := { Pairs := [(0, {}), (4, {})] } }]⟩ (by decide)
  refine ⟨Msg, hMsg, (hkeys 0).mpr ⟨_, rfl, rfl⟩, ?_, (hkeys 2).mpr ⟨_, rfl, rfl⟩⟩
  rw [hkeys 1]
  rintro ⟨Env, hget, hcomp⟩
  have : Env = ⟨.Running⟩ := (Option.some.inj hget).symm
  rw [this] at hcomp
  exact absurd hcomp (by decide)

/-! ## The calls of the subsystem on its inference agents -/

theorem AgentLive.cons_succ {β : Type} {Agent : UInferenceComponent β}
    {Rest : List (UInferenceComponent β)} {j : Nat} (h : AgentLive Rest j) :
    AgentLive (Agent :: Rest) (j + 1) := by
  obtain ⟨A, hA, hs⟩ := h
  exact ⟨A, by simpa using hA, hs⟩

theorem AgentErrored.not_live {β : Type} {Agents : List (UInferenceComponent β)} {j : Nat}
    (h : AgentErrored Agents j) : ¬ AgentLive Agents j := by
  rintro ⟨A, hA, hs⟩
  obtain ⟨B, hB, he⟩ := h
  rw [hA] at hB
  rw [Option.some.inj hB] at hs
  exact hs he

/-- An agent that exists and is not live is errored. -/
theorem AgentErrored.of_not_live {β : Type} {Agents : List (UInferenceComponent β)} {j : Nat}
    (hj : j < Agents.length) (h : ¬ AgentLive Agents j) : AgentErrored Agents j := by
  refine ⟨Agents[j], List.getElem?_eq_getElem hj, ?_⟩
  by_contra hne
  exact h ⟨Agents[j], List.getElem?_eq_getElem hj, hne⟩

theorem AgentLive.lt_length {β : Type} {Agents : List (UInferenceComponent β)} {j : Nat}
    (h : AgentLive Agents j) : j < Agents.length := by
  obtain ⟨A, hA, _⟩ := h
  exact (List.getElem?_eq_some_iff.mp hA).1

/-- The loop of `InferenceAgentsThink`: it calls `Think` only, and only on agents whose status is
not `Error`; when it completes, the agents are as many as before, the errored ones are as they
were, and every agent that was not errored has been called. -/
theorem UScholaManagerSubsystem.InferenceAgentsThinkLoop_spec {β : Type}
    (Brain : UAbstractBrain β) :
    ∀ (L : List (UInferenceComponent β)) (i : Nat),
      (∀ c ∈ (UScholaManagerSubsystem.InferenceAgentsThinkLoop Brain i L).Calls,
        ∃ j, c = .Think (i + j) ∧ AgentLive L j) ∧
      ∀ L2, (UScholaManagerSubsystem.InferenceAgentsThinkLoop Brain i L).Final = some L2 →
        L2.length = L.length ∧ (∀ j, AgentErrored L j → AgentErrored L2 j) ∧
        ∀ j, AgentLive L j →
          .Think (i + j) ∈ (UScholaManagerSubsystem.InferenceAgentsThinkLoop Brain i L).Calls := by
  intro L
  induction L with
  | nil =>
    intro i
    refine ⟨fun c hc => absurd hc (by simp [UScholaManagerSubsystem.InferenceAgentsThinkLoop,
      Run.pure]), ?_⟩
    intro L2 hL2
    simp only [UScholaManagerSubsystem.InferenceAgentsThinkLoop, Run.pure,
      Option.some.injEq] at hL2
    subst hL2
    refine ⟨rfl, fun j h => h, ?_⟩
    rintro j ⟨A, hA, _⟩
    simp at hA
  | cons Agent Rest ih =>
    intro i
    obtain ⟨ihc, ihf⟩ := ih (i + 1)
    by_cases hs : Agent.GetStatus ≠ .Error
    · cases hT : IInferenceAgent.Think Brain Agent with
      | none =>
        have hrun : UScholaManagerSubsystem.InferenceAgentsThinkLoop Brain i (Agent :: Rest)
            = { Calls := [.Think i], Final := none } := by
          rw [UScholaManagerSubsystem.InferenceAgentsThinkLoop, if_pos hs, hT]
        rw [hrun]
        refine ⟨?_, fun L2 h => absurd h (by simp)⟩
        intro c hc
        rw [List.mem_singleton] at hc
        exact ⟨0, by simpa using hc, Agent, by simp, hs⟩
      | some After =>
        have hrun : UScholaManagerSubsystem.InferenceAgentsThinkLoop Brain i (Agent :: Rest)
            = { Calls := .Think i ::
                  (UScholaManagerSubsystem.InferenceAgentsThinkLoop Brain (i + 1) Rest).Calls,
                Final := (UScholaManagerSubsystem.InferenceAgentsThinkLoop Brain (i + 1)
                  Rest).Final.map fun Agents => After :: Agents } := by
          rw [UScholaManagerSubsystem.InferenceAgentsThinkLoop, if_pos hs, hT]
        rw [hrun]
        constructor
        · intro c hc
          rcases List.mem_cons.mp hc with hc | hc
          · exact ⟨0, by simpa using hc, Agent, by simp, hs⟩
          · obtain ⟨j, hj, hlive⟩ := ihc c hc
            exact ⟨j + 1, by rw [hj]; congr 1; omega, hlive.cons_succ⟩
        · intro L2 hL2
          simp only [Option.map_eq_some'] at hL2
          obtain ⟨R2, hR2, rfl⟩ := hL2
          obtain ⟨hlen, herr, hcalls⟩ := ihf R2 hR2
          refine ⟨by simp [hlen], ?_, ?_⟩
          · rintro j ⟨A, hA, hAe⟩
            cases j with
            | zero =>
              simp only [List.getElem?_cons_zero, Option.some.injEq] at hA
              subst hA
              exact absurd hAe hs
            | succ j =>
              obtain ⟨B, hB, hBe⟩ := herr j ⟨A, by simpa using hA, hAe⟩
              exact ⟨B, by simpa using hB, hBe⟩
          · rintro j ⟨A, hA, hAl⟩
            cases j with
            | zero => simp
            | succ j =>
              have := hcalls j ⟨A, by simpa using hA, hAl⟩
              rw [List.mem_cons]
              right
              have hidx : i + (j + 1) = i + 1 + j := by omega
              rw [hidx]
              exact this
    · have hrun : UScholaManagerSubsystem.InferenceAgentsThinkLoop Brain i (Agent :: Rest)
          = { Calls := (UScholaManagerSubsystem.InferenceAgentsThinkLoop Brain (i + 1) Rest).Calls,
              Final := (UScholaManagerSubsystem.InferenceAgentsThinkLoop Brain (i + 1)
                Rest).Final.map fun Agents => Agent :: Agents } := by
        rw [UScholaManagerSubsystem.InferenceAgentsThinkLoop, if_neg hs]
      rw [hrun]
      have hse : Agent.Status = .Error := by
        by_contra h
        exact hs h
      constructor
      · intro c hc
        obtain ⟨j, hj, hlive⟩ := ihc c hc
        exact ⟨j + 1, by rw [hj]; congr 1; omega, hlive.cons_succ⟩
      · intro L2 hL2
        simp only [Option.map_eq_some'] at hL2
        obtain ⟨R2, hR2, rfl⟩ := hL2
        obtain ⟨hlen, herr, hcalls⟩ := ihf R2 hR2
        refine ⟨by simp [hlen], ?_, ?_⟩
        · rintro j ⟨A, hA, hAe⟩
          cases j with
          | zero => exact ⟨Agent, by simp, hse⟩
          | succ j =>
            obtain ⟨B, hB, hBe⟩ := herr j ⟨A, by simpa using hA, hAe⟩
            exact ⟨B, by simpa using hB, hBe⟩
        · rintro j ⟨A, hA, hAl⟩
          cases j with
          | zero =>
            simp only [List.getElem?_cons_zero, Option.some.injEq] at hA
            subst hA
            exact absurd hse hAl
          | succ j =>
            have := hcalls j ⟨A, by simpa using hA, hAl⟩
            have hidx : i + (j + 1) = i + 1 + j := by omega
            rw [hidx]
            exact this

/-- The loop of `InferenceAgentsAct`: it calls `Act` only, and only on agents whose status is
not `Error`; when it completes, the agents are as many as before, the errored ones are as they
were, and every agent that was not errored has been called. -/
theorem UScholaManagerSubsystem.InferenceAgentsActLoop_spec {β : Type}
    (Brain : UAbstractBrain β) :
    ∀ (L : List (UInferenceComponent β)) (i : Nat),
      (∀ c ∈ (UScholaManagerSubsystem.InferenceAgentsActLoop Brain i L).Calls,
        ∃ j, c = .Act (i + j) ∧ AgentLive L j) ∧
      ∀ L2, (UScholaManagerSubsystem.InferenceAgentsActLoop Brain i L).Final = some L2 →
        L2.length = L.length ∧ (∀ j, AgentErrored L j → AgentErrored L2 j) ∧
        ∀ j, AgentLive L j →
          .Act (i + j) ∈ (UScholaManagerSubsystem.InferenceAgentsActLoop Brain i L).Calls := by
  intro L
  induction L with
  | nil =>
    intro i
    refine ⟨fun c hc => absurd hc (by simp [UScholaManagerSubsystem.InferenceAgentsActLoop,
      Run.pure]), ?_⟩
    intro L2 hL2
    simp only [UScholaManagerSubsystem.InferenceAgentsActLoop, Run.pure,
      Option.some.injEq] at hL2
    subst hL2
    refine ⟨rfl, fun j h => h, ?_⟩
    rintro j ⟨A, hA, _⟩
    simp at hA
  | cons Agent Rest ih =>
    intro i
    obtain ⟨ihc, ihf⟩ := ih (i + 1)
    by_cases hs : Agent.GetStatus ≠ .Error
    · cases hT : IInferenceAgent.Act Brain Agent with
      | none =>
        have hrun : UScholaManagerSubsystem.InferenceAgentsActLoop Brain i (Agent :: Rest)
            = { Calls := [.Act i], Final := none } := by
          rw [UScholaManagerSubsystem.InferenceAgentsActLoop, if_pos hs, hT]
        rw [hrun]
        refine ⟨?_, fun L2 h => absurd h (by simp)⟩
        intro c hc
        rw [List.mem_singleton] at hc
        exact ⟨0, by simpa using hc, Agent, by simp, hs⟩
      | some After =>
        have hrun : UScholaManagerSubsystem.InferenceAgentsActLoop Brain i (Agent :: Rest)
            = { Calls := .Act i ::
                  (UScholaManagerSubsystem.InferenceAgentsActLoop Brain (i + 1) Rest).Calls,
                Final := (UScholaManagerSubsystem.InferenceAgentsActLoop Brain (i + 1)
                  Rest).Final.map fun Agents => After :: Agents } := by
          rw [UScholaManagerSubsystem.InferenceAgentsActLoop, if_pos hs, hT]
        rw [hrun]
        constructor
        · intro c hc
          rcases List.mem_cons.mp hc with hc | hc
          · exact ⟨0, by simpa using hc, Agent, by simp, hs⟩
          · obtain ⟨j, hj, hlive⟩ := ihc c hc
            exact ⟨j + 1, by rw [hj]; congr 1; omega, hlive.cons_succ⟩
        · intro L2 hL2
          simp only [Option.map_eq_some'] at hL2
          obtain ⟨R2, hR2, rfl⟩ := hL2
          obtain ⟨hlen, herr, hcalls⟩ := ihf R2 hR2
          refine ⟨by simp [hlen], ?_, ?_⟩
          · rintro j ⟨A, hA, hAe⟩
            cases j with
            | zero =>
              simp only [List.getElem?_cons_zero, Option.some.injEq] at hA
              subst hA
              exact absurd hAe hs
            | succ j =>
              obtain ⟨B, hB, hBe⟩ := herr j ⟨A, by simpa using hA, hAe⟩
              exact ⟨B, by simpa using hB, hBe⟩
          · rintro j ⟨A, hA, hAl⟩
            cases j with
            | zero => simp
            | succ j =>
              have := hcalls j ⟨A, by simpa using hA, hAl⟩
              rw [List.mem_cons]
              right
              have hidx : i + (j + 1) = i + 1 + j := by omega
              rw [hidx]
              exact this
    · have hrun : UScholaManagerSubsystem.InferenceAgentsActLoop Brain i (Agent :: Rest)
          = { Calls := (UScholaManagerSubsystem.InferenceAgentsActLoop Brain (i + 1) Rest).Calls,
              Final := (UScholaManagerSubsystem.InferenceAgentsActLoop Brain (i + 1)
                Rest).Final.map fun Agents => Agent :: Agents } := by
        rw [UScholaManagerSubsystem.InferenceAgentsActLoop, if_neg hs]
      rw [hrun]
      have hse : Agent.Status = .Error := by
        by_contra h
        exact hs h
      constructor
      · intro c hc
        obtain ⟨j, hj, hlive⟩ := ihc c hc
        exact ⟨j + 1, by rw [hj]; congr 1; omega, hlive.cons_succ⟩
      · intro L2 hL2
        simp only [Option.map_eq_some'] at hL2
        obtain ⟨R2, hR2, rfl⟩ := hL2
        obtain ⟨hlen, herr, hcalls⟩ := ihf R2 hR2
        refine ⟨by simp [hlen], ?_, ?_⟩
        · rintro j ⟨A, hA, hAe⟩
          cases j with
          | zero => exact ⟨Agent, by simp, hse⟩
          | succ j =>
            obtain ⟨B, hB, hBe⟩ := herr j ⟨A, by simpa using hA, hAe⟩
            exact ⟨B, by simpa using hB, hBe⟩
        · rintro j ⟨A, hA, hAl⟩
          cases j with
          | zero =>
            simp only [List.getElem?_cons_zero, Option.some.injEq] at hA
            subst hA
            exact absurd hse hAl
          | succ j =>
            have := hcalls j ⟨A, by simpa using hA, hAl⟩
            have hidx : i + (j + 1) = i + 1 + j := by omega
            rw [hidx]
            exact this


theorem Run.mem_calls_bind {σ τ : Type} (r : Run σ) (f : σ → Run τ) (c : AgentCall)
    (h : c ∈ (r.bind f).Calls) : c ∈ r.Calls ∨ ∃ s, r.Final = some s ∧ c ∈ (f s).Calls := by
  unfold Run.bind at h
  cases hr : r.Final with
  | none => rw [hr] at h; exact Or.inl h
  | some s =>
    rw [hr] at h
    rcases List.mem_append.mp h with h | h
    · exact Or.inl h
    · exact Or.inr ⟨s, rfl, h⟩

theorem Run.final_bind {σ τ : Type} (r : Run σ) (f : σ → Run τ) (t : τ)
    (h : (r.bind f).Final = some t) : ∃ s, r.Final = some s ∧ (f s).Final = some t := by
  unfold Run.bind at h
  cases hr : r.Final with
  | none => rw [hr] at h; exact absurd h (by simp)
  | some s => rw [hr] at h; exact ⟨s, rfl, h⟩

theorem Run.calls_bind_of_final {σ τ : Type} (r : Run σ) (f : σ → Run τ) (s : σ)
    (h : r.Final = some s) : (r.bind f).Calls = r.Calls ++ (f s).Calls := by
  unfold Run.bind
  rw [h]

theorem Run.calls_bind_of_aborted {σ τ : Type} (r : Run σ) (f : σ → Run τ)
    (h : r.Final = none) : (r.bind f).Calls = r.Calls := by
  unfold Run.bind
  rw [h]

theorem ThinkPrecedesAct.of_forall {Seen Calls : List AgentCall}
    (h : ∀ j, AgentCall.Act j ∈ Calls → AgentCall.Think j ∈ Seen) :
    ThinkPrecedesAct Seen Calls := by
  intro pre j post heq
  exact List.mem_append_left _ (h j (by rw [heq]; simp))

theorem ThinkPrecedesAct.append {Seen c1 c2 : List AgentCall} (h1 : ThinkPrecedesAct Seen c1)
    (h2 : ThinkPrecedesAct (Seen ++ c1) c2) : ThinkPrecedesAct Seen (c1 ++ c2) := by
  intro pre j post heq
  rcases List.append_eq_append_iff.mp heq with ⟨a, hpre, hc2⟩ | ⟨c, hc1, hrest⟩
  · have := h2 a j post hc2
    rw [hpre, ← List.append_assoc]
    exact this
  · cases c with
    | nil =>
      have := h2 [] j post (by simpa using hrest.symm)
      rw [List.append_nil] at hc1 this
      rw [← hc1]
      exact this
    | cons x c =>
      rw [List.cons_append, List.cons.injEq] at hrest
      obtain ⟨rfl, _⟩ := hrest
      exact h1 pre j c hc1

theorem ThinkPrecedesAct.bind {σ τ : Type} {Seen : List AgentCall} (r : Run σ) (f : σ → Run τ)
    (h1 : ThinkPrecedesAct Seen r.Calls)
    (h2 : ∀ s, r.Final = some s → ThinkPrecedesAct (Seen ++ r.Calls) (f s).Calls) :
    ThinkPrecedesAct Seen (r.bind f).Calls := by
  cases hr : r.Final with
  | none => rw [Run.calls_bind_of_aborted r f hr]; exact h1
  | some s => rw [Run.calls_bind_of_final r f s hr]; exact h1.append (h2 s hr)

/-- An agent that is live after its errored fellows stayed errored was live before. -/
theorem AgentLive.of_later {β : Type} {L L2 : List (UInferenceComponent β)} {j : Nat}
    (hlen : L2.length = L.length) (herr : ∀ j, AgentErrored L j → AgentErrored L2 j)
    (h : AgentLive L2 j) : AgentLive L j := by
  by_contra hn
  exact (herr j (AgentErrored.of_not_live (by rw [← hlen]; exact h.lt_length) hn)).not_live h

theorem UScholaManagerSubsystem.InferenceAgentsThink_spec {β κ : Type}
    (Brain : UAbstractBrain β) (S : UScholaManagerSubsystem β κ) :
    (∀ c ∈ (S.InferenceAgentsThink Brain).Calls,
      ∃ j, c = .Think j ∧ AgentLive S.InferenceAgents j) ∧
    ∀ S2, (S.InferenceAgentsThink Brain).Final = some S2 →
      S2.InferenceAgents.length = S.InferenceAgents.length ∧
      (∀ j, AgentErrored S.InferenceAgents j → AgentErrored S2.InferenceAgents j) ∧
      ∀ j, AgentLive S.InferenceAgents j → .Think j ∈ (S.InferenceAgentsThink Brain).Calls := by
  obtain ⟨hc, hf⟩ := UScholaManagerSubsystem.InferenceAgentsThinkLoop_spec Brain
    S.InferenceAgents 0
  constructor
  · intro c hmem
    obtain ⟨j, hj, hl⟩ := hc c hmem
    exact ⟨j, by simpa using hj, hl⟩
  · intro S2 hS2
    simp only [UScholaManagerSubsystem.InferenceAgentsThink, Option.map_eq_some'] at hS2
    obtain ⟨L2, hL2, rfl⟩ := hS2
    obtain ⟨hlen, herr, hcalls⟩ := hf L2 hL2
    exact ⟨hlen, herr, fun j hj => by simpa using hcalls j hj⟩

theorem UScholaManagerSubsystem.InferenceAgentsAct_spec {β κ : Type}
    (Brain : UAbstractBrain β) (S : UScholaManagerSubsystem β κ) :
    (∀ c ∈ (S.InferenceAgentsAct Brain).Calls,
      ∃ j, c = .Act j ∧ AgentLive S.InferenceAgents j) ∧
    ∀ S2, (S.InferenceAgentsAct Brain).Final = some S2 →
      S2.InferenceAgents.length = S.InferenceAgents.length ∧
      (∀ j, AgentErrored S.InferenceAgents j → AgentErrored S2.InferenceAgents j) := by
  obtain ⟨hc, hf⟩ := UScholaManagerSubsystem.InferenceAgentsActLoop_spec Brain
    S.InferenceAgents 0
  constructor
  · intro c hmem
    obtain ⟨j, hj, hl⟩ := hc c hmem
    exact ⟨j, by simpa using hj, hl⟩
  · intro S2 hS2
    simp only [UScholaManagerSubsystem.InferenceAgentsAct, Option.map_eq_some'] at hS2
    obtain ⟨L2, hL2, rfl⟩ := hS2
    obtain ⟨hlen, herr, _⟩ := hf L2 hL2
    exact ⟨hlen, herr⟩

theorem UScholaManagerSubsystem.TickResolve_agents {β κ υ : Type} (Connector : IGymConnector κ υ)
    (S : UScholaManagerSubsystem β κ) :
    (S.TickResolve Connector).InferenceAgents = S.InferenceAgents := by
  unfold UScholaManagerSubsystem.TickResolve
  cases hG : S.GymConnector with
  | none => rfl
  | some G =>
    by_cases hr : G.IsRunning = true
    · simp only [hr, if_true]
      cases h : (Connector.ResolveEnvironmentStateUpdate G).1 <;> rfl
    · simp only [hr]
      rfl

theorem UScholaManagerSubsystem.TickResetCompleted_agents {β κ υ : Type}
    (Connector : IGymConnector κ υ) (S : UScholaManagerSubsystem β κ) :
    (S.TickResetCompleted Connector).InferenceAgents = S.InferenceAgents := by
  unfold UScholaManagerSubsystem.TickResetCompleted
  split
  · split <;> rfl
  · rfl

theorem UScholaManagerSubsystem.TickSubmit_agents {β κ υ : Type} (Connector : IGymConnector κ υ)
    (S : UScholaManagerSubsystem β κ) :
    (S.TickSubmit Connector).InferenceAgents = S.InferenceAgents := by
  unfold UScholaManagerSubsystem.TickSubmit
  split
  · split <;> rfl
  · rfl

theorem UScholaManagerSubsystem.TickSelfReset_agents {β κ υ : Type}
    (Connector : IGymConnector κ υ) (S : UScholaManagerSubsystem β κ) :
    (S.TickSelfReset Connector).InferenceAgents = S.InferenceAgents := by
  unfold UScholaManagerSubsystem.TickSelfReset
  split
  · split <;> rfl
  · rfl

/-- The first block of `Tick`: it calls `Think` only, on agents that are not errored; when it
completes the errored agents are as they were, and if the connector started, every agent that
was not errored has been called. -/
theorem UScholaManagerSubsystem.TickStart_spec {β κ υ : Type} (Brain : UAbstractBrain β)
    (Connector : IGymConnector κ υ) (S : UScholaManagerSubsystem β κ) :
    (∀ c ∈ (S.TickStart Brain Connector).Calls,
      ∃ j, c = .Think j ∧ AgentLive S.InferenceAgents j) ∧
    ∀ S1, (S.TickStart Brain Connector).Final = some S1 →
      S1.InferenceAgents.length = S.InferenceAgents.length ∧
      (∀ j, AgentErrored S.InferenceAgents j → AgentErrored S1.InferenceAgents j) ∧
      ∀ G, S.GymConnector = some G → G.IsNotStarted = true →
        (Connector.CheckForStart G).1 = true →
        ∀ j, AgentLive S.InferenceAgents j → .Think j ∈ (S.TickStart Brain Connector).Calls := by
  cases hG : S.GymConnector with
  | none =>
    have hrun : S.TickStart Brain Connector = Run.pure S := by
      unfold UScholaManagerSubsystem.TickStart
      rw [hG]
    rw [hrun]
    refine ⟨fun c hc => absurd hc (by simp [Run.pure]), ?_⟩
    intro S1 hS1
    simp only [Run.pure, Option.some.injEq] at hS1
    subst hS1
    exact ⟨rfl, fun j h => h, fun G h => absurd h (by simp)⟩
  | some G =>
    by_cases hns : G.IsNotStarted = true
    · by_cases hst : (Connector.CheckForStart G).1 = true
      · have hrun : S.TickStart Brain Connector =
            ({ S with bFirstStep := true, GymConnector := some (Connector.CheckForStart G).2 } :
              UScholaManagerSubsystem β κ).InferenceAgentsThink Brain := by
          unfold UScholaManagerSubsystem.TickStart
          rw [hG]
          simp only [hns, hst, if_true]
        rw [hrun]
        obtain ⟨hc, hf⟩ := UScholaManagerSubsystem.InferenceAgentsThink_spec Brain
          ({ S with bFirstStep := true, GymConnector := some (Connector.CheckForStart G).2 } :
            UScholaManagerSubsystem β κ)
        refine ⟨hc, ?_⟩
        intro S1 hS1
        obtain ⟨hlen, herr, hcalls⟩ := hf S1 hS1
        exact ⟨hlen, herr, fun _ _ _ _ j hj => hcalls j hj⟩
      · have hrun : S.TickStart Brain Connector =
            Run.pure { S with bFirstStep := true,
                              GymConnector := some (Connector.CheckForStart G).2 } := by
          unfold UScholaManagerSubsystem.TickStart
          rw [hG]
          simp only [hns, hst, if_true]
          rfl
        rw [hrun]
        refine ⟨fun c hc => absurd hc (by simp [Run.pure]), ?_⟩
        intro S1 hS1
        simp only [Run.pure, Option.some.injEq] at hS1
        subst hS1
        refine ⟨rfl, fun j h => h, ?_⟩
        intro G2 hG2 _ hst2
        rw [Option.some.inj hG2] at hst
        exact absurd hst2 hst
    · have hrun : S.TickStart Brain Connector = Run.pure S := by
        unfold UScholaManagerSubsystem.TickStart
        rw [hG]
        simp only [hns]
        rfl
      rw [hrun]
      refine ⟨fun c hc => absurd hc (by simp [Run.pure]), ?_⟩
      intro S1 hS1
      simp only [Run.pure, Option.some.injEq] at hS1
      subst hS1
      refine ⟨rfl, fun j h => h, ?_⟩
      intro G2 hG2 hns2
      rw [Option.some.inj hG2] at hns
      exact absurd hns2 hns

/-- One `Tick`: every call is a `Think` or an `Act` on an agent that is not errored; when the
tick completes the errored agents are as they were and every agent that is not errored has been
asked to think. -/
theorem UScholaManagerSubsystem.Tick_spec {β κ υ : Type} (Brain : UAbstractBrain β)
    (Connector : IGymConnector κ υ) (S : UScholaManagerSubsystem β κ) :
    (∀ c ∈ (S.Tick Brain Connector).Calls,
      ∃ j, (c = .Think j ∨ c = .Act j) ∧ AgentLive S.InferenceAgents j) ∧
    ∀ S4, (S.Tick Brain Connector).Final = some S4 →
      S4.InferenceAgents.length = S.InferenceAgents.length ∧
      (∀ j, AgentErrored S.InferenceAgents j → AgentErrored S4.InferenceAgents j) ∧
      ∀ j, AgentLive S4.InferenceAgents j → .Think j ∈ (S.Tick Brain Connector).Calls := by
  obtain ⟨hc0, hf0⟩ := S.TickStart_spec Brain Connector
  constructor
  · intro c hc
    unfold UScholaManagerSubsystem.Tick at hc
    rcases Run.mem_calls_bind _ _ c hc with h | ⟨S1, hS1, hc⟩
    · obtain ⟨j, hj, hl⟩ := hc0 c h
      exact ⟨j, Or.inl hj, hl⟩
    · obtain ⟨hlen1, herr1, _⟩ := hf0 S1 hS1
      obtain ⟨hc1, hf1⟩ := (S1.TickResolve Connector).InferenceAgentsAct_spec Brain
      rw [S1.TickResolve_agents Connector] at hc1 hf1
      rcases Run.mem_calls_bind _ _ c hc with h | ⟨S2, hS2, hc⟩
      · obtain ⟨j, hj, hl⟩ := hc1 c h
        exact ⟨j, Or.inr hj, hl.of_later hlen1 herr1⟩
      · obtain ⟨hlen2, herr2⟩ := hf1 S2 hS2
        obtain ⟨hc2, _⟩ := ((S2.TickResetCompleted Connector).TickSubmit
          Connector).InferenceAgentsThink_spec Brain
        rw [UScholaManagerSubsystem.TickSubmit_agents,
          UScholaManagerSubsystem.TickResetCompleted_agents] at hc2
        rcases Run.mem_calls_bind _ _ c hc with h | ⟨S3, _, hc⟩
        · obtain ⟨j, hj, hl⟩ := hc2 c h
          exact ⟨j, Or.inl hj, (hl.of_later hlen2 herr2).of_later hlen1 herr1⟩
        · exact absurd hc (by simp [Run.pure])
  · intro S4 hS4
    unfold UScholaManagerSubsystem.Tick at hS4 ⊢
    obtain ⟨S1, hS1, hS4⟩ := Run.final_bind _ _ S4 hS4
    obtain ⟨S2, hS2, hS4⟩ := Run.final_bind _ _ S4 hS4
    obtain ⟨S3, hS3, hS4⟩ := Run.final_bind _ _ S4 hS4
    simp only [Run.pure, Option.some.injEq] at hS4
    subst hS4
    obtain ⟨hlen1, herr1, _⟩ := hf0 S1 hS1
    obtain ⟨_, hf1⟩ := (S1.TickResolve Connector).InferenceAgentsAct_spec Brain
    rw [S1.TickResolve_agents Connector] at hf1
    obtain ⟨hlen2, herr2⟩ := hf1 S2 hS2
    obtain ⟨_, hf2⟩ := ((S2.TickResetCompleted Connector).TickSubmit
      Connector).InferenceAgentsThink_spec Brain
    rw [UScholaManagerSubsystem.TickSubmit_agents,
      UScholaManagerSubsystem.TickResetCompleted_agents] at hf2
    obtain ⟨hlen3, herr3, hcalls3⟩ := hf2 S3 hS3
    rw [UScholaManagerSubsystem.TickSelfReset_agents]
    refine ⟨by omega, fun j h => herr3 j (herr2 j (herr1 j h)), ?_⟩
    intro j hj
    rw [Run.calls_bind_of_final _ _ S1 hS1, Run.calls_bind_of_final _ _ S2 hS2,
      Run.calls_bind_of_final _ _ S3 hS3]
    have := hcalls3 j (hj.of_later hlen3 herr3)
    simp [this]

/-- One `Tick` after calls `Seen`: if every agent that is not errored after the first block has
thought in `Seen` or in the first block, every `Act` of the tick comes after a `Think` on the
same agent. -/
theorem UScholaManagerSubsystem.Tick_thinkPrecedesAct {β κ υ : Type} (Brain : UAbstractBrain β)
    (Connector : IGymConnector κ υ) (S : UScholaManagerSubsystem β κ) (Seen : List AgentCall)
    (hseen : ∀ S1, (S.TickStart Brain Connector).Final = some S1 →
      ∀ j, AgentLive S1.InferenceAgents j →
        .Think j ∈ Seen ++ (S.TickStart Brain Connector).Calls) :
    ThinkPrecedesAct Seen (S.Tick Brain Connector).Calls := by
  obtain ⟨hc0, hf0⟩ := S.TickStart_spec Brain Connector
  unfold UScholaManagerSubsystem.Tick
  apply ThinkPrecedesAct.bind
  · apply ThinkPrecedesAct.of_forall
    intro j hj
    obtain ⟨k, hk, _⟩ := hc0 _ hj
    exact absurd hk (by simp)
  · intro S1 hS1
    obtain ⟨hc1, hf1⟩ := (S1.TickResolve Connector).InferenceAgentsAct_spec Brain
    rw [S1.TickResolve_agents Connector] at hc1 hf1
    apply ThinkPrecedesAct.bind
    · apply ThinkPrecedesAct.of_forall
      intro j hj
      obtain ⟨k, hk, hl⟩ := hc1 _ hj
      rw [AgentCall.Act.injEq] at hk
      subst hk
      exact hseen S1 hS1 j hl
    · intro S2 hS2
      obtain ⟨hc2, _⟩ := ((S2.TickResetCompleted Connector).TickSubmit
        Connector).InferenceAgentsThink_spec Brain
      apply ThinkPrecedesAct.bind
      · apply ThinkPrecedesAct.of_forall
        intro j hj
        obtain ⟨k, hk, _⟩ := hc2 _ hj
        exact absurd hk (by simp)
      · intro S3 _
        apply ThinkPrecedesAct.of_forall
        intro j hj
        exact absurd hj (by simp [Run.pure])

/-- A series of ticks after calls `Seen` in which every agent that is not errored has thought:
every `Act` comes after a `Think` on the same agent; no call is made on an errored agent, and
the errored agents stay errored. -/
theorem tickSeries_spec {β κ υ : Type} (Brain : UAbstractBrain β)
    (Connector : IGymConnector κ υ) :
    ∀ (n : Nat) (S : UScholaManagerSubsystem β κ),
      (∀ Seen : List AgentCall,
        (∀ j, AgentLive S.InferenceAgents j → AgentCall.Think j ∈ Seen) →
        ThinkPrecedesAct Seen (tickSeries Brain Connector n S).Calls) ∧
      (∀ c ∈ (tickSeries Brain Connector n S).Calls,
        ∃ j, (c = .Think j ∨ c = .Act j) ∧ AgentLive S.InferenceAgents j) ∧
      ∀ S2, (tickSeries Brain Connector n S).Final = some S2 →
        S2.InferenceAgents.length = S.InferenceAgents.length ∧
        ∀ j, AgentErrored S.InferenceAgents j → AgentErrored S2.InferenceAgents j := by
  intro n
  induction n with
  | zero =>
    intro S
    refine ⟨fun Seen _ => ThinkPrecedesAct.of_forall fun j hj =>
      absurd hj (by simp [tickSeries, Run.pure]),
      fun c hc => absurd hc (by simp [tickSeries, Run.pure]), ?_⟩
    intro S2 hS2
    simp only [tickSeries, Run.pure, Option.some.injEq] at hS2
    subst hS2
    exact ⟨rfl, fun j h => h⟩
  | succ n ih =>
    intro S
    obtain ⟨hcT, hfT⟩ := S.Tick_spec Brain Connector
    obtain ⟨_, hf0⟩ := S.TickStart_spec Brain Connector
    refine ⟨?_, ?_, ?_⟩
    · intro Seen hseen
      rw [tickSeries]
      apply ThinkPrecedesAct.bind
      · apply S.Tick_thinkPrecedesAct Brain Connector Seen
        intro S1 hS1 j hj
        obtain ⟨hlen1, herr1, _⟩ := hf0 S1 hS1
        exact List.mem_append_left _ (hseen j (hj.of_later hlen1 herr1))
      · intro S4 hS4
        obtain ⟨_, _, hcalls⟩ := hfT S4 hS4
        exact (ih S4).1 _ fun j hj => List.mem_append_right _ (hcalls j hj)
    · intro c hc
      rw [tickSeries] at hc
      rcases Run.mem_calls_bind _ _ c hc with h | ⟨S4, hS4, hc⟩
      · exact hcT c h
      · obtain ⟨hlen, herr, _⟩ := hfT S4 hS4
        obtain ⟨j, hj, hl⟩ := (ih S4).2.1 c hc
        exact ⟨j, hj, hl.of_later hlen herr⟩
    · intro S2 hS2
      rw [tickSeries] at hS2
      obtain ⟨S4, hS4, hS2⟩ := Run.final_bind _ _ S2 hS2
      obtain ⟨hlen, herr, _⟩ := hfT S4 hS4
      obtain ⟨hlen2, herr2⟩ := (ih S4).2.2 S2 hS2
      exact ⟨by omega, fun j h => herr2 j (herr j h)⟩

/-- C24. Errored agents are skipped thereafter: an inference agent whose status is `Error` is
called neither by `InferenceAgentsThink` nor by `InferenceAgentsAct`; in any series of ticks no
`Think` and no `Act` is ever invoked on it and its status is still `Error` afterwards; and
`Think` and `Act` themselves leave the status of an errored agent as it is. -/
theorem errored_agents_are_skipped {β κ υ : Type} (Brain : UAbstractBrain β)
    (Connector : IGymConnector κ υ) (S : UScholaManagerSubsystem β κ) (j : Nat)
    (herr : AgentErrored S.InferenceAgents j) :
    AgentCall.Think j ∉ (S.InferenceAgentsThink Brain).Calls ∧
    AgentCall.Act j ∉ (S.InferenceAgentsAct Brain).Calls ∧
    (∀ n : Nat,
      AgentCall.Think j ∉ (tickSeries Brain Connector n S).Calls ∧
      AgentCall.Act j ∉ (tickSeries Brain Connector n S).Calls ∧
      ∀ S2, (tickSeries Brain Connector n S).Final = some S2 →
        AgentErrored S2.InferenceAgents j) ∧
    ∀ Agent : UInferenceComponent β, Agent.Status = .Error →
      IInferenceAgent.Think Brain Agent = some Agent ∧
      IInferenceAgent.Act Brain Agent
        = some { Agent with Brain := Brain.IncrementStep Agent.Brain } := by
  refine ⟨?_, ?_, ?_, ?_⟩
  · intro hmem
    obtain ⟨k, hk, hl⟩ := (S.InferenceAgentsThink_spec Brain).1 _ hmem
    rw [AgentCall.Think.injEq] at hk
    subst hk
    exact herr.not_live hl
  · intro hmem
    obtain ⟨k, hk, hl⟩ := (S.InferenceAgentsAct_spec Brain).1 _ hmem
    rw [AgentCall.Act.injEq] at hk
    subst hk
    exact herr.not_live hl
  · intro n
    obtain ⟨_, hcalls, hfinal⟩ := tickSeries_spec Brain Connector n S
    refine ⟨?_, ?_, fun S2 hS2 => (hfinal S2 hS2).2 j herr⟩
    · intro hmem
      obtain ⟨k, hk, hl⟩ := hcalls _ hmem
      rcases hk with hk | hk
      · rw [AgentCall.Think.injEq] at hk
        subst hk
        exact herr.not_live hl
      · exact absurd hk (by simp)
    · intro hmem
      obtain ⟨k, hk, hl⟩ := hcalls _ hmem
      rcases hk with hk | hk
      · exact absurd hk (by simp)
      · rw [AgentCall.Act.injEq] at hk
        subst hk
        exact herr.not_live hl
  · intro Agent hA
    constructor
    · simp [IInferenceAgent.Think, UInferenceComponent.GetStatus, hA]
    · simp [IInferenceAgent.Act, UInferenceComponent.GetStatus, hA]

/-- Witness for C24: two agents, the first one errored; over three ticks only the second one is
called. -/
theorem errored_agents_are_skipped_witness :
    AgentCall.Think 0 ∉
      (tickSeries readyBrain startingConnector 3
        ⟨true, true, [{ Brain := (), Status := .Error }, { Brain := () }],
          some { Status := .NotStarted, Rest := () }⟩).Calls ∧
    AgentCall.Act 0 ∉
      (tickSeries readyBrain startingConnector 3
        ⟨true, true, [{ Brain := (), Status := .Error }, { Brain := () }],
          some { Status := .NotStarted, Rest := () }⟩).Calls :=
  have h := (errored_agents_are_skipped readyBrain startingConnector
    ⟨true, true, [{ Brain := (), Status := .Error }, { Brain := () }],
      some { Status := .NotStarted, Rest := () }⟩ 0 ⟨_, rfl, rfl⟩).2.2.1 3
  ⟨h.1, h.2.1⟩

/-- Counterexample to C25 as stated: from the prepared initial state with one inference agent,
a first `Tick` that finds the connector waiting for its start signal calls `Act` on the agent
before any `Think`; so does a first `Tick` that finds the connector already running. -/
theorem first_tick_acts_before_think :
    ((⟨true, true, [{ Brain := () }], some { Status := .NotStarted, Rest := () }⟩ :
      UScholaManagerSubsystem Unit Unit).Tick readyBrain idleConnector).Calls
      = [.Act 0, .Think 0] ∧
    ((⟨true, true, [{ Brain := () }], some { Status := .Running, Rest := () }⟩ :
      UScholaManagerSubsystem Unit Unit).Tick readyBrain startingConnector).Calls
      = [.Act 0, .Think 0] ∧
    ¬ ThinkPrecedesAct []
      (tickSeries readyBrain idleConnector 1
        (⟨true, true, [{ Brain := () }], some { Status := .NotStarted, Rest := () }⟩ :
          UScholaManagerSubsystem Unit Unit)).Calls := by
  refine ⟨by decide, by decide, ?_⟩
  intro h
  have := h [] 0 [.Think 0] (by decide)
  simp at this

/-- C25 (amended). Think precedes Act from the second tick on: in the calls of any series of
ticks, every `Act` made after the calls of the first tick comes after a `Think` on the same
agent; and when the first tick finds the connector not started (`NotStarted` or `Closed`) and
`CheckForStart` succeeds, every `Act` of the series does. -/
theorem think_precedes_act_after_first_tick {β κ υ : Type} (Brain : UAbstractBrain β)
    (Connector : IGymConnector κ υ) (S : UScholaManagerSubsystem β κ) (n : Nat) :
    (∀ (pre : List AgentCall) (j : Nat) (post : List AgentCall),
      (tickSeries Brain Connector n S).Calls = pre ++ .Act j :: post →
      (S.Tick Brain Connector).Calls.length ≤ pre.length → .Think j ∈ pre) ∧
    (∀ G, S.GymConnector = some G → G.IsNotStarted = true →
      (Connector.CheckForStart G).1 = true →
      ∀ (pre : List AgentCall) (j : Nat) (post : List AgentCall),
        (tickSeries Brain Connector n S).Calls = pre ++ .Act j :: post → .Think j ∈ pre) := by
  obtain ⟨_, hfT⟩ := S.Tick_spec Brain Connector
  obtain ⟨_, hf0⟩ := S.TickStart_spec Brain Connector
  constructor
  · intro pre j post heq hlen
    cases n with
    | zero =>
      simp only [tickSeries, Run.pure] at heq
      exact absurd heq (by simp)
    | succ n =>
      rw [tickSeries] at heq
      cases hT : (S.Tick Brain Connector).Final with
      | none =>
        rw [Run.calls_bind_of_aborted _ _ hT] at heq
        rw [heq] at hlen
        simp at hlen
      | some S4 =>
        rw [Run.calls_bind_of_final _ _ S4 hT] at heq
        obtain ⟨_, _, hcalls⟩ := hfT S4 hT
        have htpa := (tickSeries_spec Brain Connector n S4).1 (S.Tick Brain Connector).Calls
          hcalls
        rcases List.append_eq_append_iff.mp heq with ⟨a, hpre, hc2⟩ | ⟨c, hc1, hrest⟩
        · rw [hpre]
          exact htpa a j post hc2
        · have hc : c = [] := by
            have := congrArg List.length hc1
            rw [List.length_append] at this
            exact List.eq_nil_of_length_eq_zero (by omega)
          subst hc
          rw [List.append_nil] at hc1
          rw [← hc1]
          have := htpa [] j post (by simpa using hrest.symm)
          simpa using this
  · intro G hG hns hst pre j post heq
    have htpa : ThinkPrecedesAct [] (tickSeries Brain Connector n S).Calls := by
      cases n with
      | zero =>
        exact ThinkPrecedesAct.of_forall fun j hj => absurd hj (by simp [tickSeries, Run.pure])
      | succ n =>
        rw [tickSeries]
        apply ThinkPrecedesAct.bind
        · apply S.Tick_thinkPrecedesAct Brain Connector []
          intro S1 hS1 k hk
          obtain ⟨hlen1, herr1, hstart⟩ := hf0 S1 hS1
          rw [List.nil_append]
          exact hstart G hG hns hst k (hk.of_later hlen1 herr1)
        · intro S4 hS4
          obtain ⟨_, _, hcalls⟩ := hfT S4 hS4
          exact (tickSeries_spec Brain Connector n S4).1 _
            fun k hk => List.mem_append_right _ (hcalls k hk)
    simpa using htpa pre j post heq

/-- Witness for C25: one agent and a connector that starts at the first tick; over two ticks
every `Act` comes after a `Think`. -/
theorem think_precedes_act_after_first_tick_witness :
    ∀ (pre : List AgentCall) (j : Nat) (post : List AgentCall),
      (tickSeries readyBrain startingConnector 2
        ⟨true, true, [{ Brain := () }], some { Status := .NotStarted, Rest := () }⟩).Calls
        = pre ++ .Act j :: post → .Think j ∈ pre :=
  (think_precedes_act_after_first_tick readyBrain startingConnector
    ⟨true, true, [{ Brain := () }], some { Status := .NotStarted, Rest := () }⟩ 2).2
    { Status := .NotStarted, Rest := () } rfl rfl rfl

/-- The calls of two ticks with one agent and a connector that starts at the first tick. -/
theorem tick_series_example :
    (tickSeries readyBrain startingConnector 2
      ⟨true, true, [{ Brain := () }], some { Status := .NotStarted, Rest := () }⟩).Calls
      = [.Think 0, .Act 0, .Think 0, .Act 0, .Think 0] := by
  decide

/-! ## Comparisons of `float`s -/

theorem Machine.float.finite_key_strictMono : StrictMono fun q : ℚ => q / (1 + |q|) := by
  intro a b hab
  have ha : (0 : ℚ) < 1 + |a| := by positivity
  have hb : (0 : ℚ) < 1 + |b| := by positivity
  show a / (1 + |a|) < b / (1 + |b|)
  rw [div_lt_div_iff₀ ha hb]
  rcases le_or_lt 0 a with h0 | h0
  · have hb0 : 0 ≤ b := le_trans h0 (le_of_lt hab)
    rw [abs_of_nonneg h0, abs_of_nonneg hb0]
    nlinarith
  · rcases le_or_lt 0 b with hb0 | hb0
    · rw [abs_of_neg h0, abs_of_nonneg hb0]
      nlinarith [mul_nonneg hb0 (le_of_lt (neg_pos.mpr h0))]
    · rw [abs_of_neg h0, abs_of_neg hb0]
      nlinarith

theorem Machine.float.finite_key_lt_one (q : ℚ) : q / (1 + |q|) < 1 := by
  have h : (0 : ℚ) < 1 + |q| := by positivity
  rw [div_lt_one h]
  linarith [le_abs_self q]

theorem Machine.float.neg_one_lt_finite_key (q : ℚ) : -1 < q / (1 + |q|) := by
  have h : (0 : ℚ) < 1 + |q| := by positivity
  rw [lt_div_iff₀ h]
  linarith [neg_abs_le q]

/-- On `float`s other than NaN, `<` is the order of the keys. -/
theorem Machine.float.lt_iff_key (a b : Machine.float) (ha : a ≠ .NaN) (hb : b ≠ .NaN) :
    a.lt b = true ↔ a.key < b.key := by
  cases a with
  | NaN => exact absurd rfl ha
  | NegInf =>
    cases b with
    | NaN => exact absurd rfl hb
    | NegInf => simp [Machine.float.lt, Machine.float.key]
    | Finite q =>
      simpa [Machine.float.lt, Machine.float.key] using Machine.float.neg_one_lt_finite_key q
    | PosInf => simp [Machine.float.lt, Machine.float.key]
  | Finite p =>
    cases b with
    | NaN => exact absurd rfl hb
    | NegInf =>
      simpa [Machine.float.lt, Machine.float.key] using
        le_of_lt (Machine.float.neg_one_lt_finite_key p)
    | Finite q =>
      have h : p / (1 + |p|) < q / (1 + |q|) ↔ p < q :=
        Machine.float.finite_key_strictMono.lt_iff_lt
      simpa [Machine.float.lt, Machine.float.key] using h.symm
    | PosInf =>
      simpa [Machine.float.lt, Machine.float.key] using Machine.float.finite_key_lt_one p
  | PosInf =>
    cases b with
    | NaN => exact absurd rfl hb
    | NegInf => simp [Machine.float.lt, Machine.float.key]
    | Finite q =>
      simpa [Machine.float.lt, Machine.float.key] using
        le_of_lt (Machine.float.finite_key_lt_one q)
    | PosInf => simp [Machine.float.lt, Machine.float.key]

/-- On `float`s other than NaN, `<=` is the order of the keys. -/
theorem Machine.float.le_iff_key (a b : Machine.float) (ha : a ≠ .NaN) (hb : b ≠ .NaN) :
    a.le b = true ↔ a.key ≤ b.key := by
  cases a with
  | NaN => exact absurd rfl ha
  | NegInf =>
    cases b with
    | NaN => exact absurd rfl hb
    | NegInf => simp [Machine.float.le, Machine.float.key]
    | Finite q =>
      simpa [Machine.float.le, Machine.float.key] using
        le_of_lt (Machine.float.neg_one_lt_finite_key q)
    | PosInf => simp [Machine.float.le, Machine.float.key]
  | Finite p =>
    cases b with
    | NaN => exact absurd rfl hb
    | NegInf =>
      simpa [Machine.float.le, Machine.float.key] using Machine.float.neg_one_lt_finite_key p
    | Finite q =>
      have h : p / (1 + |p|) ≤ q / (1 + |q|) ↔ p ≤ q :=
        Machine.float.finite_key_strictMono.le_iff_le
      simpa [Machine.float.le, Machine.float.key] using h.symm
    | PosInf =>
      simpa [Machine.float.le, Machine.float.key] using
        le_of_lt (Machine.float.finite_key_lt_one p)
  | PosInf =>
    cases b with
    | NaN => exact absurd rfl hb
    | NegInf => simp [Machine.float.le, Machine.float.key]
    | Finite q =>
      simpa [Machine.float.le, Machine.float.key] using Machine.float.finite_key_lt_one q
    | PosInf => simp [Machine.float.le, Machine.float.key]

/-- On `float`s other than NaN, `>` is the order of the keys. -/
theorem Machine.float.gt_iff_key (a b : Machine.float) (ha : a ≠ .NaN) (hb : b ≠ .NaN) :
    a.gt b = true ↔ a.key > b.key :=
  Machine.float.lt_iff_key b a hb ha

/-- On `float`s other than NaN, `>=` is the order of the keys. -/
theorem Machine.float.ge_iff_key (a b : Machine.float) (ha : a ≠ .NaN) (hb : b ≠ .NaN) :
    a.ge b = true ↔ b.key ≤ a.key :=
  Machine.float.le_iff_key b a hb ha

/-! ## Argmax over `float`s -/

/-- On values other than NaN the loop of `GetMaxValue` runs as the loop over their keys. -/
theorem Machine.FDiscreteSpace.GetMaxValue_foldl_key : ∀ (suf : List Machine.float)
    (st : Machine.float × Int × Int), (∀ x ∈ suf, x ≠ .NaN) → st.1 ≠ .NaN →
    (suf.map Machine.float.key).foldl Schola.FDiscreteSpace.GetMaxValueStep (st.1.key, st.2) =
      ((suf.foldl Machine.FDiscreteSpace.GetMaxValueStep st).1.key,
        (suf.foldl Machine.FDiscreteSpace.GetMaxValueStep st).2) := by
  intro suf
  induction suf with
  | nil => intro st _ _; rfl
  | cons x suf ih =>
    intro st hnan hst
    have hx : x ≠ .NaN := hnan x (List.mem_cons_self _ _)
    have hsuf : ∀ y ∈ suf, y ≠ .NaN := fun y hy => hnan y (List.mem_cons_of_mem _ hy)
    rw [List.map_cons, List.foldl_cons, List.foldl_cons]
    by_cases hgt : x.gt st.1 = true
    · have hk : x.key > st.1.key := (Machine.float.gt_iff_key x st.1 hx hst).mp hgt
      have h1 : Schola.FDiscreteSpace.GetMaxValueStep (st.1.key, st.2) x.key =
          (x.key, st.2.2, st.2.2 + 1) := by
        simp only [Schola.FDiscreteSpace.GetMaxValueStep]
        rw [if_pos hk]
      have h2 : Machine.FDiscreteSpace.GetMaxValueStep st x = (x, st.2.2, st.2.2 + 1) := by
        simp only [Machine.FDiscreteSpace.GetMaxValueStep]
        rw [if_pos hgt]
      rw [h1, h2]
      exact ih (x, st.2.2, st.2.2 + 1) hsuf hx
    · have hk : ¬ x.key > st.1.key := fun h =>
        hgt ((Machine.float.gt_iff_key x st.1 hx hst).mpr h)
      have h1 : Schola.FDiscreteSpace.GetMaxValueStep (st.1.key, st.2) x.key =
          (st.1.key, st.2.1, st.2.2 + 1) := by
        simp only [Schola.FDiscreteSpace.GetMaxValueStep]
        rw [if_neg hk]
      have h2 : Machine.FDiscreteSpace.GetMaxValueStep st x = (st.1, st.2.1, st.2.2 + 1) := by
        simp only [Machine.FDiscreteSpace.GetMaxValueStep]
        rw [if_neg hgt]
      rw [h1, h2]
      exact ih (st.1, st.2.1, st.2.2 + 1) hsuf hst

/-- On an array without NaN, `GetMaxValue` returns what it returns on the keys of the values. -/
theorem Machine.FDiscreteSpace.GetMaxValue_key (S : FDiscreteSpace) (V : List Machine.float)
    (hnan : ∀ x ∈ V, x ≠ .NaN) :
    Machine.FDiscreteSpace.GetMaxValue S V = S.GetMaxValue (V.map Machine.float.key) := by
  cases V with
  | nil => rfl
  | cons x rest =>
    have hx : x ≠ .NaN := hnan x (List.mem_cons_self _ _)
    have h := Machine.FDiscreteSpace.GetMaxValue_foldl_key (x :: rest) (x, 0, 0) hnan hx
    have hget : TArray.get (x :: rest) 0 = some x := by
      simpa using TArray.get_of_lt (x :: rest) 0 (by simp)
    have hgetk : TArray.get ((x :: rest).map Machine.float.key) 0 = some x.key := by
      simpa using TArray.get_of_lt ((x :: rest).map Machine.float.key) 0 (by simp)
    have h1 : Machine.FDiscreteSpace.GetMaxValue S (x :: rest) =
        (TArray.get (x :: rest) 0).bind fun CurrMax =>
          some ((x :: rest).foldl Machine.FDiscreteSpace.GetMaxValueStep (CurrMax, 0, 0)).2.1 := rfl
    have h2 : S.GetMaxValue ((x :: rest).map Machine.float.key) =
        (TArray.get ((x :: rest).map Machine.float.key) 0).bind fun CurrMax =>
          some (((x :: rest).map Machine.float.key).foldl Schola.FDiscreteSpace.GetMaxValueStep
            (CurrMax, 0, 0)).2.1 := rfl
    rw [h1, h2, hget, hgetk, Option.some_bind, Option.some_bind, h]

/-- On an array without NaN, first positions of the maximum are those of the keys. -/
theorem Machine.IsFirstArgMax.iff_key (V : List Machine.float) (hnan : ∀ x ∈ V, x ≠ .NaN)
    (i : Nat) : Machine.IsFirstArgMax V i ↔ Schola.IsFirstArgMax (V.map Machine.float.key) i := by
  have hge : ∀ (a b : Nat) (ha : a < V.length) (hb : b < V.length),
      (V[a]).ge V[b] = true ↔ (V[b]).key ≤ (V[a]).key := fun a b ha hb =>
    Machine.float.ge_iff_key _ _ (hnan _ (List.getElem_mem ha)) (hnan _ (List.getElem_mem hb))
  constructor
  · rintro ⟨hi, h1, h2⟩
    refine ⟨by simpa using hi, ?_, ?_⟩
    · intro j hj
      have hj2 : j < V.length := by simpa using hj
      simpa using (hge i j hi hj2).mp (h1 j hj2)
    · intro k hk hmax
      have hk2 : k < V.length := by simpa using hk
      apply h2 k hk2
      intro j hj
      have := hmax j (by simpa using hj)
      exact (hge k j hk2 hj).mpr (by simpa using this)
  · rintro ⟨hi, h1, h2⟩
    have hi2 : i < V.length := by simpa using hi
    refine ⟨hi2, ?_, ?_⟩
    · intro j hj
      have := h1 j (by simpa using hj)
      exact (hge i j hi2 hj).mpr (by simpa using this)
    · intro k hk hmax
      apply h2 k (by simpa using hk)
      intro j hj
      have hj2 : j < V.length := by simpa using hj
      simpa using (hge k j hk hj2).mp (hmax j hj2)

/-- On a non-empty array without NaN, `GetMaxValue` returns the first position of the maximum. -/
theorem Machine.FDiscreteSpace.GetMaxValue_float_isFirstArgMax (S : FDiscreteSpace)
    (V : List Machine.float) (hV : V ≠ []) (hnan : ∀ x ∈ V, x ≠ .NaN) :
    ∃ i : Nat, Machine.FDiscreteSpace.GetMaxValue S V = some (i : Int) ∧
      Machine.IsFirstArgMax V i := by
  obtain ⟨i, h1, h2⟩ := S.GetMaxValue_isFirstArgMax (V.map Machine.float.key) (by simpa using hV)
  exact ⟨i, by rw [Machine.FDiscreteSpace.GetMaxValue_key S V hnan, h1],
    (Machine.IsFirstArgMax.iff_key V hnan i).mpr h2⟩

/-- C3 (amended). Argmax with first-seen tie-break: on a non-empty array without NaN,
`GetMaxValue` returns the smallest index whose value is at least every value of the array; it
returns 0 on `[0.5, 0.5]`, and the index of the maximum when that maximum is strict. -/
theorem float_getMaxValue_first_seen_argmax (S : FDiscreteSpace) (V : List Machine.float)
    (hV : V ≠ []) (hnan : ∀ x ∈ V, x ≠ .NaN) :
    (∃ i : Nat, Machine.FDiscreteSpace.GetMaxValue S V = some (i : Int) ∧
      Machine.IsFirstArgMax V i) ∧
    Machine.FDiscreteSpace.GetMaxValue S [.Finite 0.5, .Finite 0.5] = some 0 ∧
    (∀ (k : Nat) (hk : k < V.length),
      (∀ (j : Nat) (hj : j < V.length), j ≠ k → (V[j]).lt V[k] = true) →
      Machine.FDiscreteSpace.GetMaxValue S V = some (k : Int)) := by
  refine ⟨Machine.FDiscreteSpace.GetMaxValue_float_isFirstArgMax S V hV hnan, ?_, ?_⟩
  · simp [Machine.FDiscreteSpace.GetMaxValue, TArray.get, Machine.FDiscreteSpace.GetMaxValueStep,
      Machine.float.gt, Machine.float.lt]
  · intro k hk hstrict
    obtain ⟨i, h1, hi, h2, _⟩ := Machine.FDiscreteSpace.GetMaxValue_float_isFirstArgMax S V hV hnan
    have hik : i = k := by
      by_contra hne
      have hlt := hstrict i hi hne
      have hge := h2 k hk
      have hi_nan := hnan _ (List.getElem_mem hi)
      have hk_nan := hnan _ (List.getElem_mem hk)
      rw [Machine.float.lt_iff_key _ _ hi_nan hk_nan] at hlt
      rw [Machine.float.ge_iff_key _ _ hi_nan hk_nan] at hge
      exact absurd hge (not_le.mpr hlt)
    rw [h1, hik]

/-- Witness for C3: the array `[1, 3, 3, 2]`, whose maximum first occurs at index 1. -/
theorem float_getMaxValue_first_seen_argmax_witness :
    (∃ i : Nat, Machine.FDiscreteSpace.GetMaxValue ⟨[4]⟩
        [.Finite 1, .Finite 3, .Finite 3, .Finite 2] = some (i : Int) ∧
      Machine.IsFirstArgMax [.Finite 1, .Finite 3, .Finite 3, .Finite 2] i) ∧
    Machine.FDiscreteSpace.GetMaxValue ⟨[4]⟩ [.Finite 0.5, .Finite 0.5] = some 0 ∧
    (∀ (k : Nat) (hk : k < ([.Finite 1, .Finite 3, .Finite 3, .Finite 2] :
        List Machine.float).length),
      (∀ (j : Nat) (hj : j < ([.Finite 1, .Finite 3, .Finite 3, .Finite 2] :
          List Machine.float).length), j ≠ k →
        (([.Finite 1, .Finite 3, .Finite 3, .Finite 2] : List Machine.float)[j]).lt
          ([.Finite 1, .Finite 3, .Finite 3, .Finite 2] : List Machine.float)[k] = true) →
      Machine.FDiscreteSpace.GetMaxValue ⟨[4]⟩ [.Finite 1, .Finite 3, .Finite 3, .Finite 2] =
        some (k : Int)) :=
  float_getMaxValue_first_seen_argmax ⟨[4]⟩ [.Finite 1, .Finite 3, .Finite 3, .Finite 2]
    (by decide) (by decide)

/-- Counterexample to C3 as stated: a comparison with NaN is false, so a NaN in first place is
never replaced and a NaN further on is skipped. On `[NaN, 1, 2]` the code returns 0 and on
`[1, NaN, 2]` it returns 2; neither index holds a value that is `>=` every value of its array
(no index does), and on `[NaN, 1, 2]` the index returned is not the one of the largest number. -/
theorem getMaxValue_nan_not_argmax :
    Machine.FDiscreteSpace.GetMaxValue ⟨[3]⟩ [.NaN, .Finite 1, .Finite 2] = some 0 ∧
    (∀ i : Nat, ¬ Machine.IsFirstArgMax [.NaN, .Finite 1, .Finite 2] i) ∧
    Machine.FDiscreteSpace.GetMaxValue ⟨[3]⟩ [.Finite 1, .NaN, .Finite 2] = some 2 ∧
    (∀ i : Nat, ¬ Machine.IsFirstArgMax [.Finite 1, .NaN, .Finite 2] i) := by
  refine ⟨by decide, ?_, by decide, ?_⟩
  · rintro i ⟨hi, h, _⟩
    have := h 0 (by decide)
    simp only [List.length_cons, List.length_nil] at hi
    interval_cases i <;> simp [Machine.float.ge, Machine.float.le] at this
  · rintro i ⟨hi, h, _⟩
    have := h 1 (by decide)
    simp only [List.length_cons, List.length_nil] at hi
    interval_cases i <;> simp [Machine.float.ge, Machine.float.le] at this

/-! ## Box validation over `float`s -/

/-- The bounds test of `FBoxSpace::Validate` on numbers: a value is rejected exactly when it lies
outside the closed interval. -/
theorem Machine.float.bounds_test (v lo hi : Machine.float) (hv : v ≠ .NaN) (hlo : lo ≠ .NaN)
    (hhi : hi ≠ .NaN) :
    (v.gt hi || v.lt lo) = true ↔ ¬ (lo.le v = true ∧ v.le hi = true) := by
  rw [Bool.or_eq_true, Machine.float.gt_iff_key v hi hv hhi, Machine.float.lt_iff_key v lo hv hlo,
    Machine.float.le_iff_key lo v hlo hv, Machine.float.le_iff_key v hi hv hhi]
  constructor
  · rintro (h | h) ⟨h1, h2⟩
    · exact absurd h2 (not_le.mpr h)
    · exact absurd h1 (not_le.mpr h)
  · intro h
    by_contra hcon
    push_neg at hcon
    exact h ⟨hcon.2, hcon.1⟩

/-- The bounds loop of `FBoxSpace::Validate` from dimension `i` on, when neither a value nor a
bound is NaN: `Success` when every remaining value lies in its closed interval, `OutOfBounds`
otherwise. -/
theorem Machine.FBoxSpace.ValidateLoop_float_spec (D : List Machine.FBoxSpaceDimension)
    (V : List Machine.float) (hlen : V.length = D.length) (hval : ∀ v ∈ V, v ≠ .NaN)
    (hdim : ∀ d ∈ D, d.Low ≠ .NaN ∧ d.High ≠ .NaN) :
    ∀ (n i : Nat), i + n = D.length →
      ((∀ (j : Nat) (h1 : j < V.length) (h2 : j < D.length), i ≤ j →
          (D[j].Low).le V[j] = true ∧ (V[j]).le D[j].High = true) ∧
        Machine.FBoxSpace.ValidateLoop D V n i = some .Success) ∨
      ((¬ ∀ (j : Nat) (h1 : j < V.length) (h2 : j < D.length), i ≤ j →
          (D[j].Low).le V[j] = true ∧ (V[j]).le D[j].High = true) ∧
        Machine.FBoxSpace.ValidateLoop D V n i = some .OutOfBounds) := by
  intro n
  induction n with
  | zero =>
    intro i hin
    left
    exact ⟨fun j h1 h2 hij => by omega, rfl⟩
  | succ n ih =>
    intro i hin
    have hiD : i < D.length := by omega
    have hiV : i < V.length := by omega
    have hstep : Machine.FBoxSpace.ValidateLoop D V (n + 1) i =
        if ((V[i]).gt D[i].High || (V[i]).lt D[i].Low) = true then some .OutOfBounds
        else Machine.FBoxSpace.ValidateLoop D V n (i + 1) := by
      rw [Machine.FBoxSpace.ValidateLoop, TArray.get_of_lt V i hiV, TArray.get_of_lt D i hiD]
      rfl
    have htest := Machine.float.bounds_test V[i] D[i].Low D[i].High
      (hval _ (List.getElem_mem hiV)) (hdim _ (List.getElem_mem hiD)).1
      (hdim _ (List.getElem_mem hiD)).2
    by_cases hout : ((V[i]).gt D[i].High || (V[i]).lt D[i].Low) = true
    · right
      refine ⟨fun hall => ?_, by rw [hstep, if_pos hout]⟩
      exact (htest.mp hout) (hall i hiV hiD (le_refl i))
    · rw [hstep, if_neg hout]
      have hin_i : (D[i].Low).le V[i] = true ∧ (V[i]).le D[i].High = true := by
        by_contra hcon
        exact hout (htest.mpr hcon)
      rcases ih (i + 1) (by omega) with ⟨hall, hres⟩ | ⟨hnall, hres⟩
      · left
        refine ⟨fun j h1 h2 hij => ?_, hres⟩
        rcases Nat.eq_or_lt_of_le hij with heq | hlt
        · subst heq; exact hin_i
        · exact hall j h1 h2 hlt
      · right
        exact ⟨fun hall => hnall fun j h1 h2 hij => hall j h1 h2 (by omega), hres⟩

/-- C5 (amended). Box validation bounds are inclusive: for a box point with one value per
dimension, when no value and no bound is NaN, `Validate` returns `Success` exactly when every value
lies in its closed interval `[Low, High]`, and `OutOfBounds` otherwise; for the dimension
`(-1, 1)` the values -1 and 1 are accepted, 1.0001 and -1.0001 are out of bounds (also as the
nearest 32-bit values, `8389447 / 2^23` and its opposite). -/
theorem float_box_validate_inclusive_bounds (S : Machine.FBoxSpace) (p : Machine.FBoxPoint)
    (hlen : (p.Values.length : Int) = S.GetNumDimensions)
    (hval : ∀ v ∈ p.Values, v ≠ .NaN)
    (hdim : ∀ d ∈ S.Dimensions, d.Low ≠ .NaN ∧ d.High ≠ .NaN) :
    (S.Validate (.Box p) = some .Success ↔
      ∀ (i : Nat) (h1 : i < p.Values.length) (h2 : i < S.Dimensions.length),
        (S.Dimensions[i].Low).le p.Values[i] = true ∧
        (p.Values[i]).le S.Dimensions[i].High = true) ∧
    (S.Validate (.Box p) ≠ some .Success → S.Validate (.Box p) = some .OutOfBounds) ∧
    Machine.FBoxSpace.Validate ⟨[⟨.Finite 1, .Finite (-1)⟩]⟩ (.Box ⟨[.Finite (-1)]⟩) =
      some .Success ∧
    Machine.FBoxSpace.Validate ⟨[⟨.Finite 1, .Finite (-1)⟩]⟩ (.Box ⟨[.Finite 1]⟩) =
      some .Success ∧
    Machine.FBoxSpace.Validate ⟨[⟨.Finite 1, .Finite (-1)⟩]⟩ (.Box ⟨[.Finite 1.0001]⟩) =
      some .OutOfBounds ∧
    Machine.FBoxSpace.Validate ⟨[⟨.Finite 1, .Finite (-1)⟩]⟩ (.Box ⟨[.Finite (-1.0001)]⟩) =
      some .OutOfBounds ∧
    Machine.FBoxSpace.Validate ⟨[⟨.Finite 1, .Finite (-1)⟩]⟩
      (.Box ⟨[.Finite (8389447 / 2 ^ 23)]⟩) = some .OutOfBounds ∧
    Machine.FBoxSpace.Validate ⟨[⟨.Finite 1, .Finite (-1)⟩]⟩
      (.Box ⟨[.Finite (-(8389447 / 2 ^ 23))]⟩) = some .OutOfBounds := by
  have hlen2 : p.Values.length = S.Dimensions.length := by
    simpa [Machine.FBoxSpace.GetNumDimensions] using hlen
  have hvalid : S.Validate (.Box p) =
      Machine.FBoxSpace.ValidateLoop S.Dimensions p.Values S.Dimensions.length 0 := by
    simp [Machine.FBoxSpace.Validate, hlen2]
  have hspec := Machine.FBoxSpace.ValidateLoop_float_spec S.Dimensions p.Values hlen2 hval hdim
    S.Dimensions.length 0 (by simp)
  rw [hvalid]
  refine ⟨?_, ?_, ?_, ?_, ?_, ?_, ?_, ?_⟩
  · rcases hspec with ⟨hall, hres⟩ | ⟨hnall, hres⟩
    · exact ⟨fun _ i h1 h2 => hall i h1 h2 (Nat.zero_le i), fun _ => hres⟩
    · rw [hres]
      exact ⟨fun h => by simp at h, fun h => absurd (fun j h1 h2 _ => h j h1 h2) hnall⟩
  · rcases hspec with ⟨_, hres⟩ | ⟨_, hres⟩
    · intro h; exact absurd hres h
    · intro _; exact hres
  · decide
  · decide
  · simp [Machine.FBoxSpace.Validate, Machine.FBoxSpace.ValidateLoop, TArray.get,
      Machine.float.gt, Machine.float.lt]; norm_num
  · simp [Machine.FBoxSpace.Validate, Machine.FBoxSpace.ValidateLoop, TArray.get,
      Machine.float.gt, Machine.float.lt]; norm_num
  · simp [Machine.FBoxSpace.Validate, Machine.FBoxSpace.ValidateLoop, TArray.get,
      Machine.float.gt, Machine.float.lt]; norm_num
  · simp [Machine.FBoxSpace.Validate, Machine.FBoxSpace.ValidateLoop, TArray.get,
      Machine.float.gt, Machine.float.lt]; norm_num

/-- Witness for C5: the space `[(-1, 1), (0, 10)]` and the point `(1, 0)` on its boundary. -/
theorem float_box_validate_inclusive_bounds_witness :
    (Machine.FBoxSpace.Validate ⟨[⟨.Finite 1, .Finite (-1)⟩, ⟨.Finite 10, .Finite 0⟩]⟩
        (.Box ⟨[.Finite 1, .Finite 0]⟩) = some .Success ↔
      ∀ (i : Nat) (_ : i < ([.Finite 1, .Finite 0] : List Machine.float).length)
        (_ : i < ([⟨.Finite 1, .Finite (-1)⟩, ⟨.Finite 10, .Finite 0⟩] :
          List Machine.FBoxSpaceDimension).length),
        (([⟨.Finite 1, .Finite (-1)⟩, ⟨.Finite 10, .Finite 0⟩] :
          List Machine.FBoxSpaceDimension)[i].Low).le
            ([.Finite 1, .Finite 0] : List Machine.float)[i] = true ∧
        (([.Finite 1, .Finite 0] : List Machine.float)[i]).le
          ([⟨.Finite 1, .Finite (-1)⟩, ⟨.Finite 10, .Finite 0⟩] :
            List Machine.FBoxSpaceDimension)[i].High = true) ∧
    (Machine.FBoxSpace.Validate ⟨[⟨.Finite 1, .Finite (-1)⟩, ⟨.Finite 10, .Finite 0⟩]⟩
        (.Box ⟨[.Finite 1, .Finite 0]⟩) ≠ some .Success →
      Machine.FBoxSpace.Validate ⟨[⟨.Finite 1, .Finite (-1)⟩, ⟨.Finite 10, .Finite 0⟩]⟩
        (.Box ⟨[.Finite 1, .Finite 0]⟩) = some .OutOfBounds) :=
  have h := float_box_validate_inclusive_bounds
    ⟨[⟨.Finite 1, .Finite (-1)⟩, ⟨.Finite 10, .Finite 0⟩]⟩ ⟨[.Finite 1, .Finite 0]⟩
    (by decide) (by decide) (by decide)
  ⟨h.1, h.2.1⟩

/-- Counterexample to C5 as stated: the bounds test `Values[i] > High || Values[i] < Low` is false
when an operand is NaN. In the dimension `(-1, 1)` the value NaN validates as `Success` although
it is not in the interval, and with the upper bound NaN the value 0 validates as `Success`
although `0 <= High` is false. -/
theorem box_validate_accepts_nan :
    Machine.FBoxSpace.Validate ⟨[⟨.Finite 1, .Finite (-1)⟩]⟩ (.Box ⟨[.NaN]⟩) = some .Success ∧
    ¬ ((Machine.float.Finite (-1)).le .NaN = true ∧ Machine.float.NaN.le (.Finite 1) = true) ∧
    Machine.FBoxSpace.Validate ⟨[⟨.NaN, .Finite (-1)⟩]⟩ (.Box ⟨[.Finite 0]⟩) = some .Success ∧
    ¬ ((Machine.float.Finite (-1)).le (.Finite 0) = true ∧
      (Machine.float.Finite 0).le .NaN = true) := by
  decide

/-! ## The exact embedding is the machine one on numbers -/

/-- On numbers the loop of `GetMaxValue` over `float`s runs as the loop over rationals. -/
theorem Machine.FDiscreteSpace.GetMaxValue_foldl_finite : ∀ (suf : List ℚ) (st : ℚ × Int × Int),
    (suf.map Machine.float.Finite).foldl Machine.FDiscreteSpace.GetMaxValueStep
        (.Finite st.1, st.2) =
      (.Finite (suf.foldl Schola.FDiscreteSpace.GetMaxValueStep st).1,
        (suf.foldl Schola.FDiscreteSpace.GetMaxValueStep st).2) := by
  intro suf
  induction suf with
  | nil => intro st; rfl
  | cons x suf ih =>
    intro st
    rw [List.map_cons, List.foldl_cons, List.foldl_cons]
    by_cases hgt : x > st.1
    · have h1 : Schola.FDiscreteSpace.GetMaxValueStep st x = (x, st.2.2, st.2.2 + 1) := by
        simp only [Schola.FDiscreteSpace.GetMaxValueStep]
        rw [if_pos hgt]
      have h2 : Machine.FDiscreteSpace.GetMaxValueStep (.Finite st.1, st.2) (.Finite x) =
          (.Finite x, st.2.2, st.2.2 + 1) := by
        simp only [Machine.FDiscreteSpace.GetMaxValueStep, Machine.float.gt, Machine.float.lt]
        rw [if_pos (by simpa using hgt)]
      rw [h1, h2]
      exact ih (x, st.2.2, st.2.2 + 1)
    · have h1 : Schola.FDiscreteSpace.GetMaxValueStep st x = (st.1, st.2.1, st.2.2 + 1) := by
        simp only [Schola.FDiscreteSpace.GetMaxValueStep]
        rw [if_neg hgt]
      have h2 : Machine.FDiscreteSpace.GetMaxValueStep (.Finite st.1, st.2) (.Finite x) =
          (.Finite st.1, st.2.1, st.2.2 + 1) := by
        simp only [Machine.FDiscreteSpace.GetMaxValueStep, Machine.float.gt, Machine.float.lt]
        rw [if_neg (by simpa using hgt)]
      rw [h1, h2]
      exact ih (st.1, st.2.1, st.2.2 + 1)

/-- On an array of numbers `GetMaxValue` over `float`s returns what the exact embedding
returns. -/
theorem Machine.FDiscreteSpace.GetMaxValue_finite (S : FDiscreteSpace) (V : List ℚ) :
    Machine.FDiscreteSpace.GetMaxValue S (V.map Machine.float.Finite) = S.GetMaxValue V := by
  cases V with
  | nil => rfl
  | cons x rest =>
    have h := Machine.FDiscreteSpace.GetMaxValue_foldl_finite (x :: rest) (x, 0, 0)
    have hget : TArray.get (x :: rest) 0 = some x := by
      simpa using TArray.get_of_lt (x :: rest) 0 (by simp)
    have hgetf : TArray.get ((x :: rest).map Machine.float.Finite) 0 =
        some (Machine.float.Finite x) := by
      simpa using TArray.get_of_lt ((x :: rest).map Machine.float.Finite) 0 (by simp)
    have h1 : Machine.FDiscreteSpace.GetMaxValue S ((x :: rest).map Machine.float.Finite) =
        (TArray.get ((x :: rest).map Machine.float.Finite) 0).bind fun CurrMax =>
          some (((x :: rest).map Machine.float.Finite).foldl
            Machine.FDiscreteSpace.GetMaxValueStep (CurrMax, 0, 0)).2.1 := rfl
    have h2 : S.GetMaxValue (x :: rest) =
        (TArray.get (x :: rest) 0).bind fun CurrMax =>
          some ((x :: rest).foldl Schola.FDiscreteSpace.GetMaxValueStep (CurrMax, 0, 0)).2.1 := rfl
    rw [h1, h2, hget, hgetf, Option.some_bind, Option.some_bind, h]

/-- On numbers the bounds loop of `FBoxSpace::Validate` over `float`s returns what the exact
embedding returns. -/
theorem Machine.FBoxSpace.ValidateLoop_finite (D : List Schola.FBoxSpaceDimension)
    (V : List ℚ) :
    ∀ (n i : Nat),
      Machine.FBoxSpace.ValidateLoop (D.map fun d => ⟨.Finite d.High, .Finite d.Low⟩)
        (V.map Machine.float.Finite) n i = Schola.FBoxSpace.ValidateLoop D V n i := by
  intro n
  induction n with
  | zero => intro i; rfl
  | succ n ih =>
    intro i
    have hV : TArray.get (V.map Machine.float.Finite) (i : Int) =
        (TArray.get V (i : Int)).map Machine.float.Finite := by
      simp [TArray.get]
    have hD : TArray.get (D.map fun d => (⟨.Finite d.High, .Finite d.Low⟩ :
        Machine.FBoxSpaceDimension)) (i : Int) =
        (TArray.get D (i : Int)).map fun d => ⟨.Finite d.High, .Finite d.Low⟩ := by
      simp [TArray.get]
    rw [Machine.FBoxSpace.ValidateLoop, Schola.FBoxSpace.ValidateLoop, hV, hD]
    cases hv : TArray.get V (i : Int) with
    | none => rfl
    | some v =>
      cases hd : TArray.get D (i : Int) with
      | none => rfl
      | some d =>
        simp only [Option.map_some', Option.bind_eq_bind, Option.some_bind]
        by_cases hout : v > d.High ∨ v < d.Low
        · rw [if_pos hout, if_pos (by simpa [Machine.float.gt, Machine.float.lt] using hout)]
        · rw [if_neg hout, if_neg (by simpa [Machine.float.gt, Machine.float.lt] using hout)]
          exact ih (i + 1)

/-! ## Flattened sizes in 32-bit arithmetic -/

/-- A value in the range of `int` is what an `int` holds after computing it. -/
theorem Machine.wrapInt32_of_isInt32 (x : Int) (h : Machine.IsInt32 x) :
    Machine.wrapInt32 x = x := by
  unfold Machine.IsInt32 at h
  unfold Machine.wrapInt32
  norm_num at h ⊢
  omega

/-- A running sum in 32-bit arithmetic is the exact sum as long as no partial sum leaves the
range of `int`. -/
theorem Machine.foldl_wrap_eq_sum {α : Type} (f : α → Int) : ∀ (L : List α) (c : Int),
    (∀ k : Nat, 1 ≤ k → k ≤ L.length → Machine.IsInt32 (c + ((L.take k).map f).sum)) →
    L.foldl (fun Size x => Machine.wrapInt32 (Size + f x)) c = c + (L.map f).sum := by
  intro L
  induction L with
  | nil => intro c _; simp
  | cons x L ih =>
    intro c h
    have h1 : Machine.IsInt32 (c + f x) := by simpa using h 1 (le_refl 1) (by simp)
    rw [List.foldl_cons, Machine.wrapInt32_of_isInt32 _ h1, ih (c + f x), List.map_cons,
      List.sum_cons]
    · ring
    · intro k hk1 hk
      have := h (k + 1) (by omega) (by simpa using hk)
      simpa [Int.add_assoc] using this

/-- The flattened size of a discrete space is the sum of `High` as long as no partial sum leaves
the range of `int`. -/
theorem Machine.FDiscreteSpace.GetFlattenedSize_int32_sum (S : FDiscreteSpace)
    (h : ∀ k : Nat, 1 ≤ k → k ≤ S.High.length → Machine.IsInt32 (S.High.take k).sum) :
    Machine.FDiscreteSpace.GetFlattenedSize S = S.High.sum := by
  have := Machine.foldl_wrap_eq_sum (fun x : Int => x) S.High 0
    (fun k hk1 hk => by simpa using h k hk1 hk)
  simpa [Machine.FDiscreteSpace.GetFlattenedSize] using this

/-- C9 (amended). Flattened sizes: the dimension count for a box space, `Shape` for a binary
space, the sum of all `High[i]` for a discrete space as long as no partial sum
`High[0] + ... + High[k-1]` leaves the range of `int` (9 for `High = [2, 3, 4]`), and the sum of
the children's flattened sizes for a dictionary, again as long as no partial sum leaves the range
of `int`. -/
theorem int32_flattened_sizes :
    (∀ S : FBoxSpace, S.GetFlattenedSize = S.GetNumDimensions ∧
      S.GetFlattenedSize = (S.Dimensions.length : Int)) ∧
    (∀ S : FBinarySpace, S.GetFlattenedSize = S.Shape) ∧
    (∀ S : FDiscreteSpace,
      (∀ k : Nat, 1 ≤ k → k ≤ S.High.length → Machine.IsInt32 (S.High.take k).sum) →
      Machine.FDiscreteSpace.GetFlattenedSize S = S.High.sum) ∧
    Machine.FDiscreteSpace.GetFlattenedSize ⟨[2, 3, 4]⟩ = 9 ∧
    (∀ D : FDictSpace,
      (∀ k : Nat, 1 ≤ k → k ≤ D.Spaces.length →
        Machine.IsInt32 ((D.Spaces.take k).map Machine.TSpace.GetFlattenedSize).sum) →
      Machine.FDictSpace.GetFlattenedSize D =
        (D.Spaces.map Machine.TSpace.GetFlattenedSize).sum) := by
  refine ⟨fun _ => ⟨rfl, rfl⟩, fun _ => rfl, Machine.FDiscreteSpace.GetFlattenedSize_int32_sum,
    by decide, ?_⟩
  intro D h
  have := Machine.foldl_wrap_eq_sum Machine.TSpace.GetFlattenedSize D.Spaces 0
    (fun k hk1 hk => by simpa using h k hk1 hk)
  simpa [Machine.FDictSpace.GetFlattenedSize] using this

/-- Witness for C9: the discrete space `High = [2, 3, 4]` and the dictionary of a two-dimensional
box space, that discrete space and a binary space of shape 5; no partial sum leaves the range of
`int`, the sizes are 9 and 16. -/
theorem int32_flattened_sizes_witness :
    Machine.FDiscreteSpace.GetFlattenedSize ⟨[2, 3, 4]⟩ = ([2, 3, 4] : List Int).sum ∧
    Machine.FDictSpace.GetFlattenedSize
        ⟨["a", "b", "c"], [.Box ⟨[⟨1, -1⟩, ⟨10, 0⟩]⟩, .Discrete ⟨[2, 3, 4]⟩, .Binary ⟨5⟩]⟩ =
      (([.Box ⟨[⟨1, -1⟩, ⟨10, 0⟩]⟩, .Discrete ⟨[2, 3, 4]⟩, .Binary ⟨5⟩] : List TSpace).map
        Machine.TSpace.GetFlattenedSize).sum :=
  ⟨int32_flattened_sizes.2.2.1 ⟨[2, 3, 4]⟩ (by
      intro k hk1 hk
      have hk3 : k ≤ 3 := hk
      interval_cases k <;> (unfold Machine.IsInt32; decide)),
    int32_flattened_sizes.2.2.2.2
      ⟨["a", "b", "c"], [.Box ⟨[⟨1, -1⟩, ⟨10, 0⟩]⟩, .Discrete ⟨[2, 3, 4]⟩, .Binary ⟨5⟩]⟩ (by
      intro k hk1 hk
      have hk3 : k ≤ 3 := hk
      interval_cases k <;> (unfold Machine.IsInt32; decide))⟩

/-- Counterexample to C9 as stated: the sizes are accumulated in an `int`. For
`High = [2147483647, 1]` the sum of all `High[i]` is 2147483648 but `GetFlattenedSize` gives
-2147483648, and the dictionary of two binary spaces of shapes 2147483647 and 1 gives
-2147483648 where its children's sizes add up to 2147483648. -/
theorem flattened_size_wraps :
    Machine.FDiscreteSpace.GetFlattenedSize ⟨[2147483647, 1]⟩ = -2147483648 ∧
    ([2147483647, 1] : List Int).sum = 2147483648 ∧
    Machine.FDictSpace.GetFlattenedSize ⟨["a", "b"], [.Binary ⟨2147483647⟩, .Binary ⟨1⟩]⟩ =
      -2147483648 ∧
    (([.Binary ⟨2147483647⟩, .Binary ⟨1⟩] : List TSpace).map
      Machine.TSpace.GetFlattenedSize).sum = 2147483648 := by
  decide

/-! ## Discrete unflatten over `float`s -/

/-- The inner loop of `UnflattenAction` collects the `n` values found from position
`CurrIndex + Offset + k0` on, whatever the type of the values. -/
theorem forLoop_read_any {α : Type} (Data : List α) (c Off : Int) (base : Nat)
    (hbase : c + Off = (base : Int)) :
    ∀ (n k0 : Nat) (acc : List α), base + k0 + n ≤ Data.length →
      forLoop (fun k (BranchArray : List α) =>
          (TArray.get Data (((k : Int) + c) + Off)).bind fun x => some (BranchArray ++ [x])) n k0 acc
        = some (acc ++ (Data.drop (base + k0)).take n) := by
  intro n
  induction n with
  | zero => intro k0 acc _; simp [forLoop]
  | succ n ih =>
    intro k0 acc hlen
    have hlt : base + k0 < Data.length := by omega
    have hidx : ((k0 : Int) + c) + Off = ((base + k0 : Nat) : Int) := by
      push_cast; omega
    rw [forLoop, hidx, TArray.get_of_lt Data _ hlt, Option.some_bind, Option.some_bind,
      ih (k0 + 1) _ (by omega)]
    congr 1
    rw [List.drop_eq_getElem_cons hlt, List.take_succ_cons]
    simp [Nat.add_assoc]

/-- One iteration of the outer loop of `UnflattenAction` over `float`s, when the segment is not
empty, lies inside the buffer and holds no NaN. -/
theorem Machine.FDiscreteSpace.UnflattenStep_float_eq (S : FDiscreteSpace)
    (Data : List Machine.float) (Off : Int) (i : Nat) (vals : List Int) (c : Int)
    (hi : i < S.High.length) (base : Nat) (hbase : c + Off = (base : Int))
    (hpos : 1 ≤ S.High[i]) (hlen : base + (S.High[i]).toNat ≤ Data.length)
    (hnan : ∀ x ∈ (Data.drop base).take (S.High[i]).toNat, x ≠ .NaN) :
    ∃ k : Nat, Machine.FDiscreteSpace.UnflattenStep S Data Off i (vals, c) =
        some (vals ++ [(k : Int)], c + S.High[i]) ∧
      Machine.IsFirstArgMax ((Data.drop base).take (S.High[i]).toNat) k := by
  have hne : (Data.drop base).take (S.High[i]).toNat ≠ [] := by
    intro h
    have := congrArg List.length h
    simp at this
    omega
  obtain ⟨k, hk, hmax⟩ := Machine.FDiscreteSpace.GetMaxValue_float_isFirstArgMax S _ hne hnan
  refine ⟨k, ?_, hmax⟩
  have hread := forLoop_read_any Data c Off base hbase (S.High[i]).toNat 0 [] (by omega)
  simp only [Nat.add_zero, List.nil_append] at hread
  have hstep : Machine.FDiscreteSpace.UnflattenStep S Data Off i (vals, c) =
      (TArray.get S.High (i : Int)).bind fun BranchHigh =>
        (forLoop (fun k (BranchArray : List Machine.float) =>
          (TArray.get Data (((k : Int) + c) + Off)).bind fun x => some (BranchArray ++ [x]))
          BranchHigh.toNat 0 []).bind fun BranchArray =>
        (Machine.FDiscreteSpace.GetMaxValue S BranchArray).bind fun OutputValue =>
        (TArray.get S.High (i : Int)).bind fun High_i =>
          some (vals ++ [OutputValue], c + High_i) := rfl
  rw [hstep, TArray.get_of_lt S.High i hi, Option.some_bind, hread, Option.some_bind, hk,
    Option.some_bind, Option.some_bind]

theorem mem_take_of_mem_take_le {α : Type} (L : List α) (a b : Nat) (hab : a ≤ b) (x : α)
    (hx : x ∈ L.take a) : x ∈ L.take b := by
  have h : L.take a = (L.take b).take a := by
    rw [List.take_take, Nat.min_eq_left hab]
  rw [h] at hx
  exact List.mem_of_mem_take hx

theorem mem_take_of_mem_drop_take {α : Type} (L : List α) (h r : Nat) (x : α)
    (hx : x ∈ (L.drop h).take r) : x ∈ L.take (h + r) := by
  have heq : (L.drop h).take r = (L.take (h + r)).drop h := by
    rw [List.drop_take]
    simp
  rw [heq] at hx
  exact List.mem_of_mem_drop hx

/-- The outer loop of `UnflattenAction` over `float`s decodes the remaining segments one after the
other, when the part of the buffer it reads holds no NaN; the decoding is stated on the keys of
the values. -/
theorem Machine.FDiscreteSpace.UnflattenLoop_float_decodes (S : FDiscreteSpace)
    (Data : List Machine.float) (Off : Int) (hpos : ∀ h ∈ S.High, 1 ≤ h) :
    ∀ (n i : Nat) (vals : List Int) (c : Int) (base : Nat), i + n = S.High.length →
      c + Off = (base : Int) → (base : Int) + (S.High.drop i).sum ≤ Data.length →
      (∀ x ∈ (Data.drop base).take ((S.High.drop i).sum).toNat, x ≠ .NaN) →
      ∃ out : List Int,
        forLoop (Machine.FDiscreteSpace.UnflattenStep S Data Off) n i (vals, c)
          = some (vals ++ out, c + (S.High.drop i).sum) ∧
        DecodesTo (S.High.drop i) ((Data.drop base).map Machine.float.key) out := by
  intro n
  induction n with
  | zero =>
    intro i vals c base hin _ _ _
    have hdrop : S.High.drop i = [] := by
      apply List.drop_eq_nil_of_le; omega
    exact ⟨[], by simp [forLoop, hdrop], by simp [hdrop, DecodesTo]⟩
  | succ n ih =>
    intro i vals c base hin hbase hlen hnan
    have hi : i < S.High.length := by omega
    have hdrop : S.High.drop i = S.High[i] :: S.High.drop (i + 1) := List.drop_eq_getElem_cons hi
    have hpos_i : 1 ≤ S.High[i] := hpos _ (List.getElem_mem hi)
    have hrest : 0 ≤ (S.High.drop (i + 1)).sum := by
      apply List.sum_nonneg
      intro h hh
      have := hpos h (List.mem_of_mem_drop hh)
      omega
    rw [hdrop, List.sum_cons] at hlen hnan
    have hsplit : (S.High[i] + (S.High.drop (i + 1)).sum).toNat =
        (S.High[i]).toNat + ((S.High.drop (i + 1)).sum).toNat := by omega
    rw [hsplit] at hnan
    have hnan_seg : ∀ x ∈ (Data.drop base).take (S.High[i]).toNat, x ≠ .NaN := fun x hx =>
      hnan x (mem_take_of_mem_take_le _ _ _ (Nat.le_add_right _ _) x hx)
    have hnan_rest : ∀ x ∈ (Data.drop (base + (S.High[i]).toNat)).take
        ((S.High.drop (i + 1)).sum).toNat, x ≠ .NaN := fun x hx =>
      hnan x (mem_take_of_mem_drop_take _ _ _ x (by rwa [List.drop_drop]))
    obtain ⟨k, hstep, hmax⟩ := Machine.FDiscreteSpace.UnflattenStep_float_eq S Data Off i vals c hi
      base hbase hpos_i (by omega) hnan_seg
    obtain ⟨out, hloop, hdec⟩ := ih (i + 1) (vals ++ [(k : Int)]) (c + S.High[i])
      (base + (S.High[i]).toNat) (by omega) (by push_cast; omega) (by push_cast; omega) hnan_rest
    refine ⟨(k : Int) :: out, ?_, ?_⟩
    · rw [forLoop, hstep, Option.some_bind, hloop, hdrop, List.sum_cons]
      simp [Int.add_assoc]
    · rw [hdrop]
      refine ⟨k, out, rfl, ?_, ?_⟩
      · rw [← List.map_take]
        exact (Machine.IsFirstArgMax.iff_key _ hnan_seg k).mp hmax
      · rw [← List.map_drop, List.drop_drop]
        exact hdec

/-- C4 (amended). Discrete decode consumes consecutive segments: when every `High[i]` is at
least 1, no partial sum of `High` leaves the range of `int`, the offset is not negative, the
buffer holds at least `Off + GetFlattenedSize()` elements and none of the
`GetFlattenedSize()` elements from position `Off` on is NaN, `UnflattenAction(Data, Off)`
returns a point with exactly one value per dimension, and value `i` is the first argmax, counted
from the segment start, of the `High[i]` elements found from position
`Off + High[0] + ... + High[i-1]` on. -/
theorem float_discrete_unflatten_consecutive_segments (S : FDiscreteSpace)
    (Data : List Machine.float) (Off : Int)
    (hpos : ∀ h ∈ S.High, 1 ≤ h)
    (hfit : ∀ k : Nat, 1 ≤ k → k ≤ S.High.length → Machine.IsInt32 (S.High.take k).sum)
    (hOff : 0 ≤ Off)
    (hlen : Off + Machine.FDiscreteSpace.GetFlattenedSize S ≤ (Data.length : Int))
    (hnan : ∀ x ∈ (Data.drop Off.toNat).take (Machine.FDiscreteSpace.GetFlattenedSize S).toNat,
      x ≠ .NaN) :
    ∃ vals : List Int,
      Machine.FDiscreteSpace.UnflattenAction S Data Off = some (.Discrete ⟨vals⟩) ∧
      (vals.length : Int) = S.GetNumDimensions ∧
      ∀ (i : Nat) (hi : i < S.High.length), ∃ k : Nat, vals[i]? = some (k : Int) ∧
        Machine.IsFirstArgMax
          ((Data.drop (Off + (S.High.take i).sum).toNat).take (S.High[i]).toNat) k := by
  rw [Machine.FDiscreteSpace.GetFlattenedSize_int32_sum S hfit] at hlen hnan
  obtain ⟨out, hloop, hdec⟩ := Machine.FDiscreteSpace.UnflattenLoop_float_decodes S Data Off hpos
    S.High.length 0 [] 0 Off.toNat (by simp) (by omega) (by simp; omega) (by simpa using hnan)
  simp only [List.drop_zero, List.nil_append, Int.zero_add] at hloop hdec
  obtain ⟨hl, hp⟩ := DecodesTo.segment_argmax S.High _ out
    (fun h hh => by have := hpos h hh; omega) hdec
  refine ⟨out, ?_, by simp [FDiscreteSpace.GetNumDimensions, hl], ?_⟩
  · simp only [Machine.FDiscreteSpace.UnflattenAction, Machine.FDiscreteSpace.MakeTPoint,
      FDiscreteSpace.GetNumDimensions, Int.toNat_ofNat, hloop]
    simp
  · intro i hi
    obtain ⟨k, hk, hmax⟩ := hp i hi
    refine ⟨k, hk, ?_⟩
    have hsum : 0 ≤ (S.High.take i).sum := by
      apply List.sum_nonneg
      intro x hx
      have := hpos x (List.mem_of_mem_take hx)
      omega
    have hnat : (Off + (S.High.take i).sum).toNat = Off.toNat + (S.High.take i).sum.toNat := by
      omega
    have hle : (S.High.take i).sum + S.High[i] ≤ S.High.sum := by
      have h1 : (S.High.take (i + 1)).sum = (S.High.take i).sum + S.High[i] := by
        rw [List.sum_take_succ _ _ hi]
      have h2 : S.High.sum = (S.High.take (i + 1)).sum + (S.High.drop (i + 1)).sum := by
        rw [← List.sum_append, List.take_append_drop]
      have h3 : 0 ≤ (S.High.drop (i + 1)).sum := by
        apply List.sum_nonneg
        intro x hx
        have := hpos x (List.mem_of_mem_drop hx)
        omega
      omega
    have hpos_i : 1 ≤ S.High[i] := hpos _ (List.getElem_mem hi)
    have hseg : ∀ x ∈ ((Data.drop Off.toNat).drop (S.High.take i).sum.toNat).take
        (S.High[i]).toNat, x ≠ .NaN := fun x hx =>
      hnan x (mem_take_of_mem_take_le _ _ _ (by omega) x
        (mem_take_of_mem_drop_take _ _ _ x hx))
    rw [← List.map_drop, ← List.map_take] at hmax
    rw [hnat, ← List.drop_drop]
    exact (Machine.IsFirstArgMax.iff_key _ hseg k).mpr hmax

/-- Witness for C4: widths `[2, 3]` decoded from offset 1 of a seven-element buffer whose first
element, outside the part that is read, is NaN. -/
theorem float_discrete_unflatten_consecutive_segments_witness :
    ∃ vals : List Int,
      Machine.FDiscreteSpace.UnflattenAction ⟨[2, 3]⟩
        [.NaN, .Finite 1, .Finite 4, .Finite 0, .Finite 7, .Finite 7, .PosInf] 1 =
          some (.Discrete ⟨vals⟩) ∧
      (vals.length : Int) = FDiscreteSpace.GetNumDimensions ⟨[2, 3]⟩ ∧
      ∀ (i : Nat) (hi : i < ([2, 3] : List Int).length), ∃ k : Nat, vals[i]? = some (k : Int) ∧
        Machine.IsFirstArgMax
          ((([.NaN, .Finite 1, .Finite 4, .Finite 0, .Finite 7, .Finite 7, .PosInf] :
              List Machine.float).drop
            (1 + (([2, 3] : List Int).take i).sum).toNat).take (([2, 3] : List Int)[i]).toNat) k :=
  float_discrete_unflatten_consecutive_segments ⟨[2, 3]⟩
    [.NaN, .Finite 1, .Finite 4, .Finite 0, .Finite 7, .Finite 7, .PosInf] 1 (by decide)
    (by
      intro k hk1 hk
      have hk3 : k ≤ 2 := hk
      interval_cases k <;> (unfold Machine.IsInt32; decide))
    (by decide) (by decide) (by decide)

/-- Counterexample to C4 as stated, in three inputs that meet its hypotheses (every `High[i]` is
at least 1 and the buffer has at least `Off + GetFlattenedSize()` elements). With the offset -1
`UnflattenAction` reads `Data[-1]` and returns no point. With the segment `[1, NaN, 2]` it returns
the value 2, which is not an argmax index of the segment, as `2 >= NaN` is false. With
`High = [2147483647, 1]` the size computed in an `int` is -2147483648, so the empty buffer is
long enough, and the first read fails. -/
theorem float_discrete_unflatten_fails :
    ((∀ h ∈ (⟨[1]⟩ : FDiscreteSpace).High, 1 ≤ h) ∧
      (-1 : Int) + Machine.FDiscreteSpace.GetFlattenedSize ⟨[1]⟩ ≤
        (([.Finite 5] : List Machine.float).length : Int) ∧
      Machine.FDiscreteSpace.UnflattenAction ⟨[1]⟩ [.Finite 5] (-1) = none) ∧
    ((∀ h ∈ (⟨[3]⟩ : FDiscreteSpace).High, 1 ≤ h) ∧
      (0 : Int) + Machine.FDiscreteSpace.GetFlattenedSize ⟨[3]⟩ ≤
        (([.Finite 1, .NaN, .Finite 2] : List Machine.float).length : Int) ∧
      Machine.FDiscreteSpace.UnflattenAction ⟨[3]⟩ [.Finite 1, .NaN, .Finite 2] 0 =
        some (.Discrete ⟨[2]⟩) ∧
      ¬ Machine.IsFirstArgMax [.Finite 1, .NaN, .Finite 2] 2) ∧
    ((∀ h ∈ (⟨[2147483647, 1]⟩ : FDiscreteSpace).High, 1 ≤ h) ∧
      (0 : Int) + Machine.FDiscreteSpace.GetFlattenedSize ⟨[2147483647, 1]⟩ ≤
        (([] : List Machine.float).length : Int) ∧
      Machine.FDiscreteSpace.UnflattenAction ⟨[2147483647, 1]⟩ [] 0 = none) := by
  refine ⟨by decide, ⟨by decide, by decide, by decide, ?_⟩, by decide, by decide, ?_⟩
  · rintro ⟨_, h, _⟩
    have := h 1 (by decide)
    simp [Machine.float.ge, Machine.float.le] at this
  · rfl

/-! ## Box normalization in `float` arithmetic -/

/-- A box point without NaN passes `FBoxSpace::Validate`, for bounds without NaN, exactly when it
has one value per dimension and every value lies in its closed interval. -/
theorem Machine.FBoxSpace.Validate_float_success_iff (S : Machine.FBoxSpace)
    (p : Machine.FBoxPoint) (hval : ∀ v ∈ p.Values, v ≠ .NaN)
    (hdim : ∀ d ∈ S.Dimensions, d.Low ≠ .NaN ∧ d.High ≠ .NaN) :
    S.Validate (.Box p) = some .Success ↔
      p.Values.length = S.Dimensions.length ∧
      ∀ (i : Nat) (h1 : i < p.Values.length) (h2 : i < S.Dimensions.length),
        (S.Dimensions[i].Low).le p.Values[i] = true ∧
        (p.Values[i]).le S.Dimensions[i].High = true := by
  by_cases hlen : p.Values.length = S.Dimensions.length
  · have hvalid : S.Validate (.Box p) =
        Machine.FBoxSpace.ValidateLoop S.Dimensions p.Values S.Dimensions.length 0 := by
      simp [Machine.FBoxSpace.Validate, hlen]
    rw [hvalid]
    rcases Machine.FBoxSpace.ValidateLoop_float_spec S.Dimensions p.Values hlen hval hdim
      S.Dimensions.length 0 (by simp) with ⟨hall, hres⟩ | ⟨hnall, hres⟩
    · exact ⟨fun _ => ⟨hlen, fun i h1 h2 => hall i h1 h2 (Nat.zero_le i)⟩, fun _ => hres⟩
    · rw [hres]
      exact ⟨fun h => by simp at h, fun h => absurd (fun j h1 h2 _ => h.2 j h1 h2) hnall⟩
  · have hne : ¬ (S.Dimensions.length : Int) = p.Values.length := by omega
    simp [Machine.FBoxSpace.Validate, hne, hlen]

/-- The method `FBoxSpace::NormalizeObservation` on a box point with one value per dimension. -/
theorem Machine.FBoxSpace.NormalizeObservation_float_box (R : Machine.Rounding)
    (S : Machine.FBoxSpace) (p : Machine.FBoxPoint)
    (hlen : p.Values.length = S.Dimensions.length) :
    S.NormalizeObservation R (.Box p)
      = some (.Box ⟨List.zipWith (fun d v => d.NormalizeValue R v) S.Dimensions p.Values⟩) := by
  have h := forLoop_update
    (fun (d : Machine.FBoxSpaceDimension) (v : Machine.float) => some (d.NormalizeValue R v))
    (fun d v => d.NormalizeValue R v) S.Dimensions S.Dimensions.length 0 p.Values (by simp) hlen
    (fun _ _ _ _ => rfl)
  simp only [List.take_zero, List.nil_append, List.drop_zero] at h
  have hbody : (fun (i : Nat) (Values : List Machine.float) => do
      let d ← TArray.get S.Dimensions i
      let v ← TArray.get Values i
      TArray.set Values i (d.NormalizeValue R v)) = (fun (i : Nat) (V : List Machine.float) =>
        (TArray.get S.Dimensions (i : Int)).bind fun d => (TArray.get V (i : Int)).bind fun v =>
          (some (d.NormalizeValue R v)).bind fun w => TArray.set V (i : Int) w) := rfl
  rw [Machine.FBoxSpace.NormalizeObservation, hbody, h]
  rfl

/-- The normalized observation space has one `[0, 1]` dimension per dimension of the space. -/
theorem Machine.FBoxSpace.GetNormalizedObservationSpace_float_eq (S : Machine.FBoxSpace) :
    S.GetNormalizedObservationSpace
      = ⟨List.replicate S.Dimensions.length Machine.FBoxSpaceDimension.ZeroOneUnitDimension⟩ := by
  have h : ∀ (L : List Nat) (S0 : Machine.FBoxSpace),
      L.foldl (fun (O : Machine.FBoxSpace) _ =>
          O.Add Machine.FBoxSpaceDimension.ZeroOneUnitDimension) S0
        = ⟨S0.Dimensions ++
            List.replicate L.length Machine.FBoxSpaceDimension.ZeroOneUnitDimension⟩ := by
    intro L
    induction L with
    | nil => intro S0; simp
    | cons x L ih =>
      intro S0
      rw [List.foldl_cons, ih, Machine.FBoxSpace.Add, List.length_cons, List.replicate_succ]
      simp
  rw [Machine.FBoxSpace.GetNormalizedObservationSpace, h]
  simp

/-- A rounded value between the roundings of 0 and of a finite `w` is a number between 0 and
`w`. -/
theorem Machine.float.finite_of_between (r : Machine.float) (w : ℚ)
    (h0 : (Machine.float.Finite 0).le r = true) (h1 : r.le (.Finite w) = true) :
    ∃ a : ℚ, r = .Finite a ∧ 0 ≤ a ∧ a ≤ w := by
  cases r with
  | NaN => simp [Machine.float.le] at h0
  | NegInf => simp [Machine.float.le] at h0
  | PosInf => simp [Machine.float.le] at h1
  | Finite a =>
    exact ⟨a, rfl, by simpa [Machine.float.le] using h0, by simpa [Machine.float.le] using h1⟩

/-- A number inside `[Low, High]`, with `Low < High` and `High - Low` computed as a positive
finite number, normalizes into `[0, 1]`. -/
theorem Machine.FBoxSpaceDimension.NormalizeValue_float_mem_unit (R : Machine.Rounding)
    (d : Machine.FBoxSpaceDimension) (v : Machine.float)
    (hd : (d.Low).lt d.High = true)
    (hw : ∃ w : ℚ, Machine.float.sub R d.High d.Low = .Finite w ∧ 0 < w)
    (h1 : (d.Low).le v = true) (h2 : v.le d.High = true) :
    (Machine.float.Finite 0).le (d.NormalizeValue R v) = true ∧
      (d.NormalizeValue R v).le (.Finite 1) = true := by
  obtain ⟨w, hw, hwpos⟩ := hw
  have hw0 : w ≠ 0 := ne_of_gt hwpos
  obtain ⟨hi, lo⟩ := d
  simp only at hd hw h1 h2
  cases hi with
  | NaN => cases lo <;> simp [Machine.float.lt] at hd
  | NegInf => cases lo <;> simp [Machine.float.lt] at hd
  | PosInf => cases lo <;> simp [Machine.float.sub] at hw
  | Finite h =>
    cases lo with
    | NaN => simp [Machine.float.lt] at hd
    | NegInf => simp [Machine.float.sub] at hw
    | PosInf => simp [Machine.float.lt] at hd
    | Finite l =>
      have hlh : l < h := by simpa [Machine.float.lt] using hd
      cases v with
      | NaN => simp [Machine.float.le] at h1
      | NegInf => simp [Machine.float.le] at h1
      | PosInf => simp [Machine.float.le] at h2
      | Finite x =>
        have hlx : l ≤ x := by simpa [Machine.float.le] using h1
        have hxh : x ≤ h := by simpa [Machine.float.le] using h2
        have hsubw : R.round (h - l) = .Finite w := by simpa [Machine.float.sub] using hw
        have ha0 : (Machine.float.Finite 0).le (R.round (x - l)) = true := by
          have := R.mono 0 (x - l) (by linarith)
          rwa [R.zero] at this
        have ha1 : (R.round (x - l)).le (.Finite w) = true := by
          have := R.mono (x - l) (h - l) (by linarith)
          rwa [hsubw] at this
        obtain ⟨a, ha, ha_nonneg, ha_le⟩ := Machine.float.finite_of_between _ w ha0 ha1
        have hnorm : Machine.FBoxSpaceDimension.NormalizeValue R ⟨.Finite h, .Finite l⟩
            (.Finite x) = R.round (a / w) := by
          simp only [Machine.FBoxSpaceDimension.NormalizeValue, Machine.float.sub, hsubw, ha,
            Machine.float.div, if_neg hw0]
        rw [hnorm]
        constructor
        · have := R.mono 0 (a / w) (div_nonneg ha_nonneg (le_of_lt hwpos))
          rwa [R.zero] at this
        · have := R.mono (a / w) 1 ((div_le_one hwpos).mpr ha_le)
          rwa [R.one] at this

/-- A strict comparison holds between values that are not NaN. -/
theorem Machine.float.ne_nan_of_lt (a b : Machine.float) (h : a.lt b = true) :
    a ≠ .NaN ∧ b ≠ .NaN := by
  cases a <;> cases b <;> simp [Machine.float.lt] at h ⊢

/-- A value between 0 and 1 is not NaN. -/
theorem Machine.float.ne_nan_of_le (a b : Machine.float) (h : a.le b = true) : b ≠ .NaN := by
  cases a <;> cases b <;> simp [Machine.float.le] at h ⊢

/-- C15 (amended). Box normalization lands in [0,1]: when every dimension has `Low < High` with
`High - Low` computed as a positive finite number, and the box point holds no NaN and
validates as `Success`, `NormalizeObservation` returns a point with the same number of values,
value `i` being `NormalizeValue` of the old one, every value in `[0, 1]`; that point validates as
`Success` against `GetNormalizedObservationSpace()`, which has the same number of dimensions,
each with bounds `[0, 1]`. -/
theorem float_box_normalize_unit_interval (R : Machine.Rounding) (S : Machine.FBoxSpace)
    (p : Machine.FBoxPoint)
    (hdim : ∀ d ∈ S.Dimensions, (d.Low).lt d.High = true)
    (hwidth : ∀ d ∈ S.Dimensions,
      ∃ w : ℚ, Machine.float.sub R d.High d.Low = .Finite w ∧ 0 < w)
    (hnan : ∀ v ∈ p.Values, v ≠ .NaN)
    (hval : S.Validate (.Box p) = some .Success) :
    ∃ q : Machine.FBoxPoint, S.NormalizeObservation R (.Box p) = some (.Box q) ∧
      q.Values = List.zipWith (fun d v => d.NormalizeValue R v) S.Dimensions p.Values ∧
      (∀ v ∈ q.Values, (Machine.float.Finite 0).le v = true ∧ v.le (.Finite 1) = true) ∧
      q.Values.length = p.Values.length ∧
      S.GetNormalizedObservationSpace.Validate (.Box q) = some .Success ∧
      S.GetNormalizedObservationSpace.GetNumDimensions = S.GetNumDimensions ∧
      (∀ d ∈ S.GetNormalizedObservationSpace.Dimensions,
        d.Low = .Finite 0 ∧ d.High = .Finite 1) := by
  have hdim_nan : ∀ d ∈ S.Dimensions, d.Low ≠ .NaN ∧ d.High ≠ .NaN := fun d hd =>
    Machine.float.ne_nan_of_lt _ _ (hdim d hd)
  obtain ⟨hlen, hbounds⟩ := (S.Validate_float_success_iff p hnan hdim_nan).mp hval
  have hunit : ∀ v ∈ List.zipWith
      (fun (d : Machine.FBoxSpaceDimension) v => d.NormalizeValue R v) S.Dimensions p.Values,
      (Machine.float.Finite 0).le v = true ∧ v.le (.Finite 1) = true := by
    intro v hv
    obtain ⟨k, hk, rfl⟩ := List.getElem_of_mem hv
    rw [List.length_zipWith] at hk
    have hkD : k < S.Dimensions.length := by omega
    have hkV : k < p.Values.length := by omega
    rw [List.getElem_zipWith]
    exact (S.Dimensions[k]).NormalizeValue_float_mem_unit R _ (hdim _ (List.getElem_mem hkD))
      (hwidth _ (List.getElem_mem hkD)) (hbounds k hkV hkD).1 (hbounds k hkV hkD).2
  have hqlen : (List.zipWith (fun (d : Machine.FBoxSpaceDimension) v => d.NormalizeValue R v)
      S.Dimensions p.Values).length = p.Values.length := by
    rw [List.length_zipWith]; omega
  refine ⟨⟨_⟩, S.NormalizeObservation_float_box R p hlen, rfl, hunit, hqlen, ?_, ?_, ?_⟩
  · rw [Machine.FBoxSpace.Validate_float_success_iff, S.GetNormalizedObservationSpace_float_eq]
    · refine ⟨by rw [hqlen, List.length_replicate]; exact hlen, ?_⟩
      intro i h1 h2
      have := hunit _ (List.getElem_mem h1)
      simpa [Machine.FBoxSpaceDimension.ZeroOneUnitDimension,
        Machine.FBoxSpaceDimension.ofBounds] using this
    · intro v hv
      exact Machine.float.ne_nan_of_le _ _ (hunit v hv).1
    · rw [S.GetNormalizedObservationSpace_float_eq]
      intro d hd
      rw [List.eq_of_mem_replicate hd]
      exact ⟨by decide, by decide⟩
  · rw [S.GetNormalizedObservationSpace_float_eq]
    simp [Machine.FBoxSpace.GetNumDimensions]
  · rw [S.GetNormalizedObservationSpace_float_eq]
    intro d hd
    rw [List.eq_of_mem_replicate hd]
    exact ⟨rfl, rfl⟩

/-- Witness for C15: the space `[(-1, 1), (0, 8)]` and the point `(1, 2)`, with a rounding that
keeps the results `2`, `8`, `1` and `1/4` as they are. -/
theorem float_box_normalize_unit_interval_witness :
    ∃ q : Machine.FBoxPoint,
      Machine.FBoxSpace.NormalizeObservation Machine.Rounding.saturating
        ⟨[⟨.Finite 1, .Finite (-1)⟩, ⟨.Finite 8, .Finite 0⟩]⟩ (.Box ⟨[.Finite 1, .Finite 2]⟩) =
          some (.Box q) ∧
      ∀ v ∈ q.Values, (Machine.float.Finite 0).le v = true ∧ v.le (.Finite 1) = true :=
  (float_box_normalize_unit_interval Machine.Rounding.saturating
    ⟨[⟨.Finite 1, .Finite (-1)⟩, ⟨.Finite 8, .Finite 0⟩]⟩ ⟨[.Finite 1, .Finite 2]⟩
    (by decide)
    (by
      intro d hd
      simp only [List.mem_cons, List.mem_singleton, List.not_mem_nil, or_false] at hd
      rcases hd with rfl | rfl
      · exact ⟨2, by simp [Machine.float.sub, Machine.Rounding.saturating]; norm_num,
          by norm_num⟩
      · exact ⟨8, by simp [Machine.float.sub, Machine.Rounding.saturating]; norm_num,
          by norm_num⟩)
    (by decide) (by decide)).imp fun q h => ⟨h.1, h.2.2.1⟩

/-- Counterexample to C15 as stated, whatever the rounding. In the dimension `(0, 1)` the value
NaN validates as `Success`, as no comparison with NaN holds, and normalizes to NaN, which is not
in `[0, 1]`. In the dimension `(-2^127, 2^127)` the value `2^127` validates as `Success`; both
`Value - Low` and `High - Low` are `2^128` and overflow to the infinity, and their quotient is
NaN. -/
theorem box_normalize_yields_nan :
    ((∀ d ∈ (⟨[⟨.Finite 1, .Finite 0⟩]⟩ : Machine.FBoxSpace).Dimensions,
        (d.Low).lt d.High = true) ∧
      Machine.FBoxSpace.Validate ⟨[⟨.Finite 1, .Finite 0⟩]⟩ (.Box ⟨[.NaN]⟩) = some .Success ∧
      (∀ R : Machine.Rounding,
        Machine.FBoxSpace.NormalizeObservation R ⟨[⟨.Finite 1, .Finite 0⟩]⟩ (.Box ⟨[.NaN]⟩) =
          some (.Box ⟨[.NaN]⟩)) ∧
      ¬ ((Machine.float.Finite 0).le .NaN = true ∧ Machine.float.NaN.le (.Finite 1) = true)) ∧
    ((∀ d ∈ (⟨[⟨.Finite (2 ^ 127), .Finite (-2 ^ 127)⟩]⟩ : Machine.FBoxSpace).Dimensions,
        (d.Low).lt d.High = true) ∧
      Machine.FBoxSpace.Validate ⟨[⟨.Finite (2 ^ 127), .Finite (-2 ^ 127)⟩]⟩
        (.Box ⟨[.Finite (2 ^ 127)]⟩) = some .Success ∧
      (∀ R : Machine.Rounding,
        Machine.FBoxSpace.NormalizeObservation R ⟨[⟨.Finite (2 ^ 127), .Finite (-2 ^ 127)⟩]⟩
          (.Box ⟨[.Finite (2 ^ 127)]⟩) = some (.Box ⟨[.NaN]⟩))) := by
  refine ⟨⟨by decide, by decide, ?_, by decide⟩, ?_, ?_, ?_⟩
  · intro R
    simp [Machine.FBoxSpace.NormalizeObservation, forLoop, TArray.get, TArray.set,
      Machine.FBoxSpaceDimension.NormalizeValue, Machine.float.sub, Machine.float.div]
  · intro d hd
    simp only [List.mem_singleton] at hd
    subst hd
    simp [Machine.float.lt]
  · simp [Machine.FBoxSpace.Validate, Machine.FBoxSpace.ValidateLoop, TArray.get,
      Machine.float.gt, Machine.float.lt]
  · intro R
    have h : R.round (2 ^ 127 + 2 ^ 127) = .PosInf := R.overflow _ (by norm_num)
    simp [Machine.FBoxSpace.NormalizeObservation, forLoop, TArray.get, TArray.set,
      Machine.FBoxSpaceDimension.NormalizeValue, Machine.float.sub, Machine.float.div, h]

end Schola
